import Mathlib

/-!
# Verification of the k-color-api graph-coloring engine

Shallow embedding of the algorithm modules of the `k-color-api` repository
(`algorithms/greedy.py`, `dsatur.py`, `recursiveLargestFirst.py`, `backtrack.py`,
`backtrackDsatur.py`, `branchAndBound.py`, `chromaticPolynomial.py`,
`metropolis.py`, `simulatedAnnealing.py`, `genetic.py`).

Python dicts are modelled as association lists in insertion order; a graph is
the adjacency dict `node -> neighbour list`.  Randomness is modelled by
explicit choice streams: every random draw of the Python code is replaced by a
value taken from a caller-supplied stream, and the theorems quantify over all
streams.  CPython set iteration order (which only influences tie-breaking and
duplicate-removal order in the code) is modelled by deterministic
first-occurrence variants; no claim below depends on those tie-breaks.
Loops without a structural bound (`while True` in the exact-search drivers,
the best-first loop of branch and bound, the deletion-contraction recursion)
take an explicit fuel argument; sufficiency of the fuel used is proved where a
claim needs termination.
-/

set_option maxRecDepth 10000

namespace KColorAPI

/-- A graph: the Python adjacency dict `node -> list of neighbours`,
in insertion order. -/
abbrev Graph := List (Nat × List Nat)

/-- The dict keys, in order (`list(graph.keys())`). -/
def keys (g : Graph) : List Nat := g.map Prod.fst

/-- `graph[v]` (defaulting to `[]` for a missing key; all runs use keys only). -/
def adjOf : Graph → Nat → List Nat
  | [], _ => []
  | p :: g, v => if p.fst = v then p.snd else adjOf g v

/-- `len(graph[v])`. -/
def degree (g : Graph) (v : Nat) : Nat := (adjOf g v).length

/-- A Python dict of colors, as an association list in insertion order. -/
abbrev Coloring := List (Nat × Nat)

/-- `coloring[v]` as an option (`none` = key absent). -/
def lookupC : Coloring → Nat → Option Nat
  | [], _ => none
  | p :: c, v => if p.fst = v then some p.snd else lookupC c v

/-- `v in coloring`. -/
def memC (c : Coloring) (v : Nat) : Bool := (lookupC c v).isSome

/-- `coloring[v] = col`: update in place if present, append otherwise
(Python dict assignment keeps insertion order). -/
def insertC : Coloring → Nat → Nat → Coloring
  | [], v, col => [(v, col)]
  | p :: c, v, col => if p.fst = v then (v, col) :: c else p :: insertC c v col

/-- `del coloring[v]`. -/
def eraseC (c : Coloring) (v : Nat) : Coloring := c.filter (fun p => !(p.fst == v))

/-- `list(coloring.values())`. -/
def valuesC (c : Coloring) : List Nat := c.map Prod.snd

/-- `max(coloring.values())` with the `... if coloring else 0` convention used
throughout the code (all stored colors are positive in every run). -/
def maxValues (c : Coloring) : Nat := (valuesC c).foldl max 0

/-- `coloring.get(v, 0)`: total lookup with default 0 (0 = uncolored). -/
def lookupD (c : Coloring) (v : Nat) : Nat := (lookupC c v).getD 0

/-! ## Well-formedness and semantic notions -/

/-- Well-formed adjacency dict: distinct keys, every neighbour is a key, and
no repeated entry inside one neighbour list (simple graph). -/
def WF (g : Graph) : Prop :=
  (keys g).Nodup ∧ ∀ p ∈ g, p.snd.Nodup ∧ ∀ u ∈ p.snd, u ∈ keys g

/-- Symmetric adjacency. -/
def Symm (g : Graph) : Prop :=
  ∀ v ∈ keys g, ∀ u ∈ adjOf g v, v ∈ adjOf g u

/-- No self-loop. -/
def NoSelfLoop (g : Graph) : Prop := ∀ p ∈ g, p.fst ∉ p.snd

/-- The self-loop test performed by the code
(`for node, neighbors in graph.items(): if node in neighbors`). -/
def hasSelfLoopB (g : Graph) : Bool := g.any (fun p => p.snd.contains p.fst)

/-- Proper partial coloring: no two distinct adjacent vertices share a color. -/
def ProperOn (g : Graph) (c : Coloring) : Prop :=
  ∀ v ∈ keys g, ∀ u ∈ adjOf g v, u ≠ v →
    ∀ a, lookupC c v = some a → lookupC c u ≠ some a

/-- Complete coloring: every vertex of the graph has a color. -/
def CompleteOn (g : Graph) (c : Coloring) : Prop :=
  ∀ v ∈ keys g, (lookupC c v).isSome

/-- All colors stored for graph vertices lie in `1..k`. -/
def ColorsIn (g : Graph) (c : Coloring) (k : Nat) : Prop :=
  ∀ v ∈ keys g, ∀ a, lookupC c v = some a → 1 ≤ a ∧ a ≤ k

/-- The graph admits a proper complete coloring with colors in `1..k`. -/
def IsKColorable (g : Graph) (k : Nat) : Prop :=
  ∃ c : Coloring, ProperOn g c ∧ CompleteOn g c ∧ ColorsIn g c k

/-- `n` is the chromatic number of `g`. -/
def HasChromaticNumber (g : Graph) (n : Nat) : Prop :=
  IsKColorable g n ∧ ∀ m, m < n → ¬ IsKColorable g m

/-! ## A decidable reference check for `IsKColorable` -/

instance (g : Graph) : Decidable (WF g) := by unfold WF; exact inferInstance

instance (g : Graph) : Decidable (Symm g) := by unfold Symm; exact inferInstance

instance (g : Graph) : Decidable (NoSelfLoop g) := by unfold NoSelfLoop; exact inferInstance

/-- Bool check of proper completeness (used by the exhaustive reference search). -/
def isProperCompleteB (g : Graph) (c : Coloring) : Bool :=
  g.all (fun p => (lookupC c p.fst).isSome &&
    p.snd.all (fun u => u == p.fst || !(lookupC c p.fst == lookupC c u)))

/-- Exhaustive search: assign the vertices of `vs` all combinations of colors
`1..k` on top of `c` and test `isProperCompleteB`. -/
def searchColoring (g : Graph) (k : Nat) : List Nat → Coloring → Bool
  | [], c => isProperCompleteB g c
  | v :: rest, c => (List.range' 1 k).any (fun col => searchColoring g k rest (insertC c v col))

/-- Decidable reference test for `k`-colorability. -/
def existsKColoringB (g : Graph) (k : Nat) : Bool := searchColoring g k (keys g) []

/-! ## Basic dictionary lemmas -/

theorem lookupC_insertC (c : Coloring) (v col w : Nat) :
    lookupC (insertC c v col) w = if v = w then some col else lookupC c w := by
  induction c with
  | nil =>
    simp only [insertC, lookupC]
  | cons p c ih =>
    simp only [insertC]
    by_cases hp : p.fst = v
    · rw [if_pos hp]
      simp only [lookupC]
      by_cases h : v = w
      · rw [if_pos h, if_pos h]
      · have hpw : ¬ p.fst = w := fun hw => h (hp.symm.trans hw)
        rw [if_neg h, if_neg h, if_neg hpw]
    · rw [if_neg hp]
      simp only [lookupC]
      by_cases h : p.fst = w
      · have hvw : ¬ v = w := fun hv => hp (h.trans hv.symm)
        rw [if_pos h, if_neg hvw, if_pos h]
      · rw [if_neg h, if_neg h, ih]

theorem lookupC_insertC_self (c : Coloring) (v col : Nat) :
    lookupC (insertC c v col) v = some col := by
  simp [lookupC_insertC]

theorem lookupC_insertC_ne (c : Coloring) (v col w : Nat) (h : v ≠ w) :
    lookupC (insertC c v col) w = lookupC c w := by
  simp [lookupC_insertC, h]

theorem memC_true_iff (c : Coloring) (v : Nat) :
    memC c v = true ↔ ∃ a, lookupC c v = some a := by
  unfold memC
  cases h : lookupC c v <;> simp [Option.isSome, h]

theorem memC_false_iff (c : Coloring) (v : Nat) :
    memC c v = false ↔ lookupC c v = none := by
  unfold memC
  cases h : lookupC c v <;> simp [Option.isSome, h]

/-! ## Search soundness and completeness for the reference check -/

/-- Assign colors `as` to vertices `vs` pointwise. -/
def assignAll (c : Coloring) : List Nat → List Nat → Coloring
  | v :: vs, a :: as => assignAll (insertC c v a) vs as
  | _, _ => c

theorem lookupC_assignAll_not_mem (vs as : List Nat) (c : Coloring) (w : Nat)
    (h : w ∉ vs) : lookupC (assignAll c vs as) w = lookupC c w := by
  induction vs generalizing c as with
  | nil => cases as <;> rfl
  | cons v vs ih =>
    cases as with
    | nil => rfl
    | cons a as =>
      have hvw : v ≠ w := fun hv => h (hv ▸ List.mem_cons_self v vs)
      have hw : w ∉ vs := fun hw => h (List.mem_cons_of_mem _ hw)
      simp only [assignAll]
      rw [ih _ _ hw, lookupC_insertC_ne _ _ _ _ hvw]

theorem lookupC_assignAll_mem (vs as : List Nat) (c : Coloring) (w : Nat)
    (hlen : as.length = vs.length) (h : w ∈ vs) :
    ∃ a ∈ as, lookupC (assignAll c vs as) w = some a := by
  induction vs generalizing c as with
  | nil => cases h
  | cons v vs ih =>
    cases as with
    | nil => simp at hlen
    | cons a as =>
      have hlen' : as.length = vs.length := by simpa using hlen
      simp only [assignAll]
      by_cases hw : w ∈ vs
      · obtain ⟨b, hb, hl⟩ := ih as (insertC c v a) hlen' hw
        exact ⟨b, List.mem_cons_of_mem _ hb, hl⟩
      · have hvw : v = w := by
          rcases List.mem_cons.mp h with h' | h'
          · exact h'.symm
          · exact absurd h' hw
        refine ⟨a, List.mem_cons_self a as, ?_⟩
        rw [lookupC_assignAll_not_mem _ _ _ _ hw, hvw, lookupC_insertC_self]

theorem searchColoring_iff (g : Graph) (k : Nat) (vs : List Nat) (c : Coloring) :
    searchColoring g k vs c = true ↔
      ∃ as : List Nat, as.length = vs.length ∧ (∀ a ∈ as, 1 ≤ a ∧ a ≤ k) ∧
        isProperCompleteB g (assignAll c vs as) = true := by
  induction vs generalizing c with
  | nil =>
    constructor
    · intro h
      exact ⟨[], rfl, by simp, h⟩
    · rintro ⟨as, hlen, _, h⟩
      cases as with
      | nil => exact h
      | cons a as => simp at hlen
  | cons v vs ih =>
    simp only [searchColoring, List.any_eq_true]
    constructor
    · rintro ⟨col, hcol, hrec⟩
      obtain ⟨as, hlen, hbnd, hp⟩ := (ih (insertC c v col)).mp hrec
      have hcol' : 1 ≤ col ∧ col ≤ k := by
        have := List.mem_range'_1.mp hcol
        omega
      refine ⟨col :: as, by simp [hlen], ?_, hp⟩
      intro a ha
      rcases List.mem_cons.mp ha with h' | h'
      · exact h' ▸ hcol'
      · exact hbnd a h'
    · rintro ⟨as, hlen, hbnd, hp⟩
      cases as with
      | nil => simp at hlen
      | cons a as =>
        have ha := hbnd a (List.mem_cons_self a as)
        refine ⟨a, List.mem_range'_1.mpr ⟨ha.1, by omega⟩, ?_⟩
        exact (ih (insertC c v a)).mpr
          ⟨as, by simpa using hlen, fun b hb => hbnd b (List.mem_cons_of_mem _ hb), hp⟩

theorem mem_keys_iff (g : Graph) (v : Nat) : v ∈ keys g ↔ ∃ ns, (v, ns) ∈ g := by
  unfold keys
  constructor
  · intro h
    obtain ⟨p, hp, he⟩ := List.mem_map.mp h
    exact ⟨p.snd, by rwa [show (v, p.snd) = p from by rw [← he]]⟩
  · rintro ⟨ns, h⟩
    exact List.mem_map.mpr ⟨(v, ns), h, rfl⟩

theorem adjOf_eq_of_mem (g : Graph) (v : Nat) (ns : List Nat)
    (hnd : (keys g).Nodup) (h : (v, ns) ∈ g) : adjOf g v = ns := by
  induction g with
  | nil => cases h
  | cons p g ih =>
    rcases List.mem_cons.mp h with h' | h'
    · rw [← h']
      simp [adjOf]
    · have hv : v ∈ keys g := (mem_keys_iff g v).mpr ⟨ns, h'⟩
      have hp : p.fst ≠ v := by
        intro he
        have := (List.nodup_cons.mp hnd).1
        exact this (he ▸ hv)
      simp only [adjOf, hp, if_false]
      exact ih (List.nodup_cons.mp hnd).2 h'

/-- Semantic reading of `isProperCompleteB` (for duplicate-free keys). -/
theorem isProperCompleteB_iff (g : Graph) (c : Coloring) (hnd : (keys g).Nodup) :
    isProperCompleteB g c = true ↔
      CompleteOn g c ∧ ∀ v ∈ keys g, ∀ u ∈ adjOf g v, u ≠ v → lookupC c v ≠ lookupC c u := by
  unfold isProperCompleteB CompleteOn
  rw [List.all_eq_true]
  constructor
  · intro h
    constructor
    · intro v hv
      obtain ⟨ns, hns⟩ := (mem_keys_iff g v).mp hv
      exact (Bool.and_eq_true _ _).mp (h _ hns) |>.1
    · intro v hv u hu hne
      obtain ⟨ns, hns⟩ := (mem_keys_iff g v).mp hv
      have hadj : adjOf g v = ns := adjOf_eq_of_mem g v ns hnd hns
      have h2 := (Bool.and_eq_true _ _).mp (h _ hns) |>.2
      rw [List.all_eq_true] at h2
      have := h2 u (hadj ▸ hu)
      rcases Bool.or_eq_true _ _ |>.mp this with h' | h'
      · exact absurd (eq_of_beq h') hne
      · intro he
        rw [Bool.not_eq_eq_eq_not, Bool.not_true, beq_eq_false_iff_ne] at h'
        exact h' he
  · rintro ⟨hcomp, hprop⟩ p hp
    have hv : p.fst ∈ keys g := (mem_keys_iff g p.fst).mpr ⟨p.snd, by rwa [show (p.fst, p.snd) = p from rfl]⟩
    rw [Bool.and_eq_true]
    refine ⟨hcomp _ hv, ?_⟩
    rw [List.all_eq_true]
    intro u hu
    have hadj : adjOf g p.fst = p.snd :=
      adjOf_eq_of_mem g p.fst p.snd hnd (by rwa [show (p.fst, p.snd) = p from rfl])
    by_cases he : u = p.fst
    · simp [he]
    · have := hprop p.fst hv u (hadj ▸ hu) he
      rw [Bool.or_eq_true]
      right
      rw [Bool.not_eq_eq_eq_not, Bool.not_true, beq_eq_false_iff_ne]
      exact this

theorem isKColorable_of_search (g : Graph) (k : Nat) (hnd : (keys g).Nodup)
    (h : existsKColoringB g k = true) : IsKColorable g k := by
  obtain ⟨as, hlen, hbnd, hp⟩ := (searchColoring_iff g k (keys g) []).mp h
  set c := assignAll [] (keys g) as with hc
  obtain ⟨hcomp, hprop⟩ := (isProperCompleteB_iff g c hnd).mp hp
  refine ⟨c, ?_, hcomp, ?_⟩
  · intro v hv u hu hne a hva hua
    exact hprop v hv u hu hne (hva.trans hua.symm)
  · intro v hv a hva
    obtain ⟨b, hb, hlb⟩ := lookupC_assignAll_mem (keys g) as [] v hlen hv
    rw [← hc] at hlb
    have : a = b := by
      rw [hva] at hlb
      exact Option.some.inj hlb
    exact this ▸ hbnd b hb

theorem lookupC_assignAll_map (vs : List Nat) (f : Nat → Nat) (c : Coloring) (v : Nat)
    (hnd : vs.Nodup) (hv : v ∈ vs) :
    lookupC (assignAll c vs (vs.map f)) v = some (f v) := by
  induction vs generalizing c with
  | nil => cases hv
  | cons w vs ih =>
    simp only [List.map_cons, assignAll]
    rcases List.mem_cons.mp hv with h | h
    · have hnotin : v ∉ vs := h ▸ (List.nodup_cons.mp hnd).1
      rw [lookupC_assignAll_not_mem _ _ _ _ hnotin, h, lookupC_insertC_self]
    · exact ih _ (List.nodup_cons.mp hnd).2 h

theorem exists_entry_of_mem_adjOf (g : Graph) (v u : Nat) (h : u ∈ adjOf g v) :
    ∃ ns, (v, ns) ∈ g ∧ u ∈ ns := by
  induction g with
  | nil => cases h
  | cons p g ih =>
    simp only [adjOf] at h
    by_cases hp : p.fst = v
    · rw [if_pos hp] at h
      refine ⟨p.snd, ?_, h⟩
      have he : (v, p.snd) = p := by
        obtain ⟨a, b⟩ := p
        simp only at hp
        rw [hp]
      rw [he]
      exact List.mem_cons_self _ _
    · rw [if_neg hp] at h
      obtain ⟨ns, hmem, hu⟩ := ih h
      exact ⟨ns, List.mem_cons_of_mem _ hmem, hu⟩

theorem mem_keys_of_mem_adjOf (g : Graph) (hwf : WF g) (v u : Nat) (h : u ∈ adjOf g v) :
    u ∈ keys g := by
  obtain ⟨ns, hmem, hu⟩ := exists_entry_of_mem_adjOf g v u h
  exact (hwf.2 _ hmem).2 u hu

theorem search_of_isKColorable (g : Graph) (k : Nat) (hwf : WF g)
    (h : IsKColorable g k) : existsKColoringB g k = true := by
  have hnd : (keys g).Nodup := hwf.1
  obtain ⟨c, hprop, hcomp, hcol⟩ := h
  apply (searchColoring_iff g k (keys g) []).mpr
  refine ⟨(keys g).map (fun v => (lookupC c v).getD 1), by simp, ?_, ?_⟩
  · intro a ha
    obtain ⟨v, hv, he⟩ := List.mem_map.mp ha
    obtain ⟨b, hb⟩ := (memC_true_iff c v).mp (by
      unfold memC
      rw [Option.isSome_iff_exists]
      obtain ⟨b, hb⟩ := Option.isSome_iff_exists.mp (hcomp v hv)
      exact ⟨b, hb⟩)
    rw [hb] at he
    exact he ▸ hcol v hv b hb
  · have hlook : ∀ v ∈ keys g,
        lookupC (assignAll [] (keys g) ((keys g).map (fun v => (lookupC c v).getD 1))) v
          = lookupC c v := by
      intro v hv
      rw [lookupC_assignAll_map _ _ _ _ hnd hv]
      obtain ⟨b, hb⟩ := Option.isSome_iff_exists.mp (hcomp v hv)
      rw [hb]
      rfl
    apply (isProperCompleteB_iff g _ hnd).mpr
    constructor
    · intro v hv
      rw [hlook v hv]
      exact hcomp v hv
    · intro v hv u hu hne
      have hukey : u ∈ keys g := mem_keys_of_mem_adjOf g hwf v u hu
      rw [hlook v hv, hlook u hukey]
      obtain ⟨a, ha⟩ := Option.isSome_iff_exists.mp (hcomp v hv)
      rw [ha]
      exact fun he => hprop v hv u hu hne a ha he.symm

/-! ## Shared result record

Modelled from the spec: `algorithmResultTemplate` (`algorithms/algorithmResult.py`)
is imported by every algorithm but its file is not among the provided sources.
Spec §3 (AlgorithmResult) describes a record holding the final coloring, the
count of distinct colors used, and an optional proven-minimal chromatic number;
fields an algorithm does not set are modelled as unset (`none`). -/

structure AlgResult where
  chromatic_number : Option Nat := none
  k : Option Nat := none
  coloring : Coloring := []
deriving Repr, DecidableEq

/-- Modelled from the spec: the default result record (all fields unset). -/
def algorithmResultTemplate : AlgResult := {}

/-! ## `backtrack.py` -/

/-- `is_safe(node, color, graph, coloring)`: no neighbour already holds `color`. -/
def is_safe (node color : Nat) (g : Graph) (coloring : Coloring) : Bool :=
  (adjOf g node).all (fun nbr => !(lookupC coloring nbr == some color))

/-- `backtrack_coloring`, functionally: the Python function mutates `coloring`
and returns a Bool; on failure every assignment it made has been undone, so it
is equivalent to returning the finished coloring on success and `none` on
failure.  The `steps` recording is omitted (it never feeds back into results). -/
def backtrack_coloring (g : Graph) (k : Nat) : List Nat → Coloring → Option Coloring
  | [], coloring => some coloring
  | node :: rest, coloring =>
    if memC coloring node then backtrack_coloring g k rest coloring
    else
      (List.range' 1 k).findSome? (fun color =>
        if is_safe node color g coloring then
          backtrack_coloring g k rest (insertC coloring node color)
        else none)

/-- Stable insertion of `x` after all already-placed elements of degree ≥ its own. -/
def insertByDeg (g : Graph) (x : Nat) : List Nat → List Nat
  | [] => [x]
  | y :: ys => if degree g y < degree g x then x :: y :: ys else y :: insertByDeg g x ys

/-- `sorted(nodes, key=lambda x: len(graph[x]), reverse=True)`: the Python sort is
stable, and a stable descending sort is uniquely determined by the key, so the
stable insertion sort below computes the same list. -/
def nodesOrdered (g : Graph) : List Nat :=
  (keys g).foldl (fun acc x => insertByDeg g x acc) []

/-- The `while True: ... k += 1` loop of `find_min_k_backtracking`, with fuel. -/
def findMinKLoop (g : Graph) (nodesOrd : List Nat) (coloring : Coloring) :
    Nat → Nat → Option AlgResult
  | 0, _ => none
  | fuel + 1, k =>
    match backtrack_coloring g k nodesOrd coloring with
    | some c => some { chromatic_number := some k, k := some k, coloring := c }
    | none => findMinKLoop g nodesOrd coloring fuel (k + 1)

/-- `find_min_k_backtracking(graph, k=1, record_steps=False, initial_assignment=None)`.
The fuel `|V| + 1` is enough: `findMinKLoop_isSome` below shows the loop always
returns within that many rounds, matching the termination argument of the spec. -/
def find_min_k_backtracking (g : Graph) (k : Nat := 1) (ia : Option Coloring := none) :
    Option AlgResult :=
  let nodesOrd := nodesOrdered g
  let coloring := match ia with | some l => l | none => []
  let k1 := match ia with
    | some l => if l.isEmpty then max k 1 else max k (maxValues l)
    | none => k
  findMinKLoop g nodesOrd coloring ((keys g).length + 1) k1

/-! ### Correctness of `backtrack_coloring` -/

theorem is_safe_true_iff (node color : Nat) (g : Graph) (c : Coloring) :
    is_safe node color g c = true ↔ ∀ u ∈ adjOf g node, lookupC c u ≠ some color := by
  unfold is_safe
  rw [List.all_eq_true]
  constructor
  · intro h u hu he
    have := h u hu
    rw [he] at this
    simp at this
  · intro h u hu
    have := h u hu
    cases hl : lookupC c u with
    | none => simp [hl]
    | some b =>
      rw [hl] at this
      have : b ≠ color := fun hb => this (hb ▸ rfl)
      simp [hl, this]

theorem backtrack_coloring_extends (g : Graph) (k : Nat) (rest : List Nat)
    (c c' : Coloring) (h : backtrack_coloring g k rest c = some c') :
    ∀ v a, lookupC c v = some a → lookupC c' v = some a := by
  induction rest generalizing c with
  | nil =>
    simp only [backtrack_coloring] at h
    cases h
    exact fun v a hv => hv
  | cons node rest ih =>
    simp only [backtrack_coloring] at h
    by_cases hm : memC c node = true
    · rw [if_pos hm] at h
      exact ih c h
    · rw [if_neg hm] at h
      obtain ⟨color, hcmem, hf⟩ := List.exists_of_findSome?_eq_some h
      by_cases hs : is_safe node color g c = true
      · rw [if_pos hs] at hf
        intro v a hv
        have hnode : lookupC c node = none := (memC_false_iff c node).mp (by
          cases hmm : memC c node
          · rfl
          · exact absurd hmm hm)
        have hvne : node ≠ v := by
          intro he
          rw [he, hv] at hnode
          cases hnode
        exact ih _ hf v a (by rw [lookupC_insertC_ne _ _ _ _ hvne]; exact hv)
      · rw [if_neg hs] at hf
        cases hf

theorem backtrack_coloring_assigned (g : Graph) (k : Nat) (rest : List Nat)
    (c c' : Coloring) (h : backtrack_coloring g k rest c = some c') :
    ∀ v ∈ rest, (lookupC c' v).isSome := by
  induction rest generalizing c with
  | nil => intro v hv; cases hv
  | cons node rest ih =>
    simp only [backtrack_coloring] at h
    by_cases hm : memC c node = true
    · rw [if_pos hm] at h
      intro v hv
      rcases List.mem_cons.mp hv with he | hv'
      · obtain ⟨a, ha⟩ := (memC_true_iff c node).mp hm
        rw [he, Option.isSome_iff_exists]
        exact ⟨a, backtrack_coloring_extends g k rest c c' h node a ha⟩
      · exact ih c h v hv'
    · rw [if_neg hm] at h
      obtain ⟨color, hcmem, hf⟩ := List.exists_of_findSome?_eq_some h
      by_cases hs : is_safe node color g c = true
      · rw [if_pos hs] at hf
        intro v hv
        rcases List.mem_cons.mp hv with he | hv'
        · rw [he, Option.isSome_iff_exists]
          exact ⟨color, backtrack_coloring_extends g k rest _ c' hf node color
            (lookupC_insertC_self c node color)⟩
        · exact ih _ hf v hv'
      · rw [if_neg hs] at hf
        cases hf

theorem backtrack_coloring_bound (g : Graph) (k : Nat) (rest : List Nat)
    (c c' : Coloring) (h : backtrack_coloring g k rest c = some c') :
    ∀ v a, lookupC c v = none → lookupC c' v = some a → 1 ≤ a ∧ a ≤ k := by
  induction rest generalizing c with
  | nil =>
    simp only [backtrack_coloring] at h
    cases h
    intro v a hnone hsome
    rw [hnone] at hsome
    cases hsome
  | cons node rest ih =>
    simp only [backtrack_coloring] at h
    by_cases hm : memC c node = true
    · rw [if_pos hm] at h
      exact ih c h
    · rw [if_neg hm] at h
      obtain ⟨color, hcmem, hf⟩ := List.exists_of_findSome?_eq_some h
      by_cases hs : is_safe node color g c = true
      · rw [if_pos hs] at hf
        intro v a hnone hsome
        by_cases hv : node = v
        · have h1 : lookupC c' v = some color := backtrack_coloring_extends g k rest _ c' hf v color
            (by rw [← hv]; exact lookupC_insertC_self c node color)
          have : a = color := by
            rw [hsome] at h1
            exact Option.some.inj h1
          have hb := List.mem_range'_1.mp hcmem
          omega
        · exact ih _ hf v a (by rw [lookupC_insertC_ne _ _ _ _ hv]; exact hnone) hsome
      · rw [if_neg hs] at hf
        cases hf

theorem backtrack_coloring_newproper (g : Graph) (k : Nat) (hsym : Symm g)
    (rest : List Nat) (c c' : Coloring) (h : backtrack_coloring g k rest c = some c') :
    ∀ v u, u ∈ adjOf g v → u ≠ v → (lookupC c v = none ∨ lookupC c u = none) →
      ∀ a, lookupC c' v = some a → lookupC c' u ≠ some a := by
  induction rest generalizing c with
  | nil =>
    simp only [backtrack_coloring] at h
    cases h
    intro v u _ _ hor a hv hu
    rcases hor with hn | hn
    · rw [hn] at hv; cases hv
    · rw [hn] at hu; cases hu
  | cons node rest ih =>
    simp only [backtrack_coloring] at h
    by_cases hm : memC c node = true
    · rw [if_pos hm] at h
      exact ih c h
    · rw [if_neg hm] at h
      obtain ⟨color, hcmem, hf⟩ := List.exists_of_findSome?_eq_some h
      by_cases hs : is_safe node color g c = true
      · rw [if_pos hs] at hf
        have hnodeNone : lookupC c node = none := (memC_false_iff c node).mp (by
          cases hmm : memC c node
          · rfl
          · exact absurd hmm hm)
        have hext := backtrack_coloring_extends g k rest _ c' hf
        have hcnode : lookupC c' node = some color :=
          hext node color (lookupC_insertC_self c node color)
        intro v u hadj hne hor a hv' hu'
        by_cases hvnode : v = node
        · have hacolor : a = color := by
            have h1 : lookupC c' v = some color := hvnode ▸ hcnode
            rw [hv'] at h1
            exact Option.some.inj h1
          cases hcu : lookupC c u with
          | some b =>
            have hextb : lookupC (insertC c node color) u = some b := by
              rw [lookupC_insertC_ne _ _ _ _ (fun he => hne (he.symm.trans hvnode.symm))]
              exact hcu
            have hb : lookupC c' u = some b := hext u b hextb
            have hsafeu := (is_safe_true_iff node color g c).mp hs u (hvnode ▸ hadj)
            rw [hcu] at hsafeu
            have hbne : b ≠ color := fun hbe => hsafeu (hbe ▸ rfl)
            rw [hu'] at hb
            exact hbne (by rw [hacolor] at hb; exact (Option.some.inj hb).symm)
          | none =>
            have hc1u : lookupC (insertC c node color) u = none := by
              rw [lookupC_insertC_ne _ _ _ _ (fun he => hne (he.symm.trans hvnode.symm))]
              exact hcu
            exact ih _ hf v u hadj hne (Or.inr hc1u) a hv' hu'
        · by_cases hunode : u = node
          · have hucolor : lookupC c' u = some color := hunode ▸ hcnode
            cases hcv : lookupC c v with
            | some b =>
              have hvkeys : v ∈ keys g := by
                obtain ⟨ns, hmem, _⟩ := exists_entry_of_mem_adjOf g v u hadj
                exact (mem_keys_iff g v).mpr ⟨ns, hmem⟩
              have hvadj : v ∈ adjOf g node := hunode ▸ hsym v hvkeys u hadj
              have hsafe := (is_safe_true_iff node color g c).mp hs v hvadj
              rw [hcv] at hsafe
              have hbne : b ≠ color := fun hbe => hsafe (hbe ▸ rfl)
              have hextb : lookupC (insertC c node color) v = some b := by
                rw [lookupC_insertC_ne _ _ _ _ (fun he => hvnode he.symm)]
                exact hcv
              have hb : lookupC c' v = some b := hext v b hextb
              rw [hv'] at hb
              have hab : a = b := Option.some.inj hb
              rw [hu'] at hucolor
              exact hbne (by rw [← hab]; exact Option.some.inj hucolor)
            | none =>
              have hc1v : lookupC (insertC c node color) v = none := by
                rw [lookupC_insertC_ne _ _ _ _ (fun he => hvnode he.symm)]
                exact hcv
              exact ih _ hf v u hadj hne (Or.inl hc1v) a hv' hu'
          · have hor1 : lookupC (insertC c node color) v = none ∨
                lookupC (insertC c node color) u = none := by
              rcases hor with hn | hn
              · exact Or.inl (by rw [lookupC_insertC_ne _ _ _ _ (fun he => hvnode he.symm)]; exact hn)
              · exact Or.inr (by rw [lookupC_insertC_ne _ _ _ _ (fun he => hunode he.symm)]; exact hn)
            exact ih _ hf v u hadj hne hor1 a hv' hu'
      · rw [if_neg hs] at hf
        cases hf

theorem backtrack_coloring_complete (g : Graph) (k : Nat) :
    ∀ (rest : List Nat) (c τ : Coloring),
    (∀ v a, lookupC c v = some a → lookupC τ v = some a) →
    (∀ v ∈ rest, lookupC c v = none → ∃ a, lookupC τ v = some a ∧ 1 ≤ a ∧ a ≤ k) →
    (∀ v u, u ∈ adjOf g v → u ≠ v → (lookupC c v = none ∨ lookupC c u = none) →
      ∀ a, lookupC τ v = some a → lookupC τ u ≠ some a) →
    (backtrack_coloring g k rest c).isSome := by
  intro rest
  induction rest with
  | nil => intro c τ _ _ _; simp [backtrack_coloring]
  | cons node rest ih =>
    intro c τ hext hτ hnp
    simp only [backtrack_coloring]
    by_cases hm : memC c node = true
    · rw [if_pos hm]
      exact ih c τ hext (fun v hv => hτ v (List.mem_cons_of_mem _ hv)) hnp
    · rw [if_neg hm]
      have hnodeNone : lookupC c node = none := (memC_false_iff c node).mp (by
        cases hmm : memC c node
        · rfl
        · exact absurd hmm hm)
      obtain ⟨a, hτa, ha1, hak⟩ := hτ node (List.mem_cons_self _ _) hnodeNone
      rw [Option.isSome_iff_exists]
      by_contra hnone
      push_neg at hnone
      have hfnone : (List.range' 1 k).findSome? (fun color =>
          if is_safe node color g c = true then
            backtrack_coloring g k rest (insertC c node color)
          else none) = none := by
        cases hres : (List.range' 1 k).findSome? (fun color =>
            if is_safe node color g c = true then
              backtrack_coloring g k rest (insertC c node color)
            else none) with
        | none => rfl
        | some c' => exact absurd hres (hnone c')
      have hmem : a ∈ List.range' 1 k := List.mem_range'_1.mpr ⟨ha1, by omega⟩
      have := (List.findSome?_eq_none_iff).mp hfnone a hmem
      have hsafe : is_safe node a g c = true := by
        rw [is_safe_true_iff]
        intro u hu he
        by_cases hue : u = node
        · rw [hue, hnodeNone] at he
          cases he
        · obtain ⟨b, hb⟩ : ∃ b, lookupC c u = some b := by
            cases hcu : lookupC c u with
            | none => rw [hcu] at he; cases he
            | some b => exact ⟨b, rfl⟩
          have hτu : lookupC τ u = some b := hext u b hb
          have := hnp node u hu hue (Or.inl hnodeNone) a hτa
          rw [hb] at he
          have hba : b = a := Option.some.inj he
          exact this (hba ▸ hτu)
      rw [if_pos hsafe] at this
      have hrec : (backtrack_coloring g k rest (insertC c node a)).isSome := by
        apply ih (insertC c node a) τ
        · intro v b hv
          by_cases hvn : node = v
          · rw [lookupC_insertC, if_pos hvn] at hv
            exact hvn ▸ (Option.some.inj hv ▸ hτa)
          · rw [lookupC_insertC_ne _ _ _ _ hvn] at hv
            exact hext v b hv
        · intro v hv hnone'
          have : lookupC c v = none := by
            by_cases hvn : node = v
            · rw [lookupC_insertC, if_pos hvn] at hnone'
              cases hnone'
            · rw [lookupC_insertC_ne _ _ _ _ hvn] at hnone'
              exact hnone'
          exact hτ v (List.mem_cons_of_mem _ hv) this
        · intro v u hadj hne hor b hτv
          apply hnp v u hadj hne _ b hτv
          rcases hor with hn | hn
          · exact Or.inl (by
              by_cases hvn : node = v
              · rw [lookupC_insertC, if_pos hvn] at hn; cases hn
              · rw [lookupC_insertC_ne _ _ _ _ hvn] at hn; exact hn)
          · exact Or.inr (by
              by_cases hun : node = u
              · rw [lookupC_insertC, if_pos hun] at hn; cases hn
              · rw [lookupC_insertC_ne _ _ _ _ hun] at hn; exact hn)
      rw [this] at hrec
      cases hrec

/-! ### Driver-level facts -/

theorem adjOf_eq_nil_of_not_mem_keys (g : Graph) (v : Nat) (h : v ∉ keys g) :
    adjOf g v = [] := by
  induction g with
  | nil => rfl
  | cons p g ih =>
    have hp : ¬ p.fst = v := fun he => h (by
      rw [← he]
      exact List.mem_cons_self _ _)
    simp only [adjOf, hp, if_false]
    exact ih (fun hv => h (List.mem_cons_of_mem _ hv))

theorem mem_insertByDeg (g : Graph) (x v : Nat) (l : List Nat) :
    v ∈ insertByDeg g x l ↔ v = x ∨ v ∈ l := by
  induction l with
  | nil => simp [insertByDeg]
  | cons y ys ih =>
    simp only [insertByDeg]
    by_cases h : degree g y < degree g x
    · rw [if_pos h]
      simp [List.mem_cons]
    · rw [if_neg h]
      simp only [List.mem_cons, ih]
      tauto

theorem mem_foldl_insertByDeg (g : Graph) (l : List Nat) :
    ∀ (acc : List Nat) (v : Nat),
      v ∈ l.foldl (fun acc x => insertByDeg g x acc) acc ↔ v ∈ acc ∨ v ∈ l := by
  induction l with
  | nil => simp
  | cons x xs ih =>
    intro acc v
    simp only [List.foldl_cons, ih, mem_insertByDeg, List.mem_cons]
    tauto

theorem mem_nodesOrdered (g : Graph) (v : Nat) : v ∈ nodesOrdered g ↔ v ∈ keys g := by
  unfold nodesOrdered
  rw [mem_foldl_insertByDeg]
  simp

theorem backtrack_success_iff (g : Graph) (k : Nat) (hwf : WF g) (hsym : Symm g) :
    (backtrack_coloring g k (nodesOrdered g) []).isSome = true ↔ IsKColorable g k := by
  constructor
  · intro h
    obtain ⟨c', hc'⟩ := Option.isSome_iff_exists.mp h
    refine ⟨c', ?_, ?_, ?_⟩
    · intro v hv u hu hne a hva
      exact backtrack_coloring_newproper g k hsym _ _ _ hc' v u hu hne (Or.inl rfl) a hva
    · intro v hv
      exact backtrack_coloring_assigned g k _ _ _ hc' v ((mem_nodesOrdered g v).mpr hv)
    · intro v hv a hva
      exact backtrack_coloring_bound g k _ _ _ hc' v a rfl hva
  · rintro ⟨τ, hprop, hcomp, hcol⟩
    apply backtrack_coloring_complete g k (nodesOrdered g) [] τ
    · intro v a hv
      cases hv
    · intro v hv _
      have hvk : v ∈ keys g := (mem_nodesOrdered g v).mp hv
      obtain ⟨a, ha⟩ := Option.isSome_iff_exists.mp (hcomp v hvk)
      obtain ⟨h1, h2⟩ := hcol v hvk a ha
      exact ⟨a, ha, h1, h2⟩
    · intro v u hadj hne _ a hva
      have hvk : v ∈ keys g := by
        by_contra hv
        rw [adjOf_eq_nil_of_not_mem_keys g v hv] at hadj
        cases hadj
      exact hprop v hvk u hadj hne a hva

theorem findMinKLoop_sound (g : Graph) (nodesOrd : List Nat) (coloring : Coloring) :
    ∀ (fuel k : Nat) (r : AlgResult),
      findMinKLoop g nodesOrd coloring fuel k = some r →
      ∃ k' c, k ≤ k' ∧ backtrack_coloring g k' nodesOrd coloring = some c ∧
        r = { chromatic_number := some k', k := some k', coloring := c } ∧
        ∀ i, k ≤ i → i < k' → backtrack_coloring g i nodesOrd coloring = none := by
  intro fuel
  induction fuel with
  | zero => intro k r h; cases h
  | succ fuel ih =>
    intro k r h
    simp only [findMinKLoop] at h
    cases hb : backtrack_coloring g k nodesOrd coloring with
    | some c =>
      rw [hb] at h
      refine ⟨k, c, Nat.le_refl _, hb, ?_, ?_⟩
      · cases h; rfl
      · intro i h1 h2; omega
    | none =>
      rw [hb] at h
      obtain ⟨k', c, hk, hbc, hr, hfail⟩ := ih (k + 1) r h
      refine ⟨k', c, by omega, hbc, hr, ?_⟩
      intro i h1 h2
      by_cases he : i = k
      · exact he ▸ hb
      · exact hfail i (by omega) h2

theorem findMinKLoop_isSome (g : Graph) (nodesOrd : List Nat) (coloring : Coloring) :
    ∀ (fuel k : Nat), (∃ j, j < fuel ∧
        (backtrack_coloring g (k + j) nodesOrd coloring).isSome = true) →
      (findMinKLoop g nodesOrd coloring fuel k).isSome = true := by
  intro fuel
  induction fuel with
  | zero => rintro k ⟨j, hj, _⟩; omega
  | succ fuel ih =>
    rintro k ⟨j, hj, hb⟩
    simp only [findMinKLoop]
    cases hres : backtrack_coloring g k nodesOrd coloring with
    | some c => rfl
    | none =>
      apply ih (k + 1)
      cases j with
      | zero =>
        rw [Nat.add_zero] at hb
        rw [hres] at hb
        cases hb
      | succ j =>
        exact ⟨j, by omega, by rwa [show k + 1 + j = k + (j + 1) from by omega]⟩

theorem exists_least_of_exists {P : Nat → Prop} : (∃ n, P n) → ∃ n, P n ∧ ∀ m, m < n → ¬ P m := by
  rintro ⟨n, hn⟩
  induction n using Nat.strong_induction_on with
  | _ n ih =>
    by_cases h : ∃ m, m < n ∧ P m
    · obtain ⟨m, hm, hpm⟩ := h
      exact ih m hm hpm
    · push_neg at h
      exact ⟨n, hn, h⟩

theorem isKColorable_mono (g : Graph) (k k' : Nat) (h : k ≤ k') (hk : IsKColorable g k) :
    IsKColorable g k' := by
  obtain ⟨c, h1, h2, h3⟩ := hk
  exact ⟨c, h1, h2, fun v hv a ha => ⟨(h3 v hv a ha).1, Nat.le_trans (h3 v hv a ha).2 h⟩⟩

theorem isKColorable_length (g : Graph) : IsKColorable g (keys g).length := by
  suffices h : ∀ vs : List Nat, ∃ c : Coloring,
      (∀ v ∈ vs, ∃ a, lookupC c v = some a ∧ 1 ≤ a ∧ a ≤ vs.length) ∧
      (∀ v w, v ≠ w → ∀ a, lookupC c v = some a → lookupC c w ≠ some a) ∧
      (∀ v, v ∉ vs → lookupC c v = none) by
    obtain ⟨c, h1, h2, _⟩ := h (keys g)
    refine ⟨c, ?_, ?_, ?_⟩
    · intro v _ u _ hne a hva
      exact h2 v u (fun he => hne he.symm) a hva
    · intro v hv
      obtain ⟨a, ha, _⟩ := h1 v hv
      rw [ha]
      rfl
    · intro v hv a ha
      obtain ⟨b, hb, hb1, hb2⟩ := h1 v hv
      rw [ha] at hb
      exact Option.some.inj hb ▸ ⟨hb1, hb2⟩
  intro vs
  induction vs with
  | nil => exact ⟨[], by simp, by simp [lookupC], by intro v _; rfl⟩
  | cons v vs ih =>
    obtain ⟨c, h1, h2, h3⟩ := ih
    by_cases hv : v ∈ vs
    · refine ⟨c, ?_, h2, ?_⟩
      · intro w hw
        rcases List.mem_cons.mp hw with he | hw'
        · obtain ⟨a, ha, ha1, ha2⟩ := h1 v hv
          exact ⟨a, he ▸ ha, ha1, by simpa using Nat.le_succ_of_le ha2⟩
        · obtain ⟨a, ha, ha1, ha2⟩ := h1 w hw'
          exact ⟨a, ha, ha1, by simpa using Nat.le_succ_of_le ha2⟩
      · intro w hw
        exact h3 w (fun hwv => hw (List.mem_cons_of_mem _ hwv))
    · refine ⟨(v, vs.length + 1) :: c, ?_, ?_, ?_⟩
      · intro w hw
        rcases List.mem_cons.mp hw with he | hw'
        · refine ⟨vs.length + 1, ?_, by omega, by simp⟩
          simp only [lookupC]
          rw [if_pos (by rw [he])]
        · obtain ⟨a, ha, ha1, ha2⟩ := h1 w hw'
          have hvw : ¬ v = w := fun he => hv (he ▸ hw')
          refine ⟨a, ?_, ha1, by simpa using Nat.le_succ_of_le ha2⟩
          simp only [lookupC]
          rw [if_neg hvw]
          exact ha
      · intro x w hne a hxa hwa
        simp only [lookupC] at hxa hwa
        by_cases hx : v = x
        · rw [if_pos hx] at hxa
          have hvw : ¬ v = w := fun he => hne ((hx.symm.trans he))
          rw [if_neg hvw] at hwa
          have : a = vs.length + 1 := (Option.some.inj hxa).symm
          subst this
          cases hcw : lookupC c w with
          | none => rw [hcw] at hwa; cases hwa
          | some b =>
            rw [hcw] at hwa
            have hb : b = vs.length + 1 := Option.some.inj hwa
            by_cases hwvs : w ∈ vs
            · obtain ⟨b', hb', _, hb2⟩ := h1 w hwvs
              rw [hcw] at hb'
              have := Option.some.inj hb'
              omega
            · rw [h3 w hwvs] at hcw
              cases hcw
        · rw [if_neg hx] at hxa
          by_cases hw : v = w
          · rw [if_pos hw] at hwa
            have : a = vs.length + 1 := (Option.some.inj hwa).symm
            subst this
            by_cases hxvs : x ∈ vs
            · obtain ⟨b', hb', _, hb2⟩ := h1 x hxvs
              rw [hxa] at hb'
              have := Option.some.inj hb'
              omega
            · rw [h3 x hxvs] at hxa
              cases hxa
          · rw [if_neg hw] at hwa
            exact h2 x w hne a hxa hwa
      · intro w hw
        have hvw : ¬ v = w := fun he => hw (he ▸ List.mem_cons_self _ _)
        simp only [lookupC]
        rw [if_neg hvw]
        exact h3 w (fun hw' => hw (List.mem_cons_of_mem _ hw'))

theorem not_isKColorable_zero (g : Graph) (hne : keys g ≠ []) : ¬ IsKColorable g 0 := by
  rintro ⟨c, _, hcomp, hcol⟩
  obtain ⟨v, hv⟩ := List.exists_mem_of_ne_nil _ hne
  obtain ⟨a, ha⟩ := Option.isSome_iff_exists.mp (hcomp v hv)
  obtain ⟨h1, h2⟩ := hcol v hv a ha
  omega

/-- The chromatic number exists for every graph. -/
theorem exists_hasChromaticNumber (g : Graph) : ∃ n, HasChromaticNumber g n := by
  obtain ⟨n, hn, hleast⟩ := exists_least_of_exists ⟨(keys g).length, isKColorable_length g⟩
  exact ⟨n, hn, hleast⟩

/-- Total correctness of `find_min_k_backtracking` on nonempty well-formed
symmetric graphs: it terminates within its fuel and returns a proper complete
coloring together with the exact chromatic number. -/
theorem find_min_k_backtracking_exact (g : Graph) (hwf : WF g) (hsym : Symm g)
    (hne : keys g ≠ []) :
    ∃ r n, find_min_k_backtracking g 1 none = some r ∧
      r.chromatic_number = some n ∧ r.k = some n ∧ HasChromaticNumber g n ∧
      ProperOn g r.coloring ∧ CompleteOn g r.coloring := by
  obtain ⟨n, hn, hleast⟩ := exists_hasChromaticNumber g
  have hn1 : 1 ≤ n := by
    rcases Nat.eq_zero_or_pos n with h0 | h1
    · exact absurd (h0 ▸ hn) (not_isKColorable_zero g hne)
    · exact h1
  have hnlen : n ≤ (keys g).length := by
    by_contra h
    push_neg at h
    exact hleast _ h (isKColorable_length g)
  have hsucc : (backtrack_coloring g n (nodesOrdered g) []).isSome = true :=
    (backtrack_success_iff g n hwf hsym).mpr hn
  have hloop : (findMinKLoop g (nodesOrdered g) [] ((keys g).length + 1) 1).isSome = true := by
    apply findMinKLoop_isSome
    exact ⟨n - 1, by omega, by rwa [show 1 + (n - 1) = n from by omega]⟩
  obtain ⟨r, hr⟩ := Option.isSome_iff_exists.mp hloop
  obtain ⟨k', c, hk1, hbc, hreq, hfail⟩ := findMinKLoop_sound g _ _ _ _ _ hr
  have hkn : k' = n := by
    have hk'col : IsKColorable g k' :=
      (backtrack_success_iff g k' hwf hsym).mp (by rw [hbc]; rfl)
    have hnk : n ≤ k' := by
      by_contra h
      push_neg at h
      exact hleast k' h hk'col
    rcases Nat.lt_or_ge n k' with h | h
    · have := hfail n hn1 h
      rw [this] at hsucc
      cases hsucc
    · omega
  refine ⟨r, n, ?_, ?_, ?_, ⟨hn, hleast⟩, ?_, ?_⟩
  · unfold find_min_k_backtracking
    simpa using hr
  · rw [hreq, hkn]
  · rw [hreq, hkn]
  · rw [hreq]
    intro v hv u hu hne' a hva
    exact backtrack_coloring_newproper g k' hsym _ _ _ hbc v u hu hne' (Or.inl rfl) a hva
  · rw [hreq]
    intro v hv
    exact backtrack_coloring_assigned g k' _ _ _ hbc v ((mem_nodesOrdered g v).mpr hv)

/-! ## `branchAndBound.py`

`is_safe` there is identical to the one in `backtrack.py` and is shared.
The heap of `heapq` holds tuples `(priority, counter, coloring, steps)`;
counters are unique, so tuple comparison never reaches the dict, and a pop
returns the entry minimal in `(priority, counter)`.  The `steps` component
never influences control flow and is omitted. -/

/-- Smallest color in `1..currentMax` that is safe, else `currentMax + 1`
(one step of `greedy_extension`). -/
def greedyFindColor (g : Graph) (c : Coloring) (node : Nat) (currentMax : Nat) : Nat :=
  ((List.range' 1 currentMax).find? (fun col => is_safe node col g c)).getD (currentMax + 1)

/-- The loop of `greedy_extension`. -/
def greedyExtGo (g : Graph) : List Nat → Coloring → Nat → Nat
  | [], _, cm => cm
  | n :: rest, c, cm =>
    if memC c n then greedyExtGo g rest c cm
    else
      let col := greedyFindColor g c n cm
      greedyExtGo g rest (insertC c n col) (max cm col)

/-- `greedy_extension(coloring, nodes_ordered, graph)`: number of colors used by
greedily completing `coloring` in the given vertex order. -/
def greedy_extension (coloring : Coloring) (nodesOrd : List Nat) (g : Graph) : Nat :=
  greedyExtGo g nodesOrd coloring (maxValues coloring)

/-- An entry of the best-first priority queue. -/
structure BBState where
  prio : Nat
  counter : Nat
  coloring : Coloring
deriving Repr, DecidableEq

/-- `heapq.heappop`: remove the entry minimal in `(priority, counter)`
(counters are unique in every run). -/
def popMin : List BBState → Option (BBState × List BBState)
  | [] => none
  | s :: rest =>
    let m := rest.foldl (fun acc t =>
      if t.prio < acc.prio ∨ (t.prio = acc.prio ∧ t.counter < acc.counter) then t else acc) s
    some (m, (s :: rest).filter (fun t => t.counter ≠ m.counter))

/-- The expansion loop of one branch-and-bound step: try colors on `nextNode`,
push every safe child whose greedy bound beats the incumbent. -/
def bbExpand (g : Graph) (nodesOrd : List Nat) (bestChromatic : Nat)
    (cur : Coloring) (nextNode : Nat) (colors : List Nat) (counter : Nat)
    (heap : List BBState) : Nat × List BBState :=
  colors.foldl (fun (acc : Nat × List BBState) color =>
    if is_safe nextNode color g cur then
      let newColoring := insertC cur nextNode color
      let newPriority := greedy_extension newColoring nodesOrd g
      if newPriority < bestChromatic then
        (acc.1 + 1, acc.2 ++ [⟨newPriority, acc.1 + 1, newColoring⟩])
      else acc
    else acc) (counter, heap)

/-- The `while heap:` loop of `find_min_k_branch_and_bound`, with fuel
(`none` = fuel exhausted, `some r` = the Python return value, where the inner
`none` is the Python `return None`). -/
def bbLoop (g : Graph) (nodesOrd : List Nat) (kOpt : Option Nat) :
    Nat → List BBState → Nat → Nat → Option (Nat × Coloring) → Option (Option AlgResult)
  | 0, _, _, _, _ => none
  | fuel + 1, heap, counter, bestChromatic, best =>
    match popMin heap with
    | none =>
      match best with
      | none => some none
      | some (bc, sol) =>
        some (some { chromatic_number := some bc, k := some bc, coloring := sol })
    | some (s, heap') =>
      if bestChromatic ≤ s.prio then
        bbLoop g nodesOrd kOpt fuel heap' counter bestChromatic best
      else if s.coloring.length == nodesOrd.length then
        let currentMax := maxValues s.coloring
        if currentMax < bestChromatic then
          if kOpt == some currentMax then
            some (some { chromatic_number := some currentMax, k := some currentMax,
                         coloring := s.coloring })
          else
            bbLoop g nodesOrd kOpt fuel heap' counter currentMax (some (currentMax, s.coloring))
        else
          bbLoop g nodesOrd kOpt fuel heap' counter bestChromatic best
      else
        match nodesOrd.find? (fun n => !(memC s.coloring n)) with
        | none => bbLoop g nodesOrd kOpt fuel heap' counter bestChromatic best
        | some nextNode =>
          let currentMax := maxValues s.coloring
          let maxColorToTry := min (currentMax + 2) (bestChromatic + 1)
          let colors := List.range' 1 (maxColorToTry - 1)
          let (counter', heap'') :=
            bbExpand g nodesOrd bestChromatic s.coloring nextNode colors counter heap'
          bbLoop g nodesOrd kOpt fuel heap'' counter' bestChromatic best

/-- `find_min_k_branch_and_bound(graph)` with `k=None`, no recorded steps and no
initial assignment (as invoked by the service layer). -/
def find_min_k_branch_and_bound (g : Graph) (fuel : Nat) : Option (Option AlgResult) :=
  let nodesOrd := nodesOrdered g
  let coloring : Coloring := []
  let bestChromatic := g.length + 1
  let initialPriority := greedy_extension coloring nodesOrd g
  bbLoop g nodesOrd none fuel [⟨initialPriority, 0, coloring⟩] 0 bestChromatic none

/-! ## Concrete instances -/

/-- A 10-vertex bipartite graph (classes `{1..5}` and `{6..10}`) on which
branch-and-bound is not exact. -/
def Gbb : Graph :=
  [ (2, [6, 9, 10]), (3, [8, 9]), (8, [3, 1, 5]), (9, [2, 3, 1]), (7, [5, 4, 1]),
    (4, [6, 7, 10]), (10, [4, 2]), (6, [2, 5, 4]), (5, [6, 7, 8]), (1, [7, 8, 9]) ]

/-- The 5-cycle. -/
def C5g : Graph := [(1,[2,5]),(2,[1,3]),(3,[2,4]),(4,[3,5]),(5,[4,1])]

/-- The complete graph K4. -/
def K4g : Graph := [(1,[2,3,4]),(2,[1,3,4]),(3,[1,2,4]),(4,[1,2,3])]

/-- The 7-cycle (an odd cycle). -/
def C7g : Graph := [(1,[2,7]),(2,[1,3]),(3,[2,4]),(4,[3,5]),(5,[4,6]),(6,[5,7]),(7,[6,1])]

/-- The 4-vertex path (a bipartite graph with edges). -/
def P4g : Graph := [(1,[2]),(2,[1,3]),(3,[2,4]),(4,[3])]

/-- Extract the result of a terminated branch-and-bound run. -/
def getBB (o : Option (Option AlgResult)) : AlgResult := (o.getD none).getD {}

/-- Establish a chromatic number from the two decidable reference checks. -/
theorem hasChromaticNumber_of_checks (g : Graph) (n : Nat) (hwf : WF g)
    (h1 : existsKColoringB g n = true) (h2 : ∀ m, m < n → existsKColoringB g m = false) :
    HasChromaticNumber g n := by
  refine ⟨isKColorable_of_search g n hwf.1 h1, ?_⟩
  intro m hm hcol
  have := search_of_isKColorable g m hwf hcol
  rw [h2 m hm] at this
  cases this

theorem hasChromaticNumber_nil : HasChromaticNumber ([] : Graph) 0 :=
  ⟨⟨[], fun v hv => absurd hv (by simp [keys]), fun v hv => absurd hv (by simp [keys]),
    fun v hv => absurd hv (by simp [keys])⟩, fun m hm => absurd hm (Nat.not_lt_zero m)⟩

/-- Reported chromatic number of a terminated branch-and-bound run. -/
def bbReported (g : Graph) (fuel : Nat) : Option (Option (Option Nat)) :=
  (find_min_k_branch_and_bound g fuel).map (fun o => o.map AlgResult.chromatic_number)

/-- C1, counterexample: the claim fails on the code in two ways.  (1) On the
well-formed symmetric self-loop-free bipartite graph `Gbb` (chromatic number 2)
`find_min_k_branch_and_bound` terminates and reports chromatic number 3: its
best-first pruning uses a feasible greedy upper bound, which is not admissible,
and here it prunes away every prefix of an optimal 2-coloring.  (2) On the
empty graph (chromatic number 0) `find_min_k_backtracking` reports 1, because
its driver starts at `k = 1` and the `k = 1` attempt trivially succeeds. -/
theorem C1_counterexample :
    (WF Gbb ∧ Symm Gbb ∧ NoSelfLoop Gbb ∧ HasChromaticNumber Gbb 2 ∧
      bbReported Gbb 100 = some (some (some 3))) ∧
    (HasChromaticNumber ([] : Graph) 0 ∧
      (find_min_k_backtracking [] 1 none).map AlgResult.chromatic_number = some (some 1)) := by
  refine ⟨⟨by decide, by decide, by decide, ?_, by decide⟩, hasChromaticNumber_nil, by decide⟩
  exact hasChromaticNumber_of_checks Gbb 2 (by decide) (by decide) (by decide)

theorem properComplete_of_checkB (g : Graph) (c : Coloring) (hnd : (keys g).Nodup)
    (h : isProperCompleteB g c = true) : ProperOn g c ∧ CompleteOn g c := by
  obtain ⟨hcomp, hprop⟩ := (isProperCompleteB_iff g c hnd).mp h
  exact ⟨fun v hv u hu hne a hva hua => hprop v hv u hu hne (hva.trans hua.symm), hcomp⟩

/-- C1, amended: backtracking is totally correct on every nonempty well-formed
symmetric graph (terminates within its fuel and returns a complete proper
coloring whose reported chromatic_number is the exact chromatic number), and
branch-and-bound terminates with the exact chromatic number and a complete
proper coloring on the cited instances (5-cycle → 3, K4 → 4, odd cycle C7 → 3,
bipartite P4 → 2) — though per the C1 counterexample not on every graph. -/
theorem C1_amended :
    (∀ g : Graph, WF g → Symm g → keys g ≠ [] →
      ∃ r n, find_min_k_backtracking g 1 none = some r ∧
        r.chromatic_number = some n ∧ r.k = some n ∧ HasChromaticNumber g n ∧
        ProperOn g r.coloring ∧ CompleteOn g r.coloring) ∧
    (bbReported C5g 100 = some (some (some 3)) ∧ HasChromaticNumber C5g 3 ∧
      ProperOn C5g (getBB (find_min_k_branch_and_bound C5g 100)).coloring ∧
      CompleteOn C5g (getBB (find_min_k_branch_and_bound C5g 100)).coloring) ∧
    (bbReported K4g 100 = some (some (some 4)) ∧ HasChromaticNumber K4g 4 ∧
      ProperOn K4g (getBB (find_min_k_branch_and_bound K4g 100)).coloring ∧
      CompleteOn K4g (getBB (find_min_k_branch_and_bound K4g 100)).coloring) ∧
    (bbReported C7g 100 = some (some (some 3)) ∧ HasChromaticNumber C7g 3 ∧
      ProperOn C7g (getBB (find_min_k_branch_and_bound C7g 100)).coloring ∧
      CompleteOn C7g (getBB (find_min_k_branch_and_bound C7g 100)).coloring) ∧
    (bbReported P4g 100 = some (some (some 2)) ∧ HasChromaticNumber P4g 2 ∧
      ProperOn P4g (getBB (find_min_k_branch_and_bound P4g 100)).coloring ∧
      CompleteOn P4g (getBB (find_min_k_branch_and_bound P4g 100)).coloring) := by
  refine ⟨fun g hwf hsym hne => find_min_k_backtracking_exact g hwf hsym hne,
    ⟨by decide, hasChromaticNumber_of_checks C5g 3 (by decide) (by decide) (by decide),
      properComplete_of_checkB _ _ (by decide) (by decide) |>.1,
      properComplete_of_checkB _ _ (by decide) (by decide) |>.2⟩,
    ⟨by decide, hasChromaticNumber_of_checks K4g 4 (by decide) (by decide) (by decide),
      properComplete_of_checkB _ _ (by decide) (by decide) |>.1,
      properComplete_of_checkB _ _ (by decide) (by decide) |>.2⟩,
    ⟨by decide, hasChromaticNumber_of_checks C7g 3 (by decide) (by decide) (by decide),
      properComplete_of_checkB _ _ (by decide) (by decide) |>.1,
      properComplete_of_checkB _ _ (by decide) (by decide) |>.2⟩,
    ⟨by decide, hasChromaticNumber_of_checks P4g 2 (by decide) (by decide) (by decide),
      properComplete_of_checkB _ _ (by decide) (by decide) |>.1,
      properComplete_of_checkB _ _ (by decide) (by decide) |>.2⟩⟩

/-- C1 witness: the amended backtracking statement applied to the 5-cycle. -/
theorem C1_amended_witness :
    ∃ r n, find_min_k_backtracking C5g 1 none = some r ∧
      r.chromatic_number = some n ∧ r.k = some n ∧ HasChromaticNumber C5g n ∧
      ProperOn C5g r.coloring ∧ CompleteOn C5g r.coloring :=
  C1_amended.1 C5g (by decide) (by decide) (by decide)

/-! ## `chromaticPolynomial.py` -/

/-- `evaluate_chromatic_polynomial(coefficients, k)`: Horner evaluation. -/
def evaluate_chromatic_polynomial (coefficients : List Int) (k : Int) : Int :=
  coefficients.foldl (fun result coef => result * k + coef) 0

/-- The `for k in range(1, max_k + 1)` scan of `compute_chromatic_number`,
carrying the accumulated evaluation list; `none` models the `ValueError`
raised when the range is exhausted. -/
def computeChromaticGo (coefficients : List Int) : Nat → Nat → List Int → Option (Nat × List Int)
  | 0, _, _ => none
  | fuel + 1, k, acc =>
    let Pk := evaluate_chromatic_polynomial coefficients (k : Int)
    if 0 < Pk then some (k, acc ++ [Pk])
    else computeChromaticGo coefficients fuel (k + 1) (acc ++ [Pk])

/-- `compute_chromatic_number(coefficients, max_k)`: returns the pair
`(chromatic number, evaluation list)` or fails (`none` = `ValueError`). -/
def compute_chromatic_number (coefficients : List Int) (max_k : Option Nat) :
    Option (Nat × List Int) :=
  let mk := match max_k with | none => coefficients.length | some m => m
  computeChromaticGo coefficients mk 1 []

/-- First-occurrence duplicate removal, modelling `list(set(...))` on small int
lists; only membership and multiplicity-freeness of the result feed back into
the algorithm, and the set iteration order of CPython is an implementation
detail abstracted here. -/
def dedupFirst (l : List Nat) : List Nat :=
  l.foldl (fun acc x => if acc.contains x then acc else acc ++ [x]) []

/-- `contract_edge(adj_list, u, v)`: merge `v` into `u`, rewrite references,
drop duplicates and self-loops. -/
def contract_edge (adj : Graph) (u v : Nat) : Graph :=
  let c1 : Graph := adj.filter (fun p => !(p.fst == v))
  let c2 : Graph := c1.map (fun p =>
    if p.fst == u then (p.fst, p.snd ++ (adjOf adj v).filter (fun x => !(x == u))) else p)
  let c3 : Graph := c2.map (fun p =>
    if p.fst == u then (p.fst, (dedupFirst p.snd).filter (fun x => !(x == u))) else p)
  c3.map (fun p =>
    (p.fst, (dedupFirst (p.snd.map (fun x => if x == v then u else x))).filter
      (fun x => !(x == p.fst))))

/-- Edge deletion: `adj_list_deleted[u].remove(v); adj_list_deleted[v].remove(u)`
(first occurrence each). -/
def deleteEdge (adj : Graph) (u v : Nat) : Graph :=
  adj.map (fun p =>
    if p.fst == u then (p.fst, p.snd.erase v)
    else if p.fst == v then (p.fst, p.snd.erase u) else p)

/-- The edge pick of `compute_chromatic_polynomial`: first key with a nonempty
neighbour list, paired with its first neighbour. -/
def pickEdge (adj : Graph) : Option (Nat × Nat) :=
  (adj.find? (fun p => !p.snd.isEmpty)).bind (fun p => p.snd.head?.map (fun v => (p.fst, v)))

/-- Left-pad the shorter coefficient list and subtract: `[d - c for c, d in zip(...)]`. -/
def subtractPadded (coeffs_deleted coeffs_contracted : List Int) : List Int :=
  let degree_contracted := coeffs_contracted.length - 1
  let degree_deleted := coeffs_deleted.length - 1
  let max_degree := max degree_contracted degree_deleted
  let cc := List.replicate (max_degree - degree_contracted) (0 : Int) ++ coeffs_contracted
  let cd := List.replicate (max_degree - degree_deleted) (0 : Int) ++ coeffs_deleted
  (cc.zip cd).map (fun p => p.2 - p.1)

/-- `compute_chromatic_polynomial(adj_list)`: deletion–contraction with fuel
(the Python recursion depth is bounded by the edge count; concrete runs below
use ample fuel). -/
def compute_chromatic_polynomial (fuel : Nat) (adj : Graph) : Option (List Int) :=
  if hasSelfLoopB adj then some [0]
  else if adj.all (fun p => p.snd.isEmpty) then
    some ((1 : Int) :: List.replicate adj.length 0)
  else
    match fuel with
    | 0 => none
    | fuel + 1 =>
      match pickEdge adj with
      | none => none
      | some (u, v) =>
        match compute_chromatic_polynomial fuel (deleteEdge adj u v),
              compute_chromatic_polynomial fuel (contract_edge adj u v) with
        | some cd, some cc => some (subtractPadded cd cc)
        | _, _ => none

/-! ### Claim C5: the chromatic-number scan -/

theorem computeChromaticGo_some (coefficients : List Int) :
    ∀ (fuel k : Nat) (acc : List Int) (x : Nat) (evals : List Int),
      computeChromaticGo coefficients fuel k acc = some (x, evals) →
      k ≤ x ∧ x < k + fuel ∧ 0 < evaluate_chromatic_polynomial coefficients (x : Int) ∧
        ∀ y, k ≤ y → y < x → evaluate_chromatic_polynomial coefficients (y : Int) ≤ 0 := by
  intro fuel
  induction fuel with
  | zero => intro k acc x evals h; cases h
  | succ fuel ih =>
    intro k acc x evals h
    simp only [computeChromaticGo] at h
    by_cases hp : 0 < evaluate_chromatic_polynomial coefficients (k : Int)
    · rw [if_pos hp] at h
      obtain ⟨h1, _⟩ := Prod.mk.injEq _ _ _ _ ▸ Option.some.inj h
      subst h1
      exact ⟨Nat.le_refl _, by omega, hp, fun y h1 h2 => by omega⟩
    · rw [if_neg hp] at h
      obtain ⟨h1, h2, h3, h4⟩ := ih (k + 1) _ x evals h
      refine ⟨by omega, by omega, h3, ?_⟩
      intro y hy1 hy2
      by_cases he : y = k
      · rw [he]
        omega
      · exact h4 y (by omega) hy2

theorem computeChromaticGo_none (coefficients : List Int) :
    ∀ (fuel k : Nat) (acc : List Int),
      computeChromaticGo coefficients fuel k acc = none ↔
        ∀ y, k ≤ y → y < k + fuel → evaluate_chromatic_polynomial coefficients (y : Int) ≤ 0 := by
  intro fuel
  induction fuel with
  | zero =>
    intro k acc
    simp only [computeChromaticGo]
    constructor
    · intro _ y h1 h2
      omega
    · intro _
      trivial
  | succ fuel ih =>
    intro k acc
    simp only [computeChromaticGo]
    by_cases hp : 0 < evaluate_chromatic_polynomial coefficients (k : Int)
    · rw [if_pos hp]
      constructor
      · intro h; cases h
      · intro h
        have := h k (Nat.le_refl _) (by omega)
        omega
    · rw [if_neg hp]
      rw [ih (k + 1)]
      constructor
      · intro h y h1 h2
        by_cases he : y = k
        · rw [he]; omega
        · exact h y (by omega) (by omega)
      · intro h y h1 h2
        exact h y (by omega) (by omega)

/-- C5: for every coefficient list and positive bound `max_k`,
`compute_chromatic_number` returns (as first component) the smallest
`x ∈ [1, max_k]` whose Horner evaluation is strictly positive, and raises
`Undetermined` (modelled as `none`) iff no `x` in that range evaluates
positive. -/
theorem C5_chromatic_scan (coefficients : List Int) (mk : Nat) (hmk : 1 ≤ mk) :
    (∀ x evals, compute_chromatic_number coefficients (some mk) = some (x, evals) →
      1 ≤ x ∧ x ≤ mk ∧ 0 < evaluate_chromatic_polynomial coefficients (x : Int) ∧
        ∀ y, 1 ≤ y → y < x → evaluate_chromatic_polynomial coefficients (y : Int) ≤ 0) ∧
    (compute_chromatic_number coefficients (some mk) = none ↔
      ∀ y, 1 ≤ y → y ≤ mk → evaluate_chromatic_polynomial coefficients (y : Int) ≤ 0) := by
  constructor
  · intro x evals h
    obtain ⟨h1, h2, h3, h4⟩ := computeChromaticGo_some coefficients mk 1 [] x evals h
    exact ⟨h1, by omega, h3, h4⟩
  · rw [show compute_chromatic_number coefficients (some mk)
        = computeChromaticGo coefficients mk 1 [] from rfl]
    rw [computeChromaticGo_none]
    constructor
    · intro h y h1 h2
      exact h y h1 (by omega)
    · intro h y h1 h2
      exact h y h1 (by omega)

/-- C5 witness: the scan applied to the chromatic polynomial of the triangle
(coefficients `[1, -3, 2, 0]`, bound 3): it succeeds, so by the theorem the
returned value is the least positive evaluation point; indeed it returns 3. -/
theorem C5_chromatic_scan_witness :
    (1 ≤ 3 ∧
      (∀ x evals, compute_chromatic_number [1, -3, 2, 0] (some 3) = some (x, evals) →
        1 ≤ x ∧ x ≤ 3 ∧ 0 < evaluate_chromatic_polynomial [1, -3, 2, 0] (x : Int) ∧
          ∀ y, 1 ≤ y → y < x → evaluate_chromatic_polynomial [1, -3, 2, 0] (y : Int) ≤ 0)) ∧
    (compute_chromatic_number [1, -3, 2, 0] (some 3)).map Prod.fst = some 3 :=
  ⟨⟨by decide, (C5_chromatic_scan [1, -3, 2, 0] 3 (by decide)).1⟩, by decide⟩

/-! ## `greedy.py` -/

/-- `{coloring[nbr] for nbr in graph[node] if nbr in coloring}` — the colors of
already-colored neighbours (a Python set; only membership is consumed). -/
def neighborColors (g : Graph) (c : Coloring) (node : Nat) : List Nat :=
  (adjOf g node).filterMap (fun nbr => lookupC c nbr)

/-- The loop `color = 1; while color in used: color += 1`, with fuel. -/
def smallestMissingGo (l : List Nat) : Nat → Nat → Nat
  | 0, c => c
  | fuel + 1, c => if l.contains c then smallestMissingGo l fuel (c + 1) else c

/-- Smallest positive integer not in `l` (the fuel `l.length + 1` never runs
out: some value in `[1, l.length + 1]` is missing from `l`). -/
def smallestMissing (l : List Nat) : Nat := smallestMissingGo l (l.length + 1) 1

/-- One greedy assignment: give `node` the smallest color unused by its
already-colored neighbours. -/
def greedyAssign (g : Graph) (c : Coloring) (node : Nat) : Coloring :=
  insertC c node (smallestMissing (neighborColors g c node))

/-- The assignment loop of `greedy_coloring` over a visiting order.  The code
shuffles the keys with `random.shuffle`; the order is the explicit argument
here and theorems quantify over all orders. -/
def greedyLoop (g : Graph) (order : List Nat) : Coloring :=
  order.foldl (fun c node => greedyAssign g c node) []

/-- `len(set(values))`. -/
def countDistinct (l : List Nat) : Nat := (dedupFirst l).length

/-- `greedy_coloring(graph)`: self-loop check, then greedy over the shuffled
key order; `none` models the `return None` on a self-loop. -/
def greedy_coloring (g : Graph) (order : List Nat) : Option AlgResult :=
  if hasSelfLoopB g then none
  else
    let coloring := greedyLoop g order
    some { chromatic_number := none, k := some (countDistinct (valuesC coloring)),
           coloring := coloring }

/-- `welsh_powell_coloring(graph)`: greedy over the stable degree-descending
order (`nodes_sorted`, the same expression as `nodes_ordered`); `k` is set the
same way (`len(list(set(...)))`). -/
def welsh_powell_coloring (g : Graph) : Option AlgResult :=
  if hasSelfLoopB g then none
  else
    let coloring := greedyLoop g (nodesOrdered g)
    some { chromatic_number := none, k := some (countDistinct (valuesC coloring)),
           coloring := coloring }

/-- The BFS loop of `greedy_bfs_coloring`: dequeue, color greedily, enqueue
unvisited neighbours.  `visited` is a Python set; only membership is consumed. -/
def bfsLoop (g : Graph) : Nat → List Nat → List Nat → Coloring → Coloring
  | 0, _, _, c => c
  | _ + 1, [], _, c => c
  | fuel + 1, current :: queue, visited, c =>
    let c' := greedyAssign g c current
    let newNbrs := (adjOf g current).filter (fun nbr => !(visited.contains nbr))
    bfsLoop g fuel (queue ++ newNbrs) (visited ++ newNbrs) c'

/-- `greedy_bfs_coloring(graph)`: self-loop check, empty graph returns the raw
template, otherwise BFS-greedy from a random start vertex (the explicit `start`
argument; theorems quantify over it).  The fuel `|V| + 1` covers every run:
each vertex is enqueued at most once. -/
def greedy_bfs_coloring (g : Graph) (start : Nat) : Option AlgResult :=
  if hasSelfLoopB g then none
  else if (keys g).isEmpty then some algorithmResultTemplate
  else
    let coloring := bfsLoop g ((keys g).length + 1) [start] [start] []
    some { chromatic_number := none, k := some (countDistinct (valuesC coloring)),
           coloring := coloring }

/-! ### Correctness of the greedy assignments -/

theorem length_filter_le_length_filter_of_imp (l : List Nat) (p q : Nat → Bool)
    (h : ∀ x, p x = true → q x = true) :
    (l.filter p).length ≤ (l.filter q).length := by
  induction l with
  | nil => simp
  | cons x xs ih =>
    simp only [List.filter_cons]
    by_cases hp : p x = true
    · rw [if_pos hp, if_pos (h x hp)]
      simpa using ih
    · rw [if_neg hp]
      by_cases hq : q x = true
      · rw [if_pos hq]
        simp only [List.length_cons]
        omega
      · rw [if_neg hq]
        exact ih

theorem filter_succ_lt_of_mem (l : List Nat) (c : Nat) (h : c ∈ l) :
    (l.filter (fun x => c + 1 ≤ x)).length < (l.filter (fun x => c ≤ x)).length := by
  induction l with
  | nil => cases h
  | cons y ys ih =>
    simp only [List.filter_cons]
    have hmono := length_filter_le_length_filter_of_imp ys (fun z => decide (c + 1 ≤ z))
      (fun z => decide (c ≤ z)) (fun z hz => by
        simp only [decide_eq_true_eq] at hz ⊢
        omega)
    rcases List.mem_cons.mp h with he | hm
    · have h1 : ¬ ((decide (c + 1 ≤ y)) = true) := by
        simp only [decide_eq_true_eq]
        omega
      have h2 : (decide (c ≤ y)) = true := by
        simp only [decide_eq_true_eq]
        omega
      rw [if_neg h1, if_pos h2]
      simp only [List.length_cons]
      omega
    · have hys := ih hm
      by_cases h1 : (decide (c + 1 ≤ y)) = true
      · have h2 : (decide (c ≤ y)) = true := by
          simp only [decide_eq_true_eq] at h1 ⊢
          omega
        rw [if_pos h1, if_pos h2]
        simp only [List.length_cons]
        omega
      · rw [if_neg h1]
        by_cases h2 : (decide (c ≤ y)) = true
        · rw [if_pos h2]
          simp only [List.length_cons]
          omega
        · rw [if_neg h2]
          exact hys

theorem smallestMissingGo_spec (l : List Nat) :
    ∀ (fuel c : Nat), (l.filter (fun x => c ≤ x)).length < fuel →
      smallestMissingGo l fuel c ∉ l ∧ c ≤ smallestMissingGo l fuel c := by
  intro fuel
  induction fuel with
  | zero => intro c h; omega
  | succ fuel ih =>
    intro c h
    simp only [smallestMissingGo]
    cases hc : l.contains c with
    | false =>
      rw [if_neg Bool.false_ne_true]
      refine ⟨?_, Nat.le_refl _⟩
      intro hm
      rw [List.elem_iff.symm] at hm
      rw [show l.elem c = l.contains c from rfl, hc] at hm
      cases hm
    | true =>
      rw [if_pos rfl]
      have hmem : c ∈ l := List.elem_iff.mp hc
      have hlt := filter_succ_lt_of_mem l c hmem
      obtain ⟨h1, h2⟩ := ih (c + 1) (by omega)
      exact ⟨h1, by omega⟩

theorem smallestMissing_spec (l : List Nat) :
    smallestMissing l ∉ l ∧ 1 ≤ smallestMissing l := by
  apply smallestMissingGo_spec
  have := List.length_filter_le (fun x => 1 ≤ x) l
  omega

theorem mem_neighborColors (g : Graph) (c : Coloring) (node col : Nat) :
    col ∈ neighborColors g c node ↔ ∃ u ∈ adjOf g node, lookupC c u = some col := by
  unfold neighborColors
  rw [List.mem_filterMap]

theorem greedyAssign_proper (g : Graph) (hsym : Symm g) (c : Coloring) (node : Nat)
    (hc : ProperOn g c) : ProperOn g (greedyAssign g c node) := by
  unfold greedyAssign
  set col := smallestMissing (neighborColors g c node) with hcol
  have hnotmem : col ∉ neighborColors g c node := (smallestMissing_spec _).1
  intro v hv u hu hne a hva hua
  by_cases hvn : node = v
  · have : lookupC (insertC c node col) v = some col := hvn ▸ lookupC_insertC_self c node col
    rw [hva] at this
    have hacol : a = col := Option.some.inj this
    have hun : ¬ node = u := fun he => hne (hvn.symm.trans he).symm
    rw [lookupC_insertC_ne _ _ _ _ hun] at hua
    exact hnotmem (hacol ▸ (mem_neighborColors g c node a).mpr ⟨u, hvn ▸ hu, hua⟩)
  · rw [lookupC_insertC_ne _ _ _ _ hvn] at hva
    by_cases hun : node = u
    · have : lookupC (insertC c node col) u = some col := hun ▸ lookupC_insertC_self c node col
      rw [hua] at this
      have hacol : a = col := Option.some.inj this
      have hvkeys : v ∈ keys g := by
        obtain ⟨ns, hmem, _⟩ := exists_entry_of_mem_adjOf g v u hu
        exact (mem_keys_iff g v).mpr ⟨ns, hmem⟩
      have hvadj : v ∈ adjOf g node := hun ▸ hsym v hvkeys u hu
      exact hnotmem (hacol ▸ (mem_neighborColors g c node a).mpr ⟨v, hvadj, hva⟩)
    · rw [lookupC_insertC_ne _ _ _ _ hun] at hua
      exact hc v hv u hu hne a hva hua

theorem greedyAssign_keeps (g : Graph) (c : Coloring) (node v : Nat)
    (h : (lookupC c v).isSome = true) : (lookupC (greedyAssign g c node) v).isSome = true := by
  unfold greedyAssign
  by_cases hvn : node = v
  · rw [hvn, lookupC_insertC_self]
    rfl
  · rw [lookupC_insertC_ne _ _ _ _ hvn]
    exact h

theorem greedyAssign_assigns (g : Graph) (c : Coloring) (node : Nat) :
    (lookupC (greedyAssign g c node) node).isSome = true := by
  unfold greedyAssign
  rw [lookupC_insertC_self]
  rfl

theorem greedyFold_proper (g : Graph) (hsym : Symm g) (order : List Nat) :
    ∀ c : Coloring, ProperOn g c →
      ProperOn g (order.foldl (fun c node => greedyAssign g c node) c) := by
  induction order with
  | nil => intro c hc; exact hc
  | cons node rest ih =>
    intro c hc
    exact ih _ (greedyAssign_proper g hsym c node hc)

theorem greedyFold_complete (g : Graph) (order : List Nat) :
    ∀ (c : Coloring) (v : Nat), v ∈ order ∨ (lookupC c v).isSome = true →
      (lookupC (order.foldl (fun c node => greedyAssign g c node) c) v).isSome = true := by
  induction order with
  | nil =>
    intro c v hv
    rcases hv with h | h
    · cases h
    · exact h
  | cons node rest ih =>
    intro c v hv
    simp only [List.foldl_cons]
    rcases hv with h | h
    · rcases List.mem_cons.mp h with he | hm
      · exact ih _ v (Or.inr (he ▸ greedyAssign_assigns g c node))
      · exact ih _ v (Or.inl hm)
    · exact ih _ v (Or.inr (greedyAssign_keeps g c node v h))

theorem greedyLoop_proper (g : Graph) (hsym : Symm g) (order : List Nat) :
    ProperOn g (greedyLoop g order) :=
  greedyFold_proper g hsym order [] (fun v _ u _ _ a hva => by cases hva)

theorem greedyLoop_complete (g : Graph) (order : List Nat)
    (horder : ∀ v ∈ keys g, v ∈ order) : CompleteOn g (greedyLoop g order) :=
  fun v hv => greedyFold_complete g order [] v (Or.inl (horder v hv))

theorem bfsLoop_proper (g : Graph) (hsym : Symm g) :
    ∀ (fuel : Nat) (queue visited : List Nat) (c : Coloring), ProperOn g c →
      ProperOn g (bfsLoop g fuel queue visited c) := by
  intro fuel
  induction fuel with
  | zero => intro queue visited c hc; exact hc
  | succ fuel ih =>
    intro queue visited c hc
    cases queue with
    | nil => exact hc
    | cons current rest =>
      exact ih _ _ _ (greedyAssign_proper g hsym c current hc)

/-! ## `dsatur.py` -/

/-- Assignment into a `node -> list` dict (same discipline as `insertC`). -/
def insertA : List (Nat × List Nat) → Nat → List Nat → List (Nat × List Nat)
  | [], v, l => [(v, l)]
  | p :: c, v, l => if p.fst = v then (v, l) :: c else p :: insertA c v l

/-- `neighbor_colors_used[nbr].add(color)` on the defaultdict of sets, as
append-if-absent (sets: only membership and cardinality are consumed; the
explicit `if c not in ...` guard of the main loop has the same effect). -/
def addNcu (ncu : List (Nat × List Nat)) (v col : Nat) : List (Nat × List Nat) :=
  if (adjOf ncu v).contains col then ncu else insertA ncu v (adjOf ncu v ++ [col])

/-- `max(iterable, key=...)` with a lexicographic pair key: the CPython `max`
keeps the first maximal element in iteration order (the iteration order of a
CPython set is abstracted to our list order; every claim holds for any
tie-break). -/
def listMaxBy (f : Nat → Nat × Nat) : List Nat → Option Nat
  | [] => none
  | x :: xs => some (xs.foldl (fun best y =>
      if (f best).1 < (f y).1 ∨ ((f best).1 = (f y).1 ∧ (f best).2 < (f y).2) then y
      else best) x)

/-- The DSATUR main loop: pick the uncolored vertex of maximal
(saturation, degree), give it the smallest color missing from its neighbours'
colors, update the bookkeeping (`saturation[v]` is maintained equal to
`len(neighbor_colors_used[v])` by the code and is computed that way here). -/
def dsaturLoop (g : Graph) : Nat → List Nat → List (Nat × List Nat) → Coloring → Coloring
  | 0, _, _, color => color
  | fuel + 1, uncolored, ncu, color =>
    match listMaxBy (fun v => ((adjOf ncu v).length, degree g v)) uncolored with
    | none => color
    | some current =>
      let c := smallestMissing (adjOf ncu current)
      let color' := insertC color current c
      let uncolored' := uncolored.erase current
      let ncu' := (adjOf g current).foldl (fun acc nbr =>
          if uncolored'.contains nbr then addNcu acc nbr c else acc) ncu
      dsaturLoop g fuel uncolored' ncu' color'

/-- `dsatur_coloring(graph, record_steps=False, initial_assignment=...)`. -/
def dsatur_coloring (g : Graph) (ia : Option Coloring := none) : Option AlgResult :=
  if hasSelfLoopB g then none
  else if g.isEmpty then
    some { chromatic_number := some 0, k := some 0, coloring := [] }
  else
    let color0 : Coloring := (keys g).map (fun v =>
      (v, match ia with | some l => (lookupC l v).getD 0 | none => 0))
    let uncolored0 := (keys g).filter (fun v => lookupD color0 v == 0)
    let ncu0 := g.foldl (fun acc p =>
      if lookupD color0 p.fst == 0 then acc
      else p.snd.foldl (fun acc2 nbr =>
        if uncolored0.contains nbr then addNcu acc2 nbr (lookupD color0 p.fst) else acc2) acc) []
    let colorF := dsaturLoop g uncolored0.length uncolored0 ncu0 color0
    some { chromatic_number := some (maxValues colorF), k := some (maxValues colorF),
           coloring := colorF }

/-! ### DSATUR invariants -/

theorem adjOf_insertA (ncu : List (Nat × List Nat)) (v w : Nat) (l : List Nat) :
    adjOf (insertA ncu v l) w = if v = w then l else adjOf ncu w := by
  induction ncu with
  | nil => simp only [insertA, adjOf]
  | cons p c ih =>
    simp only [insertA]
    by_cases hp : p.fst = v
    · rw [if_pos hp]
      simp only [adjOf]
      by_cases h : v = w
      · rw [if_pos h, if_pos h]
      · have hpw : ¬ p.fst = w := fun hw => h (hp.symm.trans hw)
        rw [if_neg h, if_neg h, if_neg hpw]
    · rw [if_neg hp]
      simp only [adjOf]
      by_cases h : p.fst = w
      · have hvw : ¬ v = w := fun hv => hp (h.trans hv.symm)
        rw [if_pos h, if_neg hvw, if_pos h]
      · rw [if_neg h, if_neg h, ih]

theorem mem_adjOf_addNcu (ncu : List (Nat × List Nat)) (v col w col' : Nat) :
    col' ∈ adjOf (addNcu ncu v col) w ↔ col' ∈ adjOf ncu w ∨ (w = v ∧ col' = col) := by
  unfold addNcu
  by_cases hc : (adjOf ncu v).contains col = true
  · rw [if_pos hc]
    constructor
    · exact Or.inl
    · rintro (h | ⟨h1, h2⟩)
      · exact h
      · subst h1
        subst h2
        exact List.elem_iff.mp hc
  · rw [if_neg hc]
    rw [adjOf_insertA]
    by_cases hw : v = w
    · rw [if_pos hw]
      subst hw
      simp only [List.mem_append, List.mem_singleton]
      tauto
    · rw [if_neg hw]
      constructor
      · exact Or.inl
      · rintro (h | ⟨h1, h2⟩)
        · exact h
        · exact absurd h1.symm hw

theorem foldAddNcu_mem (guard : List Nat) (K : Nat) (ns : List Nat) :
    ∀ (acc : List (Nat × List Nat)) (v col : Nat),
      col ∈ adjOf (ns.foldl (fun a nbr =>
        if guard.contains nbr then addNcu a nbr K else a) acc) v ↔
      col ∈ adjOf acc v ∨ (v ∈ ns ∧ v ∈ guard ∧ col = K) := by
  induction ns with
  | nil => simp
  | cons n ns ih =>
    intro acc v col
    simp only [List.foldl_cons]
    by_cases hg : guard.contains n = true
    · rw [if_pos hg]
      rw [ih]
      rw [mem_adjOf_addNcu]
      constructor
      · rintro ((h | ⟨h1, h2⟩) | h)
        · exact Or.inl h
        · exact Or.inr ⟨h1 ▸ List.mem_cons_self _ _, h1 ▸ List.elem_iff.mp hg, h2⟩
        · exact Or.inr ⟨List.mem_cons_of_mem _ h.1, h.2.1, h.2.2⟩
      · rintro (h | ⟨h1, h2, h3⟩)
        · exact Or.inl (Or.inl h)
        · rcases List.mem_cons.mp h1 with he | hm
          · exact Or.inl (Or.inr ⟨he, h3⟩)
          · exact Or.inr ⟨hm, h2, h3⟩
    · rw [if_neg hg]
      rw [ih]
      constructor
      · rintro (h | h)
        · exact Or.inl h
        · exact Or.inr ⟨List.mem_cons_of_mem _ h.1, h.2.1, h.2.2⟩
      · rintro (h | ⟨h1, h2, h3⟩)
        · exact Or.inl h
        · rcases List.mem_cons.mp h1 with he | hm
          · rw [he] at h2
            exact absurd (List.elem_iff.mpr h2) hg
          · exact Or.inr ⟨hm, h2, h3⟩

theorem foldl_pick_mem (f : Nat → Nat × Nat) :
    ∀ (l : List Nat) (b : Nat),
      l.foldl (fun best z =>
        if (f best).1 < (f z).1 ∨ ((f best).1 = (f z).1 ∧ (f best).2 < (f z).2) then z
        else best) b ∈ b :: l := by
  intro l
  induction l with
  | nil => intro b; exact List.mem_cons_self _ _
  | cons z zs ih =>
    intro b
    simp only [List.foldl_cons]
    have hmem := ih (if (f b).1 < (f z).1 ∨ ((f b).1 = (f z).1 ∧ (f b).2 < (f z).2) then z
      else b)
    rcases List.mem_cons.mp hmem with he | hm
    · rw [he]
      by_cases hc : (f b).1 < (f z).1 ∨ ((f b).1 = (f z).1 ∧ (f b).2 < (f z).2)
      · rw [if_pos hc]
        exact List.mem_cons_of_mem _ (List.mem_cons_self _ _)
      · rw [if_neg hc]
        exact List.mem_cons_self _ _
    · exact List.mem_cons_of_mem _ (List.mem_cons_of_mem _ hm)

theorem listMaxBy_mem (f : Nat → Nat × Nat) (l : List Nat) (x : Nat)
    (h : listMaxBy f l = some x) : x ∈ l := by
  cases l with
  | nil => cases h
  | cons y ys =>
    simp only [listMaxBy] at h
    have hx := Option.some.inj h
    rw [← hx]
    exact foldl_pick_mem f ys y

theorem listMaxBy_isSome (f : Nat → Nat × Nat) (l : List Nat) (h : l ≠ []) :
    ∃ x, listMaxBy f l = some x := by
  cases l with
  | nil => exact absurd rfl h
  | cons y ys => exact ⟨_, rfl⟩

theorem length_pos_ne_nil {l : List Nat} (h : 0 < l.length) : l ≠ [] := by
  cases l with
  | nil => cases h
  | cons a as => exact fun he => by cases he

theorem dsaturLoop_pres (g : Graph) :
    ∀ (fuel : Nat) (uncolored : List Nat) (ncu : List (Nat × List Nat)) (color : Coloring),
      uncolored.length = fuel →
      (∀ v, v ∈ uncolored ↔ v ∈ keys g ∧ lookupD color v = 0) →
      uncolored.Nodup →
      (∀ v, v ∉ uncolored →
        lookupC (dsaturLoop g fuel uncolored ncu color) v = lookupC color v) ∧
      (∀ v ∈ keys g, lookupD (dsaturLoop g fuel uncolored ncu color) v ≠ 0) := by
  intro fuel
  induction fuel with
  | zero =>
    intro uncolored ncu color hlen hun _
    have hnil : uncolored = [] := List.eq_nil_of_length_eq_zero hlen
    subst hnil
    simp only [dsaturLoop]
    refine ⟨fun v _ => by trivial, ?_⟩
    intro v hv h0
    cases (hun v).mpr ⟨hv, h0⟩
  | succ fuel ih =>
    intro uncolored ncu color hlen hun hnd
    have hne : uncolored ≠ [] := length_pos_ne_nil (by omega)
    obtain ⟨current, hmax⟩ :=
      listMaxBy_isSome (fun v => ((adjOf ncu v).length, degree g v)) uncolored hne
    have hcur : current ∈ uncolored := listMaxBy_mem _ _ _ hmax
    simp only [dsaturLoop, hmax]
    set c := smallestMissing (adjOf ncu current) with hc
    have hc1 : 1 ≤ c := (smallestMissing_spec _).2
    set color' := insertC color current c with hcolor'
    set uncolored' := uncolored.erase current with huncolored'
    have hlen' : uncolored'.length = fuel := by
      rw [huncolored', List.length_erase_of_mem hcur, hlen]
      rfl
    have hun' : ∀ v, v ∈ uncolored' ↔ v ∈ keys g ∧ lookupD color' v = 0 := by
      intro v
      rw [huncolored', List.Nodup.mem_erase_iff hnd]
      constructor
      · rintro ⟨hvne, hv⟩
        obtain ⟨hk, h0⟩ := (hun v).mp hv
        refine ⟨hk, ?_⟩
        rw [hcolor']
        unfold lookupD
        rw [lookupC_insertC_ne _ _ _ _ (fun he => hvne he.symm)]
        exact h0
      · rintro ⟨hk, h0⟩
        by_cases hvc : v = current
        · exfalso
          rw [hcolor', hvc] at h0
          unfold lookupD at h0
          rw [lookupC_insertC_self] at h0
          simp only [Option.getD_some] at h0
          omega
        · refine ⟨hvc, (hun v).mpr ⟨hk, ?_⟩⟩
          rw [hcolor'] at h0
          unfold lookupD at h0
          rw [lookupC_insertC_ne _ _ _ _ (fun he => hvc he.symm)] at h0
          exact h0
    have hnd' : uncolored'.Nodup := huncolored' ▸ List.Nodup.erase current hnd
    obtain ⟨hpres, hcomp⟩ := ih uncolored' _ color' hlen' hun' hnd'
    constructor
    · intro v hv
      have hv' : v ∉ uncolored' := fun hm => hv (by
        rw [huncolored'] at hm
        exact ((List.Nodup.mem_erase_iff hnd).mp hm).2)
      rw [hpres v hv']
      rw [hcolor']
      rw [lookupC_insertC_ne color current c v (fun he => hv (he ▸ hcur))]
    · exact hcomp

theorem dsaturLoop_proper (g : Graph) (hwf : WF g) (hsym : Symm g) :
    ∀ (fuel : Nat) (uncolored : List Nat) (ncu : List (Nat × List Nat)) (color : Coloring),
      uncolored.length = fuel →
      (∀ v, v ∈ uncolored ↔ v ∈ keys g ∧ lookupD color v = 0) →
      uncolored.Nodup →
      (∀ v ∈ uncolored, ∀ col,
        (col ∈ adjOf ncu v ↔ ∃ u ∈ adjOf g v, lookupD color u = col ∧ col ≠ 0)) →
      (∀ v ∈ keys g, ∀ u ∈ adjOf g v, u ≠ v → lookupD color v ≠ 0 →
        lookupD color v ≠ lookupD color u) →
      ∀ v ∈ keys g, ∀ u ∈ adjOf g v, u ≠ v →
        lookupD (dsaturLoop g fuel uncolored ncu color) v ≠ 0 →
        lookupD (dsaturLoop g fuel uncolored ncu color) v ≠
          lookupD (dsaturLoop g fuel uncolored ncu color) u := by
  intro fuel
  induction fuel with
  | zero =>
    intro uncolored ncu color hlen hun _ _ hprop
    have hnil : uncolored = [] := List.eq_nil_of_length_eq_zero hlen
    subst hnil
    simp only [dsaturLoop]
    exact hprop
  | succ fuel ih =>
    intro uncolored ncu color hlen hun hnd hncu hprop
    have hne : uncolored ≠ [] := length_pos_ne_nil (by omega)
    obtain ⟨current, hmax⟩ :=
      listMaxBy_isSome (fun v => ((adjOf ncu v).length, degree g v)) uncolored hne
    have hcur : current ∈ uncolored := listMaxBy_mem _ _ _ hmax
    have hcurkeys : current ∈ keys g := ((hun current).mp hcur).1
    have hcur0 : lookupD color current = 0 := ((hun current).mp hcur).2
    simp only [dsaturLoop, hmax]
    set c := smallestMissing (adjOf ncu current) with hc
    have hc1 : 1 ≤ c := (smallestMissing_spec _).2
    have hcnot : c ∉ adjOf ncu current := (smallestMissing_spec _).1
    set color' := insertC color current c with hcolor'
    set uncolored' := uncolored.erase current with huncolored'
    set ncu' := (adjOf g current).foldl (fun acc nbr =>
        if uncolored'.contains nbr then addNcu acc nbr c else acc) ncu with hncuDef
    have hlen' : uncolored'.length = fuel := by
      rw [huncolored', List.length_erase_of_mem hcur, hlen]
      rfl
    have hlookD' : ∀ v, lookupD color' v = if current = v then c else lookupD color v := by
      intro v
      rw [hcolor']
      unfold lookupD
      rw [lookupC_insertC]
      by_cases hv : current = v
      · rw [if_pos hv, if_pos hv]
        rfl
      · rw [if_neg hv, if_neg hv]
    have hun' : ∀ v, v ∈ uncolored' ↔ v ∈ keys g ∧ lookupD color' v = 0 := by
      intro v
      rw [huncolored', List.Nodup.mem_erase_iff hnd]
      rw [hlookD' v]
      constructor
      · rintro ⟨hvne, hv⟩
        obtain ⟨hk, h0⟩ := (hun v).mp hv
        rw [if_neg (fun he => hvne he.symm)]
        exact ⟨hk, h0⟩
      · rintro ⟨hk, h0⟩
        by_cases hvc : current = v
        · rw [if_pos hvc] at h0
          omega
        · rw [if_neg hvc] at h0
          exact ⟨fun he => hvc he.symm, (hun v).mpr ⟨hk, h0⟩⟩
    have hnd' : uncolored'.Nodup := huncolored' ▸ List.Nodup.erase current hnd
    have hncuNew : ∀ v ∈ uncolored', ∀ col,
        (col ∈ adjOf ncu' v ↔ ∃ u ∈ adjOf g v, lookupD color' u = col ∧ col ≠ 0) := by
      intro v hv col
      have hvkeys : v ∈ keys g := ((hun' v).mp hv).1
      rw [hncuDef, foldAddNcu_mem]
      constructor
      · rintro (hold | ⟨hvadj, _, hcol⟩)
        · obtain ⟨u, hu, hlu, hcol0⟩ := (hncu v (by
            rw [huncolored'] at hv
            exact ((List.Nodup.mem_erase_iff hnd).mp hv).2) col).mp hold
          have huc : u ≠ current := fun he => by
            rw [he, hcur0] at hlu
            exact hcol0 hlu.symm
          refine ⟨u, hu, ?_, hcol0⟩
          rw [hlookD' u, if_neg (fun he => huc he.symm)]
          exact hlu
        · refine ⟨current, hsym current hcurkeys v hvadj, ?_, by omega⟩
          rw [hlookD' current, if_pos rfl, hcol]
      · rintro ⟨u, hu, hlu, hcol0⟩
        by_cases huc : u = current
        · right
          rw [hlookD' u, if_pos (by rw [huc])] at hlu
          refine ⟨?_, ?_, hlu.symm⟩
          · exact huc ▸ hsym v hvkeys u hu
          · exact hv
        · left
          rw [hlookD' u, if_neg (fun he => huc he.symm)] at hlu
          exact (hncu v (by
            rw [huncolored'] at hv
            exact ((List.Nodup.mem_erase_iff hnd).mp hv).2) col).mpr ⟨u, hu, hlu, hcol0⟩
    have hpropNew : ∀ v ∈ keys g, ∀ u ∈ adjOf g v, u ≠ v → lookupD color' v ≠ 0 →
        lookupD color' v ≠ lookupD color' u := by
      intro v hv u hu hvu h0
      rw [hlookD' v, hlookD' u]
      by_cases hvc : current = v
      · rw [if_pos hvc]
        have hucne : ¬ current = u := fun he => hvu (he ▸ hvc ▸ rfl)
        rw [if_neg hucne]
        by_cases hu0 : lookupD color u = 0
        · rw [hu0]
          omega
        · have huadjc : u ∈ adjOf g current := hvc ▸ hu
          have : lookupD color u ∈ adjOf ncu current :=
            (hncu current hcur (lookupD color u)).mpr ⟨u, huadjc, rfl, hu0⟩
          exact fun he => hcnot (he ▸ this)
      · rw [if_neg hvc]
        by_cases huc : current = u
        · rw [if_pos huc]
          rw [hlookD' v, if_neg hvc] at h0
          have hvadjc : v ∈ adjOf g current := by
            have : current ∈ adjOf g v := huc ▸ hu
            exact hsym v hv current this
          have : lookupD color v ∈ adjOf ncu current :=
            (hncu current hcur (lookupD color v)).mpr ⟨v, hvadjc, rfl, h0⟩
          exact fun he => hcnot (he ▸ this)
        · rw [if_neg huc]
          rw [hlookD' v, if_neg hvc] at h0
          exact hprop v hv u hu hvu h0
    exact ih uncolored' ncu' color' hlen' hun' hnd' hncuNew hpropNew

theorem lookupC_map_keys (f : Nat → Nat) :
    ∀ (l : List Nat) (w : Nat),
      lookupC (l.map (fun v => (v, f v))) w = if w ∈ l then some (f w) else none := by
  intro l
  induction l with
  | nil => intro w; simp [lookupC]
  | cons a as ih =>
    intro w
    simp only [List.map_cons, lookupC]
    by_cases h : a = w
    · subst h
      rw [if_pos rfl, if_pos (List.mem_cons_self a as)]
    · rw [if_neg h, ih w]
      by_cases hw : w ∈ as
      · rw [if_pos hw, if_pos (List.mem_cons_of_mem a hw)]
      · rw [if_neg hw, if_neg (fun hm => by
          cases List.mem_cons.mp hm with
          | inl he => exact h he.symm
          | inr hm2 => exact hw hm2)]

theorem ncu0_skip (c0 : Coloring) (guard : List Nat) :
    ∀ (l : Graph) (acc : List (Nat × List Nat)),
      (∀ p ∈ l, lookupD c0 p.fst = 0) →
      l.foldl (fun acc p =>
        if lookupD c0 p.fst == 0 then acc
        else p.snd.foldl (fun acc2 nbr =>
          if guard.contains nbr then addNcu acc2 nbr (lookupD c0 p.fst) else acc2) acc)
        acc = acc := by
  intro l
  induction l with
  | nil => intro acc _; rfl
  | cons p ps ih =>
    intro acc h
    simp only [List.foldl_cons]
    rw [if_pos (by rw [h p (List.mem_cons_self p ps)]; rfl)]
    exact ih acc (fun q hq => h q (List.mem_cons_of_mem p hq))

theorem isSome_of_lookupD_ne (c : Coloring) (v : Nat) (h : lookupD c v ≠ 0) :
    (lookupC c v).isSome := by
  unfold lookupD at h
  cases hl : lookupC c v with
  | none => rw [hl] at h; exact absurd rfl h
  | some a => rfl

/-- `dsatur_coloring` with no initial assignment, on a nonempty self-loop-free
graph, reduces to the main loop started from the all-uncolored state. -/
theorem dsatur_coloring_none_eq (g : Graph) (hloop : hasSelfLoopB g = false)
    (hg : g.isEmpty = false) :
    dsatur_coloring g none =
      some { chromatic_number :=
               some (maxValues (dsaturLoop g (keys g).length (keys g) []
                 ((keys g).map (fun v => (v, 0))))),
             k := some (maxValues (dsaturLoop g (keys g).length (keys g) []
                 ((keys g).map (fun v => (v, 0))))),
             coloring := dsaturLoop g (keys g).length (keys g) []
                 ((keys g).map (fun v => (v, 0))) } := by
  have h0 : ∀ w, lookupD ((keys g).map (fun v => (v, 0))) w = 0 := by
    intro w
    unfold lookupD
    rw [lookupC_map_keys]
    by_cases hw : w ∈ keys g
    · rw [if_pos hw]; rfl
    · rw [if_neg hw]; rfl
  simp only [dsatur_coloring, hloop, hg, Bool.false_eq_true, if_false]
  have hfil : (keys g).filter (fun v => lookupD ((keys g).map (fun v => (v, 0))) v == 0)
      = keys g := by
    apply List.filter_eq_self.mpr
    intro a _
    rw [h0 a]
    rfl
  rw [hfil, ncu0_skip _ _ _ _ (fun p _ => h0 p.fst)]

/-- DSATUR on a nonempty self-loop-free well-formed symmetric graph returns a
complete proper coloring (no initial assignment). -/
theorem dsatur_correct (g : Graph) (hwf : WF g) (hsym : Symm g)
    (hloop : hasSelfLoopB g = false) :
    ∃ r, dsatur_coloring g none = some r ∧ ProperOn g r.coloring ∧ CompleteOn g r.coloring := by
  cases hg : g.isEmpty with
  | true =>
    have hgnil : g = [] := by
      cases g with
      | nil => rfl
      | cons p ps => cases hg
    subst hgnil
    refine ⟨_, rfl, ?_, ?_⟩
    · intro v hv
      cases hv
    · intro v hv
      cases hv
  | false =>
    have h0 : ∀ w, lookupD ((keys g).map (fun v => (v, 0))) w = 0 := by
      intro w
      unfold lookupD
      rw [lookupC_map_keys]
      by_cases hw : w ∈ keys g
      · rw [if_pos hw]; rfl
      · rw [if_neg hw]; rfl
    set color0 : Coloring := (keys g).map (fun v => (v, 0)) with hc0
    have hun : ∀ v, v ∈ keys g ↔ v ∈ keys g ∧ lookupD color0 v = 0 :=
      fun v => ⟨fun hv => ⟨hv, h0 v⟩, fun hv => hv.1⟩
    have hpres := dsaturLoop_pres g (keys g).length (keys g) [] color0 rfl hun hwf.1
    have hprop := dsaturLoop_proper g hwf hsym (keys g).length (keys g) [] color0 rfl hun hwf.1
      (by
        intro v _ col
        constructor
        · intro hcol
          cases hcol
        · rintro ⟨u, _, hlu, hcol0⟩
          exact absurd ((h0 u) ▸ hlu) (fun he => hcol0 he.symm))
      (by
        intro v _ _ _ _ hv0
        exact absurd (h0 v) hv0)
    refine ⟨_, dsatur_coloring_none_eq g hloop hg, ?_, ?_⟩
    · intro v hv u hu hune a ha hua
      have ha' : lookupC (dsaturLoop g (keys g).length (keys g) [] color0) v = some a := ha
      have hua' : lookupC (dsaturLoop g (keys g).length (keys g) [] color0) u = some a := hua
      have hvd : lookupD (dsaturLoop g (keys g).length (keys g) [] color0) v = a := by
        unfold lookupD
        rw [ha']
        rfl
      have hud : lookupD (dsaturLoop g (keys g).length (keys g) [] color0) u = a := by
        unfold lookupD
        rw [hua']
        rfl
      exact hprop v hv u hu hune (hpres.2 v hv) (by rw [hvd, hud])
    · intro v hv
      exact isSome_of_lookupD_ne _ v (hpres.2 v hv)

/-- DSATUR with a pinned initial assignment never alters the pinned colors:
any vertex of the graph pinned with a nonzero color keeps exactly that color
in the returned coloring. -/
theorem dsatur_pinned (g : Graph) (hwf : WF g) (pinned : Coloring)
    (hloop : hasSelfLoopB g = false) (hg : g.isEmpty = false)
    (v c : Nat) (hv : v ∈ keys g) (hpc : lookupC pinned v = some c) (hc : c ≠ 0) :
    ∃ r, dsatur_coloring g (some pinned) = some r ∧ lookupC r.coloring v = some c := by
  simp only [dsatur_coloring, hloop, hg, Bool.false_eq_true, if_false]
  set f : Nat → Nat := fun w => (lookupC pinned w).getD 0 with hf
  set color0 : Coloring := (keys g).map (fun w => (w, f w)) with hc0
  have hl0 : ∀ w, lookupD color0 w = if w ∈ keys g then f w else 0 := by
    intro w
    rw [hc0]
    unfold lookupD
    rw [lookupC_map_keys]
    by_cases hw : w ∈ keys g
    · rw [if_pos hw, if_pos hw]; rfl
    · rw [if_neg hw, if_neg hw]; rfl
  set uncolored0 := (keys g).filter (fun w => lookupD color0 w == 0) with hu0
  have hun : ∀ w, w ∈ uncolored0 ↔ w ∈ keys g ∧ lookupD color0 w = 0 := by
    intro w
    rw [hu0, List.mem_filter]
    constructor
    · rintro ⟨hk, hb⟩
      exact ⟨hk, eq_of_beq hb⟩
    · rintro ⟨hk, hb⟩
      exact ⟨hk, by rw [hb]; rfl⟩
  have hnd : uncolored0.Nodup := List.Nodup.filter _ hwf.1
  have hpres := dsaturLoop_pres g uncolored0.length uncolored0
    (g.foldl (fun acc p =>
      if lookupD color0 p.fst == 0 then acc
      else p.snd.foldl (fun acc2 nbr =>
        if uncolored0.contains nbr then addNcu acc2 nbr (lookupD color0 p.fst) else acc2) acc) [])
    color0 rfl hun hnd
  have hvnot : v ∉ uncolored0 := by
    intro hvm
    have := ((hun v).mp hvm).2
    rw [hl0 v, if_pos hv] at this
    rw [hf] at this
    simp only [hpc, Option.getD_some] at this
    exact hc this
  refine ⟨_, rfl, ?_⟩
  have := hpres.1 v hvnot
  rw [this, hc0, lookupC_map_keys, if_pos hv, hf]
  simp only [hpc, Option.getD_some]

/-! ### recursiveLargestFirst.py -/

/-- `max(iterable, key=...)` with a single numeric key (first maximal element
in iteration order; set iteration order abstracted to list order). -/
def listMax1 (f : Nat → Nat) : List Nat → Option Nat
  | [] => none
  | x :: xs => some (xs.foldl (fun best y => if f best < f y then y else best) x)

/-- `neighbors_in_set(v, s) = len(adjacency[v].intersection(s))`. -/
def neighbors_in_set (g : Graph) (v : Nat) (s : List Nat) : Nat :=
  ((adjOf g v).filter (fun u => s.contains u)).length

/-- The inner RLF loop (`while Q:`): repeatedly pick the `Q` vertex most
adjacent to the blocked set `P`, give it the current color, and move its
uncolored `Q`-neighbours into `P`. -/
def rlfInner (g : Graph) :
    Nat → List Nat → List Nat → List Nat → Nat → Coloring → (List Nat × Coloring)
  | 0, uncolored, _, _, _, color => (uncolored, color)
  | fuel + 1, uncolored, P, Q, cc, color =>
    match listMax1 (fun v => neighbors_in_set g v P) Q with
    | none => (uncolored, color)
    | some w =>
      let color' := insertC color w cc
      let uncolored' := uncolored.erase w
      let Q' := Q.erase w
      let mtb := (adjOf g w).filter (fun v => uncolored'.contains v && Q'.contains v)
      let P' := P ++ mtb
      let Q2 := Q'.filter (fun v => !mtb.contains v)
      rlfInner g fuel uncolored' P' Q2 cc color'

/-- The outer RLF loop (`while uncolored:`): open a new color class with a
maximum-degree seed, split the rest into blocked `P` and free `Q`, and extend
the class with the inner loop. -/
def rlfOuter (g : Graph) : Nat → List Nat → Nat → Coloring → (Nat × Coloring)
  | 0, _, cc, color => (cc, color)
  | fuel + 1, uncolored, cc, color =>
    match listMax1 (fun v => neighbors_in_set g v uncolored) uncolored with
    | none => (cc, color)
    | some seed =>
      let cc' := cc + 1
      let color' := insertC color seed cc'
      let uncolored' := uncolored.erase seed
      let P := (adjOf g seed).filter (fun u => uncolored'.contains u)
      let Q := uncolored'.filter (fun v => !P.contains v)
      let r := rlfInner g Q.length uncolored' P Q cc' color'
      rlfOuter g fuel r.1 cc' r.2

/-- `rlf_coloring(graph, record_steps=False)`. -/
def rlf_coloring (g : Graph) : Option AlgResult :=
  if hasSelfLoopB g then none
  else if g.isEmpty then
    some { chromatic_number := some 0, k := some 0, coloring := [] }
  else
    let color0 : Coloring := (keys g).map (fun v => (v, 0))
    let r := rlfOuter g (keys g).length (keys g) 0 color0
    some { chromatic_number := some r.1, k := some r.1, coloring := r.2 }

/-! ### RLF invariants -/

theorem lookupD_insertC (c : Coloring) (v col w : Nat) :
    lookupD (insertC c v col) w = if v = w then col else lookupD c w := by
  unfold lookupD
  rw [lookupC_insertC]
  by_cases h : v = w
  · rw [if_pos h, if_pos h]
    rfl
  · rw [if_neg h, if_neg h]

theorem foldl_pick1_mem (f : Nat → Nat) :
    ∀ (xs : List Nat) (x : Nat),
      xs.foldl (fun best y => if f best < f y then y else best) x = x ∨
      xs.foldl (fun best y => if f best < f y then y else best) x ∈ xs := by
  intro xs
  induction xs with
  | nil => intro x; exact Or.inl rfl
  | cons a as ih =>
    intro x
    simp only [List.foldl_cons]
    by_cases h : f x < f a
    · rw [if_pos h]
      cases ih a with
      | inl he => exact Or.inr (by rw [he]; exact List.mem_cons_self a as)
      | inr hm => exact Or.inr (List.mem_cons_of_mem a hm)
    · rw [if_neg h]
      cases ih x with
      | inl he => exact Or.inl he
      | inr hm => exact Or.inr (List.mem_cons_of_mem a hm)

theorem listMax1_mem (f : Nat → Nat) (l : List Nat) (w : Nat)
    (h : listMax1 f l = some w) : w ∈ l := by
  cases l with
  | nil => cases h
  | cons x xs =>
    simp only [listMax1, Option.some.injEq] at h
    cases foldl_pick1_mem f xs x with
    | inl he =>
      rw [← h, he]
      exact List.mem_cons_self x xs
    | inr hm =>
      rw [← h]
      exact List.mem_cons_of_mem x hm

theorem listMax1_isSome (f : Nat → Nat) (l : List Nat) (h : l ≠ []) :
    ∃ x, listMax1 f l = some x := by
  cases l with
  | nil => exact absurd rfl h
  | cons y ys => exact ⟨_, rfl⟩

/-- Invariant preservation through the inner RLF loop: the uncolored set keeps
characterising the vertices without a color, properness of the partial coloring
is maintained (every `Q` vertex has no neighbour in the current color class),
all colors stay `≤ cc`, and the uncolored set only shrinks. -/
theorem rlfInner_inv (g : Graph) (hsym : Symm g) (cc : Nat) (hcc : cc ≠ 0) :
    ∀ (fuel : Nat) (uncolored P Q : List Nat) (color : Coloring),
      (∀ v, v ∈ uncolored ↔ v ∈ keys g ∧ lookupD color v = 0) →
      uncolored.Nodup →
      Q.Nodup →
      (∀ v ∈ Q, v ∈ uncolored) →
      (∀ v ∈ Q, ∀ u ∈ adjOf g v, lookupD color u ≠ cc) →
      (∀ v ∈ keys g, ∀ u ∈ adjOf g v, u ≠ v → lookupD color v ≠ 0 →
        lookupD color v ≠ lookupD color u) →
      (∀ v, lookupD color v ≤ cc) →
      (∀ v, v ∈ (rlfInner g fuel uncolored P Q cc color).1 ↔
        v ∈ keys g ∧ lookupD (rlfInner g fuel uncolored P Q cc color).2 v = 0) ∧
      (rlfInner g fuel uncolored P Q cc color).1.Nodup ∧
      (∀ v ∈ keys g, ∀ u ∈ adjOf g v, u ≠ v →
        lookupD (rlfInner g fuel uncolored P Q cc color).2 v ≠ 0 →
        lookupD (rlfInner g fuel uncolored P Q cc color).2 v ≠
          lookupD (rlfInner g fuel uncolored P Q cc color).2 u) ∧
      (∀ v, lookupD (rlfInner g fuel uncolored P Q cc color).2 v ≤ cc) ∧
      (rlfInner g fuel uncolored P Q cc color).1.length ≤ uncolored.length := by
  intro fuel
  induction fuel with
  | zero =>
    intro uncolored P Q color hun hndU _ _ _ hprop hle
    exact ⟨hun, hndU, hprop, hle, Nat.le_refl _⟩
  | succ fuel ih =>
    intro uncolored P Q color hun hndU hndQ hQsub hblock hprop hle
    cases hmax : listMax1 (fun v => neighbors_in_set g v P) Q with
    | none =>
      simp only [rlfInner, hmax]
      exact ⟨hun, hndU, hprop, hle, Nat.le_refl _⟩
    | some w =>
      have hwQ : w ∈ Q := listMax1_mem _ _ _ hmax
      have hwU : w ∈ uncolored := hQsub w hwQ
      have hwK : w ∈ keys g := ((hun w).mp hwU).1
      simp only [rlfInner, hmax]
      set color' := insertC color w cc with hcol'
      set uncolored' := uncolored.erase w with hu'
      set Q' := Q.erase w with hq'
      set mtb := (adjOf g w).filter (fun v => uncolored'.contains v && Q'.contains v)
        with hmtb
      set Q2 := Q'.filter (fun v => !mtb.contains v) with hq2
      have hD' : ∀ x, lookupD color' x = if w = x then cc else lookupD color x := by
        intro x
        rw [hcol', lookupD_insertC]
      have hun' : ∀ v, v ∈ uncolored' ↔ v ∈ keys g ∧ lookupD color' v = 0 := by
        intro v
        rw [hu', List.Nodup.mem_erase_iff hndU, hD' v]
        constructor
        · rintro ⟨hvne, hv⟩
          obtain ⟨hk, h0⟩ := (hun v).mp hv
          rw [if_neg (fun he => hvne he.symm)]
          exact ⟨hk, h0⟩
        · rintro ⟨hk, h0⟩
          by_cases hvc : w = v
          · rw [if_pos hvc] at h0
            exact absurd h0 hcc
          · rw [if_neg hvc] at h0
            exact ⟨fun he => hvc he.symm, (hun v).mpr ⟨hk, h0⟩⟩
      have hndU' : uncolored'.Nodup := hu' ▸ List.Nodup.erase w hndU
      have hndQ2 : Q2.Nodup := hq2 ▸ List.Nodup.filter _ (hq' ▸ List.Nodup.erase w hndQ)
      have hQ2Q : ∀ v ∈ Q2, v ≠ w ∧ v ∈ Q := by
        intro v hv
        have hvQ' : v ∈ Q' := (List.mem_filter.mp (hq2 ▸ hv)).1
        exact (List.Nodup.mem_erase_iff hndQ).mp (hq' ▸ hvQ')
      have hQsub2 : ∀ v ∈ Q2, v ∈ uncolored' := by
        intro v hv
        obtain ⟨hvw, hvQ⟩ := hQ2Q v hv
        rw [hu', List.Nodup.mem_erase_iff hndU]
        exact ⟨hvw, hQsub v hvQ⟩
      have hblock2 : ∀ v ∈ Q2, ∀ u ∈ adjOf g v, lookupD color' u ≠ cc := by
        intro v hv u hu
        rw [hD' u]
        by_cases huw : w = u
        · rw [if_pos huw]
          intro _
          obtain ⟨hvw, hvQ⟩ := hQ2Q v hv
          have hvK : v ∈ keys g := ((hun v).mp (hQsub v hvQ)).1
          have hvadjw : v ∈ adjOf g w := by
            have := hsym v hvK u hu
            rw [← huw] at this
            exact this
          have hvu' : v ∈ uncolored' := hQsub2 v hv
          have hvq' : v ∈ Q' := (List.mem_filter.mp (hq2 ▸ hv)).1
          have hvmtb : v ∈ mtb := by
            rw [hmtb]
            refine List.mem_filter.mpr ⟨hvadjw, ?_⟩
            rw [Bool.and_eq_true]
            exact ⟨List.elem_iff.mpr hvu', List.elem_iff.mpr hvq'⟩
          have hnm := (List.mem_filter.mp (hq2 ▸ hv)).2
          rw [Bool.not_eq_true'] at hnm
          have hnm' : List.elem v mtb = false := hnm
          rw [List.elem_iff.mpr hvmtb] at hnm'
          cases hnm'
        · rw [if_neg huw]
          exact hblock v (hQ2Q v hv).2 u hu
      have hprop2 : ∀ v ∈ keys g, ∀ u ∈ adjOf g v, u ≠ v → lookupD color' v ≠ 0 →
          lookupD color' v ≠ lookupD color' u := by
        intro v hv u hu hvu h0
        rw [hD' v, hD' u]
        by_cases hvw : w = v
        · rw [if_pos hvw]
          have huwne : ¬ w = u := fun he => hvu (he ▸ hvw ▸ rfl)
          rw [if_neg huwne]
          have huadjw : u ∈ adjOf g w := hvw ▸ hu
          exact fun he => hblock w hwQ u huadjw he.symm
        · rw [if_neg hvw]
          rw [hD' v, if_neg hvw] at h0
          by_cases huw : w = u
          · rw [if_pos huw]
            have hvadjw : v ∈ adjOf g w := by
              have := hsym v hv u hu
              rw [← huw] at this
              exact this
            exact fun he => hblock w hwQ v hvadjw he
          · rw [if_neg huw]
            exact hprop v hv u hu hvu h0
      have hle2 : ∀ v, lookupD color' v ≤ cc := by
        intro v
        rw [hD' v]
        by_cases hvw : w = v
        · rw [if_pos hvw]
        · rw [if_neg hvw]
          exact hle v
      obtain ⟨c1, c2, c3, c4, c5⟩ :=
        ih uncolored' (P ++ mtb) Q2 color' hun' hndU' hndQ2 hQsub2 hblock2 hprop2 hle2
      refine ⟨c1, c2, c3, c4, ?_⟩
      have := List.length_erase_of_mem hwU
      have hup : 0 < uncolored.length := List.length_pos.mpr (fun he => by
        rw [he] at hwU
        cases hwU)
      rw [← hu'] at this
      omega

/-- Invariant preservation through the outer RLF loop: with enough fuel the
loop colors every vertex and keeps the coloring proper. -/
theorem rlfOuter_inv (g : Graph) (hsym : Symm g) :
    ∀ (fuel : Nat) (uncolored : List Nat) (cc : Nat) (color : Coloring),
      uncolored.length ≤ fuel →
      (∀ v, v ∈ uncolored ↔ v ∈ keys g ∧ lookupD color v = 0) →
      uncolored.Nodup →
      (∀ v, lookupD color v ≤ cc) →
      (∀ v ∈ keys g, ∀ u ∈ adjOf g v, u ≠ v → lookupD color v ≠ 0 →
        lookupD color v ≠ lookupD color u) →
      (∀ v ∈ keys g, lookupD (rlfOuter g fuel uncolored cc color).2 v ≠ 0) ∧
      (∀ v ∈ keys g, ∀ u ∈ adjOf g v, u ≠ v →
        lookupD (rlfOuter g fuel uncolored cc color).2 v ≠
          lookupD (rlfOuter g fuel uncolored cc color).2 u) := by
  intro fuel
  induction fuel with
  | zero =>
    intro uncolored cc color hlen hun _ _ hprop
    have hunil : uncolored = [] := List.eq_nil_of_length_eq_zero (Nat.le_zero.mp hlen)
    subst hunil
    simp only [rlfOuter]
    have hne0 : ∀ v ∈ keys g, lookupD color v ≠ 0 := by
      intro v hv h0
      cases (hun v).mpr ⟨hv, h0⟩
    exact ⟨hne0, fun v hv u hu hvu => hprop v hv u hu hvu (hne0 v hv)⟩
  | succ fuel ih =>
    intro uncolored cc color hlen hun hndU hle hprop
    cases hmax : listMax1 (fun v => neighbors_in_set g v uncolored) uncolored with
    | none =>
      have hunil : uncolored = [] := by
        cases huc : uncolored with
        | nil => rfl
        | cons x xs =>
          rw [huc] at hmax
          simp only [listMax1] at hmax
          cases hmax
      subst hunil
      simp only [rlfOuter, hmax]
      have hne0 : ∀ v ∈ keys g, lookupD color v ≠ 0 := by
        intro v hv h0
        cases (hun v).mpr ⟨hv, h0⟩
      exact ⟨hne0, fun v hv u hu hvu => hprop v hv u hu hvu (hne0 v hv)⟩
    | some seed =>
      have hsU : seed ∈ uncolored := listMax1_mem _ _ _ hmax
      have hsK : seed ∈ keys g := ((hun seed).mp hsU).1
      simp only [rlfOuter, hmax]
      set cc' := cc + 1 with hcc'
      set color' := insertC color seed cc' with hcol'
      set uncolored' := uncolored.erase seed with hu'
      set P := (adjOf g seed).filter (fun u => uncolored'.contains u) with hP
      set Q := uncolored'.filter (fun v => !P.contains v) with hQ
      have hD' : ∀ x, lookupD color' x = if seed = x then cc' else lookupD color x := by
        intro x
        rw [hcol', lookupD_insertC]
      have hun' : ∀ v, v ∈ uncolored' ↔ v ∈ keys g ∧ lookupD color' v = 0 := by
        intro v
        rw [hu', List.Nodup.mem_erase_iff hndU, hD' v]
        constructor
        · rintro ⟨hvne, hv⟩
          obtain ⟨hk, h0⟩ := (hun v).mp hv
          rw [if_neg (fun he => hvne he.symm)]
          exact ⟨hk, h0⟩
        · rintro ⟨hk, h0⟩
          by_cases hvc : seed = v
          · rw [if_pos hvc] at h0
            omega
          · rw [if_neg hvc] at h0
            exact ⟨fun he => hvc he.symm, (hun v).mpr ⟨hk, h0⟩⟩
      have hndU' : uncolored'.Nodup := hu' ▸ List.Nodup.erase seed hndU
      have hndQ : Q.Nodup := hQ ▸ List.Nodup.filter _ hndU'
      have hQsub : ∀ v ∈ Q, v ∈ uncolored' := by
        intro v hv
        exact (List.mem_filter.mp (hQ ▸ hv)).1
      have hblock : ∀ v ∈ Q, ∀ u ∈ adjOf g v, lookupD color' u ≠ cc' := by
        intro v hv u hu
        rw [hD' u]
        by_cases hus : seed = u
        · rw [if_pos hus]
          intro _
          have hvU' : v ∈ uncolored' := hQsub v hv
          have hvK : v ∈ keys g := ((hun' v).mp hvU').1
          have hvadjs : v ∈ adjOf g seed := by
            have := hsym v hvK u hu
            rw [← hus] at this
            exact this
          have hvP : v ∈ P := by
            rw [hP]
            exact List.mem_filter.mpr ⟨hvadjs, List.elem_iff.mpr hvU'⟩
          have hnm := (List.mem_filter.mp (hQ ▸ hv)).2
          rw [Bool.not_eq_true'] at hnm
          have hnm' : List.elem v P = false := hnm
          rw [List.elem_iff.mpr hvP] at hnm'
          cases hnm'
        · rw [if_neg hus]
          intro he
          have := hle u
          omega
      have hprop' : ∀ v ∈ keys g, ∀ u ∈ adjOf g v, u ≠ v → lookupD color' v ≠ 0 →
          lookupD color' v ≠ lookupD color' u := by
        intro v hv u hu hvu h0
        rw [hD' v, hD' u]
        by_cases hvs : seed = v
        · rw [if_pos hvs]
          have husne : ¬ seed = u := fun he => hvu (he ▸ hvs ▸ rfl)
          rw [if_neg husne]
          have := hle u
          omega
        · rw [if_neg hvs]
          rw [hD' v, if_neg hvs] at h0
          by_cases hus : seed = u
          · rw [if_pos hus]
            have := hle v
            omega
          · rw [if_neg hus]
            exact hprop v hv u hu hvu h0
      have hle' : ∀ v, lookupD color' v ≤ cc' := by
        intro v
        rw [hD' v]
        by_cases hvs : seed = v
        · rw [if_pos hvs]
        · rw [if_neg hvs]
          have := hle v
          omega
      obtain ⟨c1, c2, c3, c4, c5⟩ := rlfInner_inv g hsym cc' (by omega)
        Q.length uncolored' P Q color' hun' hndU' hndQ hQsub hblock hprop' hle'
      have hlen2 : (rlfInner g Q.length uncolored' P Q cc' color').1.length ≤ fuel := by
        have he := List.length_erase_of_mem hsU
        have hup : 0 < uncolored.length := List.length_pos.mpr (fun hnil => by
          rw [hnil] at hsU
          cases hsU)
        rw [← hu'] at he
        omega
      exact ih (rlfInner g Q.length uncolored' P Q cc' color').1 cc'
        (rlfInner g Q.length uncolored' P Q cc' color').2 hlen2 c1 c2 c4 c3

/-- RLF on a nonempty self-loop-free well-formed symmetric graph returns a
complete proper coloring. -/
theorem rlf_correct (g : Graph) (hwf : WF g) (hsym : Symm g)
    (hloop : hasSelfLoopB g = false) :
    ∃ r, rlf_coloring g = some r ∧ ProperOn g r.coloring ∧ CompleteOn g r.coloring := by
  cases hg : g.isEmpty with
  | true =>
    have hgnil : g = [] := by
      cases g with
      | nil => rfl
      | cons p ps => cases hg
    subst hgnil
    refine ⟨_, rfl, ?_, ?_⟩
    · intro v hv
      cases hv
    · intro v hv
      cases hv
  | false =>
    have h0 : ∀ w, lookupD ((keys g).map (fun v => (v, 0))) w = 0 := by
      intro w
      unfold lookupD
      rw [lookupC_map_keys]
      by_cases hw : w ∈ keys g
      · rw [if_pos hw]; rfl
      · rw [if_neg hw]; rfl
    set color0 : Coloring := (keys g).map (fun v => (v, 0)) with hc0
    have hun : ∀ v, v ∈ keys g ↔ v ∈ keys g ∧ lookupD color0 v = 0 :=
      fun v => ⟨fun hv => ⟨hv, h0 v⟩, fun hv => hv.1⟩
    obtain ⟨hcomp, hprop⟩ := rlfOuter_inv g hsym (keys g).length (keys g) 0 color0
      (Nat.le_refl _) hun hwf.1 (fun v => by rw [h0 v]) (fun v _ _ _ _ h0v => absurd (h0 v) h0v)
    simp only [rlf_coloring, hloop, hg, Bool.false_eq_true, if_false]
    refine ⟨_, rfl, ?_, ?_⟩
    · intro v hv u hu hune a ha hua
      have ha' : lookupC (rlfOuter g (keys g).length (keys g) 0 color0).2 v = some a := ha
      have hua' : lookupC (rlfOuter g (keys g).length (keys g) 0 color0).2 u = some a := hua
      have hvd : lookupD (rlfOuter g (keys g).length (keys g) 0 color0).2 v = a := by
        unfold lookupD
        rw [ha']
        rfl
      have hud : lookupD (rlfOuter g (keys g).length (keys g) 0 color0).2 u = a := by
        unfold lookupD
        rw [hua']
        rfl
      exact hprop v hv u hu hune (by rw [hvd, hud])
    · intro v hv
      exact isSome_of_lookupD_ne _ v (hcomp v hv)

theorem noSelfLoop_iff (g : Graph) : NoSelfLoop g ↔ hasSelfLoopB g = false := by
  unfold NoSelfLoop hasSelfLoopB
  rw [List.any_eq_false]
  constructor
  · intro h p hp
    have := h p hp
    intro hc
    exact this (List.elem_iff.mp hc)
  · intro h p hp hmem
    have := h p hp
    exact this (List.elem_iff.mpr hmem)

/-! ## Claim C3: completeness and properness of the constructive heuristics -/

instance (g : Graph) (c : Coloring) : Decidable (CompleteOn g c) := by
  unfold CompleteOn; exact inferInstance

/-- Two isolated vertices: BFS-greedy from either possible start colors only
the connected component of the start vertex and leaves the other vertex uncolored. -/
def Gdisc : Graph := [(0, []), (1, [])]

theorem greedy_correct (g : Graph) (hsym : Symm g) (order : List Nat)
    (hloop : hasSelfLoopB g = false) (horder : ∀ v ∈ keys g, v ∈ order) :
    ∃ r, greedy_coloring g order = some r ∧ ProperOn g r.coloring ∧ CompleteOn g r.coloring := by
  have he : greedy_coloring g order =
      some ⟨none, some (countDistinct (valuesC (greedyLoop g order))), greedyLoop g order⟩ := by
    simp [greedy_coloring, hloop]
  exact ⟨_, he, greedyLoop_proper g hsym order, greedyLoop_complete g order horder⟩

theorem welsh_powell_correct (g : Graph) (hsym : Symm g)
    (hloop : hasSelfLoopB g = false) :
    ∃ r, welsh_powell_coloring g = some r ∧ ProperOn g r.coloring ∧ CompleteOn g r.coloring := by
  have he : welsh_powell_coloring g =
      some ⟨none, some (countDistinct (valuesC (greedyLoop g (nodesOrdered g)))),
        greedyLoop g (nodesOrdered g)⟩ := by
    simp [welsh_powell_coloring, hloop]
  exact ⟨_, he, greedyLoop_proper g hsym (nodesOrdered g),
    greedyLoop_complete g (nodesOrdered g) (fun v hv => (mem_nodesOrdered g v).mpr hv)⟩

theorem bfs_proper (g : Graph) (hsym : Symm g) (start : Nat)
    (hloop : hasSelfLoopB g = false) :
    ∃ r, greedy_bfs_coloring g start = some r ∧ ProperOn g r.coloring := by
  cases hk : (keys g).isEmpty with
  | true =>
    have he : greedy_bfs_coloring g start = some algorithmResultTemplate := by
      simp [greedy_bfs_coloring, hloop, hk]
    exact ⟨_, he, fun v _ u _ _ a ha => by cases ha⟩
  | false =>
    have he : greedy_bfs_coloring g start =
        some ⟨none, some (countDistinct (valuesC (bfsLoop g ((keys g).length + 1)
          [start] [start] []))), bfsLoop g ((keys g).length + 1) [start] [start] []⟩ := by
      simp [greedy_bfs_coloring, hloop, hk]
    exact ⟨_, he, bfsLoop_proper g hsym _ _ _ [] (fun v _ u _ _ a ha => by cases ha)⟩

/-- C3, counterexample: on the two-vertex edgeless graph `Gdisc` the BFS-greedy
heuristic is not complete — from either possible random start (the keys are
exactly 0 and 1) the returned coloring leaves the other vertex uncolored,
because the BFS queue never reaches a second connected component. -/
theorem C3_counterexample :
    WF Gdisc ∧ Symm Gdisc ∧ NoSelfLoop Gdisc ∧ keys Gdisc = [0, 1] ∧
    (∃ r, greedy_bfs_coloring Gdisc 0 = some r ∧ ¬ CompleteOn Gdisc r.coloring) ∧
    (∃ r, greedy_bfs_coloring Gdisc 1 = some r ∧ ¬ CompleteOn Gdisc r.coloring) := by
  exact ⟨by decide, by decide, by decide, rfl, ⟨_, rfl, by decide⟩, ⟨_, rfl, by decide⟩⟩

/-- C3, amended: on a well-formed symmetric self-loop-free graph, greedy over
any vertex order covering the keys, Welsh–Powell, DSATUR and RLF all return
complete proper colorings; BFS-greedy always returns a proper coloring, but
(per the C3 counterexample) not always a complete one. -/
theorem C3_amended :
    (∀ (g : Graph) (order : List Nat), Symm g → hasSelfLoopB g = false →
      (∀ v ∈ keys g, v ∈ order) →
      ∃ r, greedy_coloring g order = some r ∧ ProperOn g r.coloring ∧
        CompleteOn g r.coloring) ∧
    (∀ g : Graph, Symm g → hasSelfLoopB g = false →
      ∃ r, welsh_powell_coloring g = some r ∧ ProperOn g r.coloring ∧
        CompleteOn g r.coloring) ∧
    (∀ g : Graph, WF g → Symm g → hasSelfLoopB g = false →
      ∃ r, dsatur_coloring g none = some r ∧ ProperOn g r.coloring ∧
        CompleteOn g r.coloring) ∧
    (∀ g : Graph, WF g → Symm g → hasSelfLoopB g = false →
      ∃ r, rlf_coloring g = some r ∧ ProperOn g r.coloring ∧ CompleteOn g r.coloring) ∧
    (∀ (g : Graph) (start : Nat), Symm g → hasSelfLoopB g = false →
      ∃ r, greedy_bfs_coloring g start = some r ∧ ProperOn g r.coloring) :=
  ⟨fun g order hsym hloop horder => greedy_correct g hsym order hloop horder,
   fun g hsym hloop => welsh_powell_correct g hsym hloop,
   fun g hwf hsym hloop => dsatur_correct g hwf hsym hloop,
   fun g hwf hsym hloop => rlf_correct g hwf hsym hloop,
   fun g start hsym hloop => bfs_proper g hsym start hloop⟩

/-- C3 witness: the amended DSATUR statement applied to the concrete graph
`Gdisc`, with all hypotheses discharged by evaluation. -/
theorem C3_amended_witness :
    (WF Gdisc ∧ Symm Gdisc ∧ hasSelfLoopB Gdisc = false) ∧
    (∃ r, dsatur_coloring Gdisc none = some r ∧ ProperOn Gdisc r.coloring ∧
      CompleteOn Gdisc r.coloring) :=
  ⟨⟨by decide, by decide, by decide⟩,
   C3_amended.2.2.1 Gdisc (by decide) (by decide) (by decide)⟩

/-! ## `backtrackDsatur.py` -/

/-- `is_safe(node, color, graph, coloring)` of `backtrackDsatur.py`: this
variant reads `coloring.get(neighbour, 0)`. -/
def bd_is_safe (node color : Nat) (g : Graph) (c : Coloring) : Bool :=
  (adjOf g node).all (fun nbr => !(lookupD c nbr == color))

/-- Saturation of `node`: `len({coloring[nbr] for nbr in graph[node] if
coloring[nbr] != 0})`. -/
def bdSaturation (g : Graph) (coloring : Coloring) (v : Nat) : Nat :=
  (dedupFirst ((adjOf g v).filterMap (fun nbr =>
    if lookupD coloring nbr == 0 then none else some (lookupD coloring nbr)))).length

/-- `backtrack_dsatur_coloring(graph, k, coloring, ...)`, functionally: the
Python function mutates `coloring` and returns a Bool, undoing its assignments
on failure, so it is equivalent to returning the finished coloring on success
and `none` on failure.  Fuel bounds the recursion depth (each recursive call
colors one more vertex, so `|V| + 1` is always enough). -/
def backtrack_dsatur_coloring (g : Graph) (k : Nat) : Nat → Coloring → Option Coloring
  | 0, coloring =>
    if (keys g).all (fun v => !(lookupD coloring v == 0)) then some coloring else none
  | fuel + 1, coloring =>
    if (keys g).all (fun v => !(lookupD coloring v == 0)) then some coloring
    else
      let uncolored := (keys g).filter (fun v => lookupD coloring v == 0)
      match listMaxBy (fun v => (bdSaturation g coloring v, degree g v)) uncolored with
      | none => none
      | some next =>
        (List.range' 1 k).findSome? (fun c =>
          if bd_is_safe next c g coloring then
            backtrack_dsatur_coloring g k fuel (insertC coloring next c)
          else none)

/-- The `while True: ... k += 1` loop of `find_min_k_backtracking_dsatur`,
restarting from the fixed base coloring each round. -/
def findMinKDsaturLoop (g : Graph) (base : Coloring) : Nat → Nat → Option AlgResult
  | 0, _ => none
  | fuel + 1, k =>
    match backtrack_dsatur_coloring g k ((keys g).length + 1) base with
    | some c => some { chromatic_number := some k, k := some k, coloring := c }
    | none => findMinKDsaturLoop g base fuel (k + 1)

/-- `find_min_k_backtracking_dsatur(graph, k=1, record_steps=False,
initial_assignment=...)`: the base coloring fixes the pinned vertices that are
graph keys and marks everything else 0; `k` is raised to the largest pinned
color when the assignment is nonempty. -/
def find_min_k_backtracking_dsatur (g : Graph) (k : Nat := 1) (ia : Option Coloring := none) :
    Option AlgResult :=
  let base : Coloring := (keys g).map (fun v =>
    (v, match ia with
        | some l => if memC l v then (lookupC l v).getD 0 else 0
        | none => 0))
  let k1 := match ia with
    | some l => if l.isEmpty then k else max k (maxValues l)
    | none => k
  findMinKDsaturLoop g base ((keys g).length + 1) k1

/-! ### Pinned-assignment preservation (claim C6) -/

theorem backtrack_dsatur_coloring_pres (g : Graph) (k : Nat) :
    ∀ (fuel : Nat) (coloring out : Coloring),
      backtrack_dsatur_coloring g k fuel coloring = some out →
      ∀ v, lookupD coloring v ≠ 0 → lookupC out v = lookupC coloring v := by
  intro fuel
  induction fuel with
  | zero =>
    intro coloring out h v _
    simp only [backtrack_dsatur_coloring] at h
    by_cases hall : ((keys g).all (fun v => !(lookupD coloring v == 0))) = true
    · rw [if_pos hall] at h
      cases h
      rfl
    · rw [if_neg hall] at h
      cases h
  | succ fuel ih =>
    intro coloring out h v hv
    simp only [backtrack_dsatur_coloring] at h
    by_cases hall : ((keys g).all (fun v => !(lookupD coloring v == 0))) = true
    · rw [if_pos hall] at h
      cases h
      rfl
    · rw [if_neg hall] at h
      cases hmax : listMaxBy (fun v => (bdSaturation g coloring v, degree g v))
          ((keys g).filter (fun v => lookupD coloring v == 0)) with
      | none =>
        rw [hmax] at h
        cases h
      | some next =>
        rw [hmax] at h
        have hnextU : next ∈ (keys g).filter (fun v => lookupD coloring v == 0) :=
          listMaxBy_mem _ _ _ hmax
        have hnext0 : lookupD coloring next = 0 :=
          eq_of_beq (List.mem_filter.mp hnextU).2
        have hvne : next ≠ v := fun he => hv (he ▸ hnext0)
        obtain ⟨c, _, hf⟩ := List.exists_of_findSome?_eq_some h
        by_cases hs : bd_is_safe next c g coloring = true
        · rw [if_pos hs] at hf
          have hout := ih (insertC coloring next c) out hf v (by
            rw [lookupD_insertC, if_neg hvne]
            exact hv)
          rw [hout, lookupC_insertC_ne _ _ _ _ hvne]
        · rw [if_neg hs] at hf
          cases hf

theorem findMinKDsaturLoop_pres (g : Graph) (base : Coloring) :
    ∀ (fuel k : Nat) (r : AlgResult), findMinKDsaturLoop g base fuel k = some r →
      ∀ v, lookupD base v ≠ 0 → lookupC r.coloring v = lookupC base v := by
  intro fuel
  induction fuel with
  | zero =>
    intro k r h
    cases h
  | succ fuel ih =>
    intro k r h v hv
    simp only [findMinKDsaturLoop] at h
    cases hbc : backtrack_dsatur_coloring g k ((keys g).length + 1) base with
    | some c =>
      rw [hbc] at h
      cases h
      exact backtrack_dsatur_coloring_pres g k _ base c hbc v hv
    | none =>
      rw [hbc] at h
      exact ih (k + 1) r h v hv

theorem findMinKLoop_extends (g : Graph) (nodesOrd : List Nat) (coloring : Coloring) :
    ∀ (fuel k : Nat) (r : AlgResult), findMinKLoop g nodesOrd coloring fuel k = some r →
      ∀ v a, lookupC coloring v = some a → lookupC r.coloring v = some a := by
  intro fuel
  induction fuel with
  | zero =>
    intro k r h
    cases h
  | succ fuel ih =>
    intro k r h v a hv
    simp only [findMinKLoop] at h
    cases hbc : backtrack_coloring g k nodesOrd coloring with
    | some c =>
      rw [hbc] at h
      cases h
      exact backtrack_coloring_extends g k nodesOrd coloring c hbc v a hv
    | none =>
      rw [hbc] at h
      exact ih (k + 1) r h v a hv

/-! ## Claim C6 -/

/-- A single edge, used as the C6 witness graph. -/
def Gedge : Graph := [(0, [1]), (1, [0])]

/-- C6, counterexample: pinned entries are not always honoured.  DSATUR (and
DSATUR-guided backtracking) build their base coloring over the graph keys only,
so a pinned vertex that is not a graph key is silently dropped; and a vertex
pinned with color 0 counts as uncolored and is recolored. -/
theorem C6_counterexample :
    (∃ r, dsatur_coloring Gdisc (some [(2, 5)]) = some r ∧ lookupC r.coloring 2 ≠ some 5) ∧
    (∃ r, dsatur_coloring Gdisc (some [(0, 0)]) = some r ∧ lookupC r.coloring 0 ≠ some 0) ∧
    (∃ r, find_min_k_backtracking_dsatur Gdisc 1 (some [(2, 5)]) = some r ∧
      lookupC r.coloring 2 ≠ some 5) ∧
    (∃ r, find_min_k_backtracking_dsatur Gdisc 1 (some [(0, 0)]) = some r ∧
      lookupC r.coloring 0 ≠ some 0) := by
  exact ⟨⟨_, rfl, by decide⟩, ⟨_, rfl, by decide⟩, ⟨_, rfl, by decide⟩, ⟨_, rfl, by decide⟩⟩

/-- C6, amended: pinned partial assignments are preserved in the following
exact sense.  DSATUR keeps every pinned vertex that is a graph key and has a
nonzero pinned color (and terminates on every nonempty self-loop-free graph);
plain backtracking keeps every pinned entry of any returned result (even
pinned vertices outside the graph, since it starts from a copy of the
assignment dict and skips colored vertices); DSATUR-guided backtracking keeps
every pinned graph key with a nonzero color in any returned result. -/
theorem C6_amended :
    (∀ (g : Graph) (pinned : Coloring), WF g → hasSelfLoopB g = false →
      g.isEmpty = false → ∀ v c, v ∈ keys g → lookupC pinned v = some c → c ≠ 0 →
      ∃ r, dsatur_coloring g (some pinned) = some r ∧ lookupC r.coloring v = some c) ∧
    (∀ (g : Graph) (k : Nat) (pinned : Coloring) (r : AlgResult),
      find_min_k_backtracking g k (some pinned) = some r →
      ∀ v a, lookupC pinned v = some a → lookupC r.coloring v = some a) ∧
    (∀ (g : Graph) (k : Nat) (pinned : Coloring) (r : AlgResult),
      find_min_k_backtracking_dsatur g k (some pinned) = some r →
      ∀ v c, v ∈ keys g → lookupC pinned v = some c → c ≠ 0 →
        lookupC r.coloring v = some c) := by
  refine ⟨fun g pinned hwf hloop hne v c hv hpc hc =>
      dsatur_pinned g hwf pinned hloop hne v c hv hpc hc, ?_, ?_⟩
  · intro g k pinned r h v a hv
    exact findMinKLoop_extends g (nodesOrdered g) pinned ((keys g).length + 1) _ r h v a hv
  · intro g k pinned r h v c hv hpc hc
    have hbase : lookupC ((keys g).map (fun w =>
        (w, if memC pinned w then (lookupC pinned w).getD 0 else 0))) v = some c := by
      rw [lookupC_map_keys (fun w => if memC pinned w then (lookupC pinned w).getD 0 else 0)
        (keys g) v, if_pos hv]
      have hm : memC pinned v = true := by
        unfold memC
        rw [hpc]
        rfl
      rw [if_pos hm, hpc]
      rfl
    have hD : lookupD ((keys g).map (fun w =>
        (w, if memC pinned w then (lookupC pinned w).getD 0 else 0))) v ≠ 0 := by
      unfold lookupD
      rw [hbase]
      exact hc
    have := findMinKDsaturLoop_pres g _ ((keys g).length + 1) _ r h v hD
    rw [this, hbase]

/-- C6 witness: DSATUR-guided backtracking on the single edge `Gedge` with
vertex 0 pinned to color 2 returns a result that keeps color 2 on vertex 0. -/
theorem C6_amended_witness :
    lookupC (AlgResult.mk (some 2) (some 2) [(0, 2), (1, 1)]).coloring 0 = some 2 :=
  C6_amended.2.2 Gedge 1 [(0, 2)] (AlgResult.mk (some 2) (some 2) [(0, 2), (1, 1)])
    (by decide) 0 2 (by decide) (by decide) (by decide)

/-! ## `metropolis.py` -/

/-- `max(len(neighbors) for neighbors in graph.values())`: `max()` of an empty
sequence raises, hence the `Option`. -/
def maxDegree (g : Graph) : Option Nat :=
  match g.map (fun p => p.snd.length) with
  | [] => none
  | d :: ds => some (ds.foldl max d)

/-- `choose_q(graph) = 4 * Delta + 1` (crashes on the empty graph). -/
def choose_q (g : Graph) : Option Nat := (maxDegree g).map (fun d => 4 * d + 1)

/-- The greedy initial coloring `f0` of `metropolis_coloring`: first color in
`1..q` unused by already-colored neighbours (skipping the vertex when none is
available, which never happens since `q > Delta`). -/
def metroSeed (g : Graph) (q : Nat) : Coloring :=
  (keys g).foldl (fun f v =>
    match (List.range' 1 q).find? (fun c => !((neighborColors g f v).contains c)) with
    | some c => insertC f v c
    | none => f) []

/-- One Glauber step: pick a vertex and a color from the random stream and
recolor when the color is absent from the current neighbour colors. -/
def metroStep (g : Graph) (q : Nat) (f : Coloring) (pick : Nat × Nat) : Coloring :=
  let vs := keys g
  let v := vs.getD (pick.1 % vs.length) 0
  let c := 1 + pick.2 % q
  let nbrColors := (adjOf g v).map (fun nbr => lookupD f nbr)
  if nbrColors.contains c then f else insertC f v c

/-- The `for t in range(1, T + 1)` loop over an arbitrary stream of random
picks (theorems quantify over all streams, covering every `T`). -/
def metroLoop (g : Graph) (q : Nat) (picks : List (Nat × Nat)) (f : Coloring) : Coloring :=
  picks.foldl (fun f p => metroStep g q f p) f

/-- Which `ValueError` of `metropolis_coloring` fired. -/
inductive MetroErr where
  | emptyMax : MetroErr
  | selfLoop : MetroErr
  | smallQ : MetroErr
deriving Repr, DecidableEq

/-- `metropolis_coloring(graph, record_steps=False)`: `choose_q` first (it
crashes on the empty graph before the `n == 0` branch can run), then the
self-loop check, the unreachable `n == 0` return, the palette guard, the
greedy seed and the Glauber loop. -/
def metropolis_coloring (g : Graph) (picks : List (Nat × Nat)) : Except MetroErr AlgResult :=
  match choose_q g with
  | none => Except.error MetroErr.emptyMax
  | some q =>
    if hasSelfLoopB g then Except.error MetroErr.selfLoop
    else if (keys g).length = 0 then
      Except.ok { chromatic_number := some 0, k := some 0, coloring := [] }
    else
      match maxDegree g with
      | none => Except.error MetroErr.emptyMax
      | some Delta =>
        if q ≤ 4 * Delta then Except.error MetroErr.smallQ
        else
          let f := metroLoop g q picks (metroSeed g q)
          Except.ok { chromatic_number := none, k := some (countDistinct (valuesC f)),
                      coloring := f }

/-! ### Seed = greedy, step invariants -/

theorem smallestMissingGo_le (l : List Nat) :
    ∀ (fuel c : Nat), smallestMissingGo l fuel c ≤ c + (l.filter (fun x => c ≤ x)).length := by
  intro fuel
  induction fuel with
  | zero =>
    intro c
    simp only [smallestMissingGo]
    omega
  | succ fuel ih =>
    intro c
    simp only [smallestMissingGo]
    by_cases hc : l.contains c = true
    · rw [if_pos hc]
      have hlt := filter_succ_lt_of_mem l c (List.elem_iff.mp hc)
      have := ih (c + 1)
      omega
    · rw [if_neg hc]
      omega

theorem smallestMissing_le (l : List Nat) : smallestMissing l ≤ l.length + 1 := by
  have h := smallestMissingGo_le l (l.length + 1) 1
  have := List.length_filter_le (fun x => 1 ≤ x) l
  unfold smallestMissing
  omega

theorem smallestMissingGo_min (l : List Nat) :
    ∀ (fuel c d : Nat), c ≤ d → d < smallestMissingGo l fuel c → d ∈ l := by
  intro fuel
  induction fuel with
  | zero =>
    intro c d hcd hd
    simp only [smallestMissingGo] at hd
    omega
  | succ fuel ih =>
    intro c d hcd hd
    simp only [smallestMissingGo] at hd
    by_cases hc : l.contains c = true
    · rw [if_pos hc] at hd
      by_cases hdc : d = c
      · exact hdc ▸ List.elem_iff.mp hc
      · exact ih (c + 1) d (by omega) hd
    · rw [if_neg hc] at hd
      omega

theorem smallestMissing_min (l : List Nat) (d : Nat) (h1 : 1 ≤ d)
    (h2 : d < smallestMissing l) : d ∈ l :=
  smallestMissingGo_min l (l.length + 1) 1 d h1 h2

theorem find?_range'_go (p : Nat → Bool) (m : Nat) (hpm : p m = true) :
    ∀ (n s : Nat), (∀ d, s ≤ d → d < m → p d = false) → s ≤ m → m < s + n →
      (List.range' s n).find? p = some m := by
  intro n
  induction n with
  | zero =>
    intro s _ hsm hms
    omega
  | succ n ih =>
    intro s hbelow hsm hms
    simp only [List.range']
    by_cases hs : s = m
    · rw [List.find?_cons_of_pos _ (hs ▸ hpm), hs]
    · have hps : p s = false := hbelow s (Nat.le_refl s) (by omega)
      rw [List.find?_cons_of_neg _ (by rw [hps]; exact Bool.false_ne_true)]
      exact ih (s + 1) (fun d hd hdm => hbelow d (by omega) hdm) (by omega) (by omega)

theorem find?_range'_smallestMissing (l : List Nat) (q : Nat)
    (h : smallestMissing l ≤ q) :
    (List.range' 1 q).find? (fun c => !(l.contains c)) = some (smallestMissing l) := by
  have hnot : smallestMissing l ∉ l := (smallestMissing_spec l).1
  have h1 : 1 ≤ smallestMissing l := (smallestMissing_spec l).2
  apply find?_range'_go _ _ ?_ q 1 ?_ h1 (by omega)
  · rw [Bool.not_eq_true']
    cases hc : l.contains (smallestMissing l) with
    | false => rfl
    | true => exact absurd (List.elem_iff.mp hc) hnot
  · intro d hd hdm
    rw [Bool.not_eq_false']
    exact List.elem_iff.mpr (smallestMissing_min l d hd hdm)

theorem metroSeed_eq_greedyLoop (g : Graph) (q : Nat)
    (hq : ∀ v ∈ keys g, (adjOf g v).length + 1 ≤ q) :
    metroSeed g q = greedyLoop g (keys g) := by
  unfold metroSeed greedyLoop
  have hgen : ∀ (l : List Nat) (f : Coloring), (∀ v ∈ l, (adjOf g v).length + 1 ≤ q) →
      l.foldl (fun f v =>
        match (List.range' 1 q).find? (fun c => !((neighborColors g f v).contains c)) with
        | some c => insertC f v c
        | none => f) f = l.foldl (fun c node => greedyAssign g c node) f := by
    intro l
    induction l with
    | nil => intro f _; rfl
    | cons v vs ih =>
      intro f hl
      simp only [List.foldl_cons]
      have hle : smallestMissing (neighborColors g f v) ≤ q := by
        have h1 := smallestMissing_le (neighborColors g f v)
        have h2 : (neighborColors g f v).length ≤ (adjOf g v).length :=
          List.length_filterMap_le _ _
        have := hl v (List.mem_cons_self v vs)
        omega
      rw [find?_range'_smallestMissing _ _ hle]
      exact ih (insertC f v (smallestMissing (neighborColors g f v)))
        (fun w hw => hl w (List.mem_cons_of_mem v hw))
  exact hgen (keys g) [] hq

theorem getD_mem : ∀ (l : List Nat) (i d : Nat), i < l.length → l.getD i d ∈ l := by
  intro l
  induction l with
  | nil =>
    intro i d h
    cases h
  | cons a as ih =>
    intro i d h
    cases i with
    | zero => exact List.mem_cons_self a as
    | succ i =>
      exact List.mem_cons_of_mem a (ih i d (by
        simp only [List.length_cons] at h
        omega))

theorem metroStep_proper (g : Graph) (hsym : Symm g) (q : Nat) (f : Coloring)
    (pick : Nat × Nat) (hf : ProperOn g f) : ProperOn g (metroStep g q f pick) := by
  unfold metroStep
  set v := (keys g).getD (pick.1 % (keys g).length) 0 with hv
  set c := 1 + pick.2 % q with hc
  by_cases hcn : ((adjOf g v).map (fun nbr => lookupD f nbr)).contains c = true
  · rw [if_pos hcn]
    exact hf
  · rw [if_neg hcn]
    intro x hx y hy hyx a hxa hya
    rw [lookupC_insertC] at hxa hya
    by_cases hxv : v = x
    · rw [if_pos hxv] at hxa
      have hyv : ¬ v = y := fun he => hyx (he ▸ hxv ▸ rfl)
      rw [if_neg hyv] at hya
      have hya' : lookupD f y = a := by
        unfold lookupD
        rw [hya]
        rfl
      have hymem : lookupD f y ∈ (adjOf g v).map (fun nbr => lookupD f nbr) :=
        List.mem_map.mpr ⟨y, hxv ▸ hy, rfl⟩
      apply hcn
      apply List.elem_iff.mpr
      rw [Option.some.inj hxa, ← hya']
      exact hymem
    · rw [if_neg hxv] at hxa
      by_cases hyv : v = y
      · rw [if_pos hyv] at hya
        have hxadj : x ∈ adjOf g v := by
          have := hsym x hx y hy
          rw [← hyv] at this
          exact this
        have hxa' : lookupD f x = a := by
          unfold lookupD
          rw [hxa]
          rfl
        have hxmem : lookupD f x ∈ (adjOf g v).map (fun nbr => lookupD f nbr) :=
          List.mem_map.mpr ⟨x, hxadj, rfl⟩
        apply hcn
        apply List.elem_iff.mpr
        rw [Option.some.inj hya, ← hxa']
        exact hxmem
      · rw [if_neg hyv] at hya
        exact hf x hx y hy hyx a hxa (by rw [hya])

theorem metroStep_complete (g : Graph) (q : Nat) (f : Coloring) (pick : Nat × Nat)
    (hf : CompleteOn g f) : CompleteOn g (metroStep g q f pick) := by
  unfold metroStep
  by_cases hcn : (((adjOf g ((keys g).getD (pick.1 % (keys g).length) 0)).map
      (fun nbr => lookupD f nbr)).contains (1 + pick.2 % q)) = true
  · rw [if_pos hcn]
    exact hf
  · rw [if_neg hcn]
    intro x hx
    rw [lookupC_insertC]
    by_cases hxv : (keys g).getD (pick.1 % (keys g).length) 0 = x
    · rw [if_pos hxv]
      rfl
    · rw [if_neg hxv]
      exact hf x hx

theorem metroLoop_inv (g : Graph) (hsym : Symm g) (q : Nat) :
    ∀ (picks : List (Nat × Nat)) (f : Coloring),
      ProperOn g f → CompleteOn g f →
      ProperOn g (metroLoop g q picks f) ∧ CompleteOn g (metroLoop g q picks f) := by
  intro picks
  induction picks with
  | nil =>
    intro f hp hc
    exact ⟨hp, hc⟩
  | cons p ps ih =>
    intro f hp hc
    exact ih (metroStep g q f p)
      (metroStep_proper g hsym q f p hp) (metroStep_complete g q f p hc)

theorem foldl_max_bounds (l : List Nat) :
    ∀ (a : Nat), a ≤ l.foldl max a ∧ ∀ x ∈ l, x ≤ l.foldl max a := by
  induction l with
  | nil => intro a; exact ⟨Nat.le_refl a, fun x hx => by cases hx⟩
  | cons y ys ih =>
    intro a
    simp only [List.foldl_cons]
    obtain ⟨h1, h2⟩ := ih (max a y)
    refine ⟨Nat.le_trans (Nat.le_max_left a y) h1, ?_⟩
    intro x hx
    cases List.mem_cons.mp hx with
    | inl he =>
      rw [he]
      exact Nat.le_trans (Nat.le_max_right a y) h1
    | inr hm => exact h2 x hm

theorem maxDegree_bounds (g : Graph) (hne : g ≠ []) :
    ∃ d, maxDegree g = some d ∧ ∀ p ∈ g, p.snd.length ≤ d := by
  cases g with
  | nil => exact absurd rfl hne
  | cons p ps =>
    refine ⟨(ps.map (fun r => r.snd.length)).foldl max p.snd.length, by
      simp only [maxDegree, List.map_cons], ?_⟩
    intro r hr
    cases List.mem_cons.mp hr with
    | inl he =>
      rw [he]
      exact (foldl_max_bounds _ p.snd.length).1
    | inr hm =>
      exact (foldl_max_bounds _ p.snd.length).2 r.snd.length
        (List.mem_map.mpr ⟨r, hm, rfl⟩)

theorem adjOf_mem_entry (g : Graph) (v : Nat) (h : v ∈ keys g) :
    ∃ p ∈ g, p.fst = v ∧ adjOf g v = p.snd := by
  induction g with
  | nil => cases h
  | cons p ps ih =>
    by_cases hp : p.fst = v
    · refine ⟨p, List.mem_cons_self p ps, hp, ?_⟩
      simp only [adjOf, if_pos hp]
    · have hv : v ∈ keys ps := by
        simp only [keys, List.map_cons, List.mem_cons] at h
        cases h with
        | inl he => exact absurd he.symm hp
        | inr hm => exact hm
      obtain ⟨r, hr, hrf, hra⟩ := ih hv
      refine ⟨r, List.mem_cons_of_mem p hr, hrf, ?_⟩
      simp only [adjOf, if_neg hp]
      exact hra

/-! ## Claims C7 and C10 -/

/-- C7: on every symmetric self-loop-free nonempty graph, for every stream of
random picks (vertex and color choices, covering every iteration count `T`),
the Metropolis/Glauber sampler returns a proper and complete coloring: its
greedy seed is proper and complete, and each single-site step preserves this
because a recolor is accepted only when the color is absent from the current
neighbour colors. -/
theorem C7_metropolis_proper (g : Graph) (picks : List (Nat × Nat)) (hsym : Symm g)
    (hloop : hasSelfLoopB g = false) (hne : g ≠ []) :
    ∃ r, metropolis_coloring g picks = Except.ok r ∧ ProperOn g r.coloring ∧
      CompleteOn g r.coloring := by
  obtain ⟨d, hd, hdb⟩ := maxDegree_bounds g hne
  have hq : choose_q g = some (4 * d + 1) := by
    unfold choose_q
    rw [hd]
    rfl
  have hkne : (keys g).length ≠ 0 := by
    cases g with
    | nil => exact absurd rfl hne
    | cons p ps => simp [keys]
  have hdeg : ∀ v ∈ keys g, (adjOf g v).length + 1 ≤ 4 * d + 1 := by
    intro v hv
    obtain ⟨p, hp, _, hpa⟩ := adjOf_mem_entry g v hv
    have := hdb p hp
    rw [hpa]
    omega
  have hseed := metroSeed_eq_greedyLoop g (4 * d + 1) hdeg
  have hproper : ProperOn g (metroSeed g (4 * d + 1)) := by
    rw [hseed]
    exact greedyLoop_proper g hsym (keys g)
  have hcomplete : CompleteOn g (metroSeed g (4 * d + 1)) := by
    rw [hseed]
    exact greedyLoop_complete g (keys g) (fun v hv => hv)
  obtain ⟨hp, hc⟩ := metroLoop_inv g hsym (4 * d + 1) picks (metroSeed g (4 * d + 1))
    hproper hcomplete
  have he : metropolis_coloring g picks = Except.ok ⟨none,
      some (countDistinct (valuesC (metroLoop g (4 * d + 1) picks (metroSeed g (4 * d + 1))))),
      metroLoop g (4 * d + 1) picks (metroSeed g (4 * d + 1))⟩ := by
    unfold metropolis_coloring
    rw [hq]
    simp only [hloop, Bool.false_eq_true, if_false, if_neg hkne, hd]
    rw [if_neg (by omega)]
  exact ⟨_, he, hp, hc⟩

/-- C10: the palette-too-small `ValueError` of `metropolis_coloring` is
unreachable at the public interface: the function computes `q = 4·Δ + 1`
itself, so on every input (and every random stream) it never returns the
insufficient-palette error — the empty graph crashes earlier inside
`choose_q`, and every other input passes the `q ≤ 4·Δ` guard. -/
theorem C10_smallQ_unreachable (g : Graph) (picks : List (Nat × Nat)) :
    metropolis_coloring g picks ≠ Except.error MetroErr.smallQ := by
  intro h
  unfold metropolis_coloring at h
  cases hg : g with
  | nil =>
    rw [hg] at h
    cases h
  | cons p ps =>
    obtain ⟨d, hd, _⟩ := maxDegree_bounds g (by rw [hg]; exact fun he => by cases he)
    have hq : choose_q g = some (4 * d + 1) := by
      unfold choose_q
      rw [hd]
      rfl
    rw [hq] at h
    by_cases hloop : hasSelfLoopB g = true
    · simp [hloop] at h
    · by_cases hk : (keys g).length = 0
      · simp [hloop, hk] at h
      · simp only [hloop, Bool.false_eq_true, if_false, if_neg hk, hd] at h
        rw [if_neg (by omega : ¬ (4 * d + 1 ≤ 4 * d))] at h
        cases h

/-- C7 witness: the Metropolis theorem applied to the single edge `Gedge` with
a two-step random stream. -/
theorem C7_metropolis_proper_witness :
    ∃ r, metropolis_coloring Gedge [(0, 3), (1, 0)] = Except.ok r ∧
      ProperOn Gedge r.coloring ∧ CompleteOn Gedge r.coloring :=
  C7_metropolis_proper Gedge [(0, 3), (1, 0)] (by decide) (by decide)
    (fun he => by cases he)

/-! ## Conflict counting shared by `simulatedAnnealing.py` and `genetic.py` -/

/-- The per-entry term of the full conflict scans (`full_conflict_count` in
simulatedAnnealing.py, `compute_conflicts` in genetic.py): conflicting edges
at this entry, counted once via `node < nbr`. -/
def entryConf (sol : Coloring) (p : Nat × List Nat) : Nat :=
  (p.snd.filter (fun nbr => p.fst < nbr && (lookupD sol p.fst == lookupD sol nbr))).length

/-- `full_conflict_count(solution)` / `compute_conflicts(coloring)`. -/
def conflict_count (g : Graph) (sol : Coloring) : Nat := (g.map (entryConf sol)).sum

theorem nat_beq_comm (a b : Nat) : (a == b) = (b == a) := by
  by_cases h : a = b
  · rw [h]
  · rw [beq_eq_false_iff_ne.mpr h, beq_eq_false_iff_ne.mpr (Ne.symm h)]

theorem lookup_some_mem_values (c : Coloring) (v a : Nat) (h : lookupC c v = some a) :
    a ∈ valuesC c := by
  induction c with
  | nil => cases h
  | cons p ps ih =>
    simp only [lookupC] at h
    by_cases hp : p.fst = v
    · rw [if_pos hp] at h
      simp only [valuesC, List.map_cons]
      exact List.mem_cons.mpr (Or.inl (Option.some.inj h).symm)
    · rw [if_neg hp] at h
      simp only [valuesC, List.map_cons]
      exact List.mem_cons.mpr (Or.inr (ih h))

theorem lookupD_mem_values (c : Coloring) (v : Nat) (h : memC c v = true) :
    lookupD c v ∈ valuesC c := by
  obtain ⟨a, ha⟩ := (memC_true_iff c v).mp h
  unfold lookupD
  rw [ha]
  exact lookup_some_mem_values c v a ha

theorem le_maxValues (c : Coloring) (a : Nat) (h : a ∈ valuesC c) : a ≤ maxValues c :=
  (foldl_max_bounds (valuesC c) 0).2 a h

/-- A conflict-free coloring is proper (`conflicts == 0` scans each edge once
at its lower endpoint; symmetry covers the other direction). -/
theorem properOn_of_conflicts_zero (g : Graph) (hwf : WF g) (hsym : Symm g)
    (sol : Coloring) (h : conflict_count g sol = 0) : ProperOn g sol := by
  intro v hv u hu hune a hva hua
  have hentry : ∀ (w₁ w₂ : Nat), w₁ ∈ keys g → w₂ ∈ adjOf g w₁ → w₁ < w₂ →
      lookupD sol w₁ = lookupD sol w₂ → False := by
    intro w₁ w₂ hw₁ hw₂ hlt heq
    obtain ⟨ns, hns⟩ := (mem_keys_iff g w₁).mp hw₁
    have hadj : adjOf g w₁ = ns := adjOf_eq_of_mem g w₁ ns hwf.1 hns
    have hterm : 1 ≤ entryConf sol (w₁, ns) := by
      unfold entryConf
      have hmem : w₂ ∈ ns.filter (fun nbr => w₁ < nbr && (lookupD sol w₁ == lookupD sol nbr)) := by
        apply List.mem_filter.mpr
        refine ⟨hadj ▸ hw₂, ?_⟩
        rw [Bool.and_eq_true]
        exact ⟨decide_eq_true hlt, beq_iff_eq.mpr heq⟩
      cases hfil : ns.filter (fun nbr => w₁ < nbr && (lookupD sol w₁ == lookupD sol nbr)) with
      | nil => rw [hfil] at hmem; cases hmem
      | cons x xs => simp [hfil]
    have hsum : entryConf sol (w₁, ns) ≤ conflict_count g sol := by
      unfold conflict_count
      exact List.single_le_sum (fun x _ => Nat.zero_le x) _
        (List.mem_map.mpr ⟨(w₁, ns), hns, rfl⟩)
    omega
  have hdv : lookupD sol v = a := by unfold lookupD; rw [hva]; rfl
  have hdu : lookupD sol u = a := by unfold lookupD; rw [hua]; rfl
  have hukeys : u ∈ keys g := mem_keys_of_mem_adjOf g hwf v u hu
  rcases Nat.lt_trichotomy v u with hlt | heq | hgt
  · exact hentry v u hv hu hlt (by rw [hdv, hdu])
  · exact hune heq.symm
  · exact hentry u v hukeys (hsym v hv u hu) hgt (by rw [hdv, hdu])

/-- The incremental conflict delta of the SA move (`delta_conflicts` loop). -/
def sa_delta_conflicts (g : Graph) (sol : Coloring) (node oldC newC : Nat) : Int :=
  ((adjOf g node).map (fun nbr =>
    if node < nbr ∨ nbr < node then
      (if lookupD sol nbr == newC then (1 : Int) else 0) -
      (if lookupD sol nbr == oldC then (1 : Int) else 0)
    else 0)).sum

theorem entryConf_cons (c : Coloring) (u nbr : Nat) (ns : List Nat) :
    entryConf c (u, nbr :: ns) =
      (if u < nbr ∧ lookupD c u = lookupD c nbr then 1 else 0) + entryConf c (u, ns) := by
  unfold entryConf
  simp only [List.filter_cons]
  by_cases h : (decide (u < nbr) && (lookupD c u == lookupD c nbr)) = true
  · rw [if_pos h, if_pos ?_]
    · simp only [List.length_cons]
      omega
    · rw [Bool.and_eq_true] at h
      exact ⟨of_decide_eq_true h.1, eq_of_beq h.2⟩
  · rw [if_neg h, if_neg ?_]
    · omega
    · rintro ⟨h1, h2⟩
      exact h (by
        rw [Bool.and_eq_true]
        exact ⟨decide_eq_true h1, beq_iff_eq.mpr h2⟩)

theorem sum_map_ite_zero (P : Nat × List Nat → Prop) [DecidablePred P]
    (h : Nat × List Nat → Int) :
    ∀ (l : List (Nat × List Nat)),
      (l.map (fun x => if P x then h x else 0)).sum =
        ((l.filter (fun x => decide (P x))).map h).sum := by
  intro l
  induction l with
  | nil => rfl
  | cons x xs ih =>
    simp only [List.map_cons, List.sum_cons, List.filter_cons]
    by_cases hx : P x
    · rw [if_pos hx, if_pos (decide_eq_true hx)]
      simp only [List.map_cons, List.sum_cons]
      rw [ih]
    · rw [if_neg hx, if_neg (by rw [decide_eq_false hx]; exact Bool.false_ne_true), ih]
      omega

theorem sum_map_ite_zero_nat (P : Nat → Prop) [DecidablePred P] (h : Nat → Int) :
    ∀ (l : List Nat),
      (l.map (fun x => if P x then h x else 0)).sum =
        ((l.filter (fun x => decide (P x))).map h).sum := by
  intro l
  induction l with
  | nil => rfl
  | cons x xs ih =>
    simp only [List.map_cons, List.sum_cons, List.filter_cons]
    by_cases hx : P x
    · rw [if_pos hx, if_pos (decide_eq_true hx)]
      simp only [List.map_cons, List.sum_cons]
      rw [ih]
    · rw [if_neg hx, if_neg (by rw [decide_eq_false hx]; exact Bool.false_ne_true), ih]
      omega

theorem sum_map_split_lt (v : Nat) (f : Nat → Int) :
    ∀ (l : List Nat), v ∉ l →
      (l.map (fun x => if v < x ∨ x < v then f x else 0)).sum =
        (l.map (fun x => if v < x then f x else 0)).sum +
        (l.map (fun x => if x < v then f x else 0)).sum := by
  intro l
  induction l with
  | nil =>
    intro _
    rfl
  | cons x xs ih =>
    intro hv
    have hxv : x ≠ v := fun he => hv (he ▸ List.mem_cons_self x xs)
    simp only [List.map_cons, List.sum_cons]
    rw [ih (fun hm => hv (List.mem_cons_of_mem x hm))]
    rcases Nat.lt_trichotomy v x with h | h | h
    · rw [if_pos (Or.inl h), if_pos h, if_neg (by omega)]
      ring
    · exact absurd h.symm hxv
    · rw [if_pos (Or.inr h), if_neg (by omega), if_pos h]
      ring

theorem entryConf_insert_self (sol : Coloring) (v newC : Nat) :
    ∀ (ns : List Nat), v ∉ ns →
      (entryConf (insertC sol v newC) (v, ns) : Int) =
        (entryConf sol (v, ns) : Int) +
        (ns.map (fun nbr => if v < nbr then
            (if lookupD sol nbr == newC then (1 : Int) else 0) -
            (if lookupD sol nbr == lookupD sol v then (1 : Int) else 0)
          else 0)).sum := by
  intro ns
  induction ns with
  | nil =>
    intro _
    simp [entryConf]
  | cons nbr ns ih =>
    intro hnv
    have hnbrv : nbr ≠ v := fun he => hnv (he ▸ List.mem_cons_self nbr ns)
    have hih := ih (fun hm => hnv (List.mem_cons_of_mem nbr hm))
    rw [entryConf_cons, entryConf_cons, List.map_cons, List.sum_cons]
    rw [show lookupD (insertC sol v newC) v = newC from by rw [lookupD_insertC, if_pos rfl],
      show lookupD (insertC sol v newC) nbr = lookupD sol nbr from by
        rw [lookupD_insertC, if_neg (fun he => hnbrv he.symm)]]
    simp only [beq_iff_eq] at hih ⊢
    push_cast at hih
    by_cases hlt : v < nbr
    · by_cases hnew : lookupD sol nbr = newC
      · rw [if_pos (show v < nbr ∧ newC = lookupD sol nbr from ⟨hlt, hnew.symm⟩),
          if_pos hlt, if_pos hnew]
        by_cases hold : lookupD sol nbr = lookupD sol v
        · rw [if_pos (show v < nbr ∧ lookupD sol v = lookupD sol nbr from ⟨hlt, hold.symm⟩),
            if_pos hold]
          push_cast
          omega
        · rw [if_neg (show ¬(v < nbr ∧ lookupD sol v = lookupD sol nbr) from
              fun hc => hold hc.2.symm), if_neg hold]
          push_cast
          omega
      · rw [if_neg (show ¬(v < nbr ∧ newC = lookupD sol nbr) from fun hc => hnew hc.2.symm),
          if_pos hlt, if_neg hnew]
        by_cases hold : lookupD sol nbr = lookupD sol v
        · rw [if_pos (show v < nbr ∧ lookupD sol v = lookupD sol nbr from ⟨hlt, hold.symm⟩),
            if_pos hold]
          push_cast
          omega
        · rw [if_neg (show ¬(v < nbr ∧ lookupD sol v = lookupD sol nbr) from
              fun hc => hold hc.2.symm), if_neg hold]
          push_cast
          omega
    · rw [if_neg (show ¬(v < nbr ∧ newC = lookupD sol nbr) from fun hc => hlt hc.1),
        if_neg (show ¬(v < nbr ∧ lookupD sol v = lookupD sol nbr) from fun hc => hlt hc.1),
        if_neg hlt]
      push_cast
      omega

theorem entryConf_insert_none (sol : Coloring) (v newC u : Nat) (hu : u ≠ v) :
    ∀ (ns : List Nat), v ∉ ns →
      entryConf (insertC sol v newC) (u, ns) = entryConf sol (u, ns) := by
  intro ns
  induction ns with
  | nil =>
    intro _
    rfl
  | cons nbr ns ih =>
    intro hnv
    have hnbrv : nbr ≠ v := fun he => hnv (he ▸ List.mem_cons_self nbr ns)
    rw [entryConf_cons, entryConf_cons,
      show lookupD (insertC sol v newC) u = lookupD sol u from by
        rw [lookupD_insertC, if_neg (fun he => hu he.symm)],
      show lookupD (insertC sol v newC) nbr = lookupD sol nbr from by
        rw [lookupD_insertC, if_neg (fun he => hnbrv he.symm)],
      ih (fun hm => hnv (List.mem_cons_of_mem nbr hm))]

theorem entryConf_insert_other (sol : Coloring) (v newC u : Nat) (hu : u ≠ v) :
    ∀ (ns : List Nat), ns.Nodup →
      (entryConf (insertC sol v newC) (u, ns) : Int) =
        (entryConf sol (u, ns) : Int) +
        (if v ∈ ns ∧ u < v then
          (if lookupD sol u == newC then (1 : Int) else 0) -
          (if lookupD sol u == lookupD sol v then (1 : Int) else 0)
        else 0) := by
  intro ns
  induction ns with
  | nil =>
    intro _
    simp [entryConf]
  | cons nbr ns ih =>
    intro hnd
    have hndtail : ns.Nodup := (List.nodup_cons.mp hnd).2
    rw [entryConf_cons, entryConf_cons,
      show lookupD (insertC sol v newC) u = lookupD sol u from by
        rw [lookupD_insertC, if_neg (fun he => hu he.symm)]]
    simp only [beq_iff_eq]
    by_cases hnbr : nbr = v
    · rw [hnbr]
      rw [show lookupD (insertC sol v newC) v = newC from by rw [lookupD_insertC, if_pos rfl]]
      have hvns : v ∉ ns := by
        have := (List.nodup_cons.mp hnd).1
        rw [hnbr] at this
        exact this
      rw [entryConf_insert_none sol v newC u hu ns hvns]
      have hmem : v ∈ v :: ns := List.mem_cons_self v ns
      by_cases hult : u < v
      · rw [if_pos (show v ∈ v :: ns ∧ u < v from ⟨hmem, hult⟩)]
        by_cases hnew : lookupD sol u = newC
        · rw [if_pos (show u < v ∧ lookupD sol u = newC from ⟨hult, hnew⟩), if_pos hnew]
          by_cases hold : lookupD sol u = lookupD sol v
          · rw [if_pos (show u < v ∧ lookupD sol u = lookupD sol v from ⟨hult, hold⟩),
              if_pos hold]
            push_cast
            omega
          · rw [if_neg (show ¬(u < v ∧ lookupD sol u = lookupD sol v) from
                fun hc => hold hc.2), if_neg hold]
            push_cast
            omega
        · rw [if_neg (show ¬(u < v ∧ lookupD sol u = newC) from fun hc => hnew hc.2),
            if_neg hnew]
          by_cases hold : lookupD sol u = lookupD sol v
          · rw [if_pos (show u < v ∧ lookupD sol u = lookupD sol v from ⟨hult, hold⟩),
              if_pos hold]
            push_cast
            omega
          · rw [if_neg (show ¬(u < v ∧ lookupD sol u = lookupD sol v) from
                fun hc => hold hc.2), if_neg hold]
            push_cast
            omega
      · rw [if_neg (show ¬(v ∈ v :: ns ∧ u < v) from fun hc => hult hc.2),
          if_neg (show ¬(u < v ∧ lookupD sol u = newC) from fun hc => hult hc.1),
          if_neg (show ¬(u < v ∧ lookupD sol u = lookupD sol v) from fun hc => hult hc.1)]
        push_cast
        omega
    · rw [show lookupD (insertC sol v newC) nbr = lookupD sol nbr from by
        rw [lookupD_insertC, if_neg (fun he => hnbr he.symm)]]
      have hih := ih hndtail
      simp only [beq_iff_eq] at hih
      have hiff : (v ∈ nbr :: ns ∧ u < v) ↔ (v ∈ ns ∧ u < v) := by
        constructor
        · rintro ⟨hm, hl⟩
          cases List.mem_cons.mp hm with
          | inl he => exact absurd he.symm hnbr
          | inr hm2 => exact ⟨hm2, hl⟩
        · rintro ⟨hm, hl⟩
          exact ⟨List.mem_cons_of_mem nbr hm, hl⟩
      rw [if_congr hiff rfl rfl]
      push_cast
      push_cast at hih
      omega

theorem conflict_sum_insert (sol : Coloring) (v newC : Nat) :
    ∀ (l : Graph), (∀ p ∈ l, p.snd.Nodup) → (∀ p ∈ l, p.fst = v → v ∉ p.snd) →
      ((l.map (entryConf (insertC sol v newC))).sum : Int) =
        ((l.map (entryConf sol)).sum : Int) +
        (l.map (fun p =>
          if p.fst = v then
            (p.snd.map (fun nbr => if v < nbr then
              (if lookupD sol nbr == newC then (1 : Int) else 0) -
              (if lookupD sol nbr == lookupD sol v then (1 : Int) else 0) else 0)).sum
          else
            (if v ∈ p.snd ∧ p.fst < v then
              (if lookupD sol p.fst == newC then (1 : Int) else 0) -
              (if lookupD sol p.fst == lookupD sol v then (1 : Int) else 0)
            else 0))).sum := by
  intro l
  induction l with
  | nil =>
    intro _ _
    simp
  | cons p ps ih =>
    intro h1 h2
    obtain ⟨pf, pn⟩ := p
    simp only [List.map_cons, List.sum_cons]
    have hihs := ih (fun q hq => h1 q (List.mem_cons_of_mem _ hq))
      (fun q hq => h2 q (List.mem_cons_of_mem _ hq))
    push_cast
    push_cast at hihs
    rw [hihs]
    by_cases hp : pf = v
    · subst hp
      rw [if_pos rfl]
      have hvn : pf ∉ pn := h2 (pf, pn) (List.mem_cons_self _ _) rfl
      have := entryConf_insert_self sol pf newC pn hvn
      push_cast at this
      omega
    · rw [if_neg hp]
      have := entryConf_insert_other sol v newC pf hp pn
        (h1 (pf, pn) (List.mem_cons_self _ _))
      push_cast at this
      omega

/-- The incremental conflict update of simulatedAnnealing.py is exact: after
recoloring `v` to `newC`, the full scan equals the old full scan plus the
local delta over `v`'s neighbours (for well-formed symmetric self-loop-free
graphs). -/
theorem conflict_count_insert (g : Graph) (hwf : WF g) (hsym : Symm g) (hnl : NoSelfLoop g)
    (sol : Coloring) (v newC : Nat) (hv : v ∈ keys g) :
    (conflict_count g (insertC sol v newC) : Int) =
      (conflict_count g sol : Int) + sa_delta_conflicts g sol v (lookupD sol v) newC := by
  obtain ⟨ns, hns⟩ := (mem_keys_iff g v).mp hv
  have hadj : adjOf g v = ns := adjOf_eq_of_mem g v ns hwf.1 hns
  have hvns : v ∉ ns := hnl (v, ns) hns
  have hnsnd : ns.Nodup := (hwf.2 (v, ns) hns).1
  obtain ⟨l1, l2, hg⟩ := List.append_of_mem hns
  have hkeys : keys g = keys l1 ++ v :: keys l2 := by
    rw [hg]
    simp [keys]
  have hknd : (keys l1 ++ v :: keys l2).Nodup := hkeys ▸ hwf.1
  have hvl1 : v ∉ keys l1 := by
    intro hm
    have := (List.nodup_append.mp hknd).2.2
    exact this hm (List.mem_cons_self v (keys l2))
  have hvl2 : v ∉ keys l2 := by
    have := (List.nodup_append.mp hknd).2.1
    exact (List.nodup_cons.mp this).1
  have htot := conflict_sum_insert sol v newC g (fun p hp => (hwf.2 p hp).1)
    (fun p hp hpf => hpf ▸ hnl p hp)
  set f : Nat → Int := fun x =>
    (if lookupD sol x == newC then (1 : Int) else 0) -
    (if lookupD sol x == lookupD sol v then (1 : Int) else 0) with hf
  set Dp : Nat × List Nat → Int := fun p =>
    if p.fst = v then
      (p.snd.map (fun nbr => if v < nbr then
        (if lookupD sol nbr == newC then (1 : Int) else 0) -
        (if lookupD sol nbr == lookupD sol v then (1 : Int) else 0) else 0)).sum
    else
      (if v ∈ p.snd ∧ p.fst < v then
        (if lookupD sol p.fst == newC then (1 : Int) else 0) -
        (if lookupD sol p.fst == lookupD sol v then (1 : Int) else 0)
      else 0) with hDp
  have hB : ∀ p, p.fst ≠ v → Dp p = (if v ∈ p.snd ∧ p.fst < v then f p.fst else 0) := by
    intro p hp
    rw [hDp]
    simp only [if_neg hp]
  have hA : Dp (v, ns) = (ns.map (fun nbr => if v < nbr then f nbr else 0)).sum := by
    rw [hDp, hf]
    simp only [eq_self_iff_true, if_true]
  have hDsum : (g.map Dp).sum =
      (ns.map (fun nbr => if v < nbr then f nbr else 0)).sum +
      (((l1 ++ l2).map (fun p => if v ∈ p.snd ∧ p.fst < v then f p.fst else 0)).sum) := by
    rw [hg]
    rw [List.map_append, List.sum_append, List.map_cons, List.sum_cons]
    rw [List.map_append, List.sum_append]
    have hl1 : l1.map Dp = l1.map (fun p => if v ∈ p.snd ∧ p.fst < v then f p.fst else 0) := by
      apply List.map_congr_left
      intro p hp
      exact hB p (fun he => hvl1 (he ▸ List.mem_map.mpr ⟨p, hp, rfl⟩))
    have hl2 : l2.map Dp = l2.map (fun p => if v ∈ p.snd ∧ p.fst < v then f p.fst else 0) := by
      apply List.map_congr_left
      intro p hp
      exact hB p (fun he => hvl2 (he ▸ List.mem_map.mpr ⟨p, hp, rfl⟩))
    rw [hl1, hl2, hA]
    ring
  have hperm : List.Perm
      (((l1 ++ l2).filter (fun p => decide (v ∈ p.snd ∧ p.fst < v))).map Prod.fst)
      (ns.filter (fun u => decide (u < v))) := by
    apply (List.perm_ext_iff_of_nodup ?_ ?_).mpr
    · intro u
      constructor
      · intro hu
        obtain ⟨p, hpf, hpu⟩ := List.mem_map.mp hu
        obtain ⟨hpl, hpq⟩ := List.mem_filter.mp hpf
        have hq := of_decide_eq_true hpq
        have hpg : p ∈ g := by
          rw [hg]
          cases List.mem_append.mp hpl with
          | inl h => exact List.mem_append.mpr (Or.inl h)
          | inr h => exact List.mem_append.mpr (Or.inr (List.mem_cons_of_mem _ h))
        have hukeys : u ∈ keys g := by
          rw [← hpu]
          exact List.mem_map.mpr ⟨p, hpg, rfl⟩
        have hentry : (u, p.snd) ∈ g := by
          rw [← hpu]
          exact Prod.mk.eta ▸ hpg
        have hadju : adjOf g u = p.snd := adjOf_eq_of_mem g u p.snd hwf.1 hentry
        have hvadju : v ∈ adjOf g u := hadju ▸ hq.1
        have huadjv : u ∈ adjOf g v := hsym u hukeys v hvadju
        apply List.mem_filter.mpr
        exact ⟨hadj ▸ huadjv, decide_eq_true (hpu ▸ hq.2)⟩
      · intro hu
        obtain ⟨huns, hultb⟩ := List.mem_filter.mp hu
        have hult : u < v := of_decide_eq_true hultb
        have hukeys : u ∈ keys g := (hwf.2 (v, ns) hns).2 u huns
        obtain ⟨ms, hms⟩ := (mem_keys_iff g u).mp hukeys
        have hadjm : adjOf g u = ms := adjOf_eq_of_mem g u ms hwf.1 hms
        have hvms : v ∈ ms := by
          rw [← hadjm]
          exact hsym v hv u (hadj ▸ huns)
        have hmem12 : (u, ms) ∈ l1 ++ l2 := by
          have := hms
          rw [hg] at this
          cases List.mem_append.mp this with
          | inl h => exact List.mem_append.mpr (Or.inl h)
          | inr h =>
            cases List.mem_cons.mp h with
            | inl he =>
              exfalso
              have : u = v := congrArg Prod.fst he
              omega
            | inr h2 => exact List.mem_append.mpr (Or.inr h2)
        apply List.mem_map.mpr
        refine ⟨(u, ms), List.mem_filter.mpr ⟨hmem12, ?_⟩, rfl⟩
        exact decide_eq_true ⟨hvms, hult⟩
    · have hsub : List.Sublist
          (((l1 ++ l2).filter (fun p => decide (v ∈ p.snd ∧ p.fst < v))).map Prod.fst)
          ((l1 ++ l2).map Prod.fst) := List.Sublist.map Prod.fst (List.filter_sublist _)
      have hnd12 : ((l1 ++ l2).map Prod.fst).Nodup := by
        have : (keys l1 ++ keys l2).Nodup := by
          apply List.Nodup.sublist ?_ hknd
          exact List.Sublist.append_left (List.sublist_cons_self v (keys l2)) (keys l1)
        simpa [keys, List.map_append] using this
      exact List.Nodup.sublist hsub hnd12
    · exact List.Nodup.filter _ hnsnd
  have hsum2 : ((l1 ++ l2).map (fun p => if v ∈ p.snd ∧ p.fst < v then f p.fst else 0)).sum =
      ((ns.filter (fun u => decide (u < v))).map f).sum := by
    rw [sum_map_ite_zero (fun p => v ∈ p.snd ∧ p.fst < v) (fun p => f p.fst) (l1 ++ l2)]
    have : ((l1 ++ l2).filter (fun p => decide (v ∈ p.snd ∧ p.fst < v))).map (fun p => f p.fst)
        = (((l1 ++ l2).filter (fun p => decide (v ∈ p.snd ∧ p.fst < v))).map Prod.fst).map f := by
      rw [List.map_map]
      rfl
    rw [this]
    exact (hperm.map f).sum_eq
  have hdelta : sa_delta_conflicts g sol v (lookupD sol v) newC =
      (ns.map (fun nbr => if v < nbr then f nbr else 0)).sum +
      ((ns.filter (fun u => decide (u < v))).map f).sum := by
    unfold sa_delta_conflicts
    rw [hadj]
    have hsplit := sum_map_split_lt v f ns hvns
    rw [hf] at hsplit
    rw [← sum_map_ite_zero_nat (fun u => u < v) f ns]
    exact hsplit
  unfold conflict_count
  rw [htot, hdelta, hDsum, hsum2]

/-! ## `simulatedAnnealing.py` -/

/-- The random draws of one iteration: the vertex pick, the color pick, and the
outcome of `random.random() < math.exp(-delta/T)` (the floating-point
temperature computation is absorbed into this oracle bit; it is only consulted
for cost-increasing moves). -/
structure SAMove where
  vIdx : Nat
  cIdx : Nat
  accept : Bool
deriving Repr, DecidableEq

/-- The mutable locals of the SA main loop. -/
structure SAState where
  sol : Coloring
  conflicts : Int
  counts : Coloring
  distinct : Int
  cost : Int
  best : Coloring
  bestCost : Int
deriving Repr, DecidableEq

/-- `while new_color == old_color: new_color = random.randint(1, M)`: the
result is a color of `[1, M]` other than `old`; the stream index selects
which. -/
def pickNe (M old idx : Nat) : Nat :=
  let l := (List.range' 1 M).filter (fun c => !(c == old))
  l.getD (idx % l.length) 0

/-- `color_counts` built by the initial full scan. -/
def buildCounts (vals : List Nat) : Coloring :=
  vals.foldl (fun cc color => insertC cc color ((lookupC cc color).getD 0 + 1)) []

/-- One iteration of the SA main loop (`initial_assignment=None` call path, so
`fixed` is empty in every run; kept as an argument because the loop computes
`free_nodes` from it).  Set iteration orders are abstracted to key order. -/
def sa_step (g : Graph) (fixed : List Nat) (st : SAState) (mv : SAMove) : SAState :=
  let n := g.length
  let freeNodes := (keys g).filter (fun v => !(fixed.contains v))
  if freeNodes.isEmpty then st
  else
    let conflictNodes := freeNodes.filter (fun v =>
      (adjOf g v).any (fun nbr => lookupD st.sol v == lookupD st.sol nbr))
    let node := if conflictNodes.isEmpty then freeNodes.getD (mv.vIdx % freeNodes.length) 0
      else conflictNodes.getD (mv.vIdx % conflictNodes.length) 0
    let oldColor := lookupD st.sol node
    let currentMax := maxValues st.sol
    let newColor := pickNe (currentMax + 1) oldColor mv.cIdx
    let candConflicts := st.conflicts + sa_delta_conflicts g st.sol node oldColor newColor
    let deltaDistinct : Int :=
      (if (lookupC st.counts oldColor).getD 0 == 1 then -1 else 0) +
      (if memC st.counts newColor then 0 else 1)
    let candDistinct := st.distinct + deltaDistinct
    let candCost := (n + 1) * candConflicts + (candDistinct - 1)
    if candCost - st.cost ≤ 0 ∨ mv.accept then
      let counts1 := insertC st.counts oldColor ((lookupC st.counts oldColor).getD 0 - 1)
      let counts2 := if (lookupC counts1 oldColor).getD 0 == 0 then eraseC counts1 oldColor
        else counts1
      let counts3 := insertC counts2 newColor ((lookupC counts2 newColor).getD 0 + 1)
      ⟨insertC st.sol node newColor, candConflicts, counts3, candDistinct, candCost,
        if candCost < st.bestCost then insertC st.sol node newColor else st.best,
        if candCost < st.bestCost then candCost else st.bestCost⟩
    else st

/-- The initialisation of the SA run for the `initial_assignment=None` path:
DSATUR seed, full conflict scan, `color_counts` scan, initial cost, and
`best = current`. -/
def sa_init (g : Graph) : Option SAState :=
  (dsatur_coloring g none).map (fun dr =>
    let sol0 := dr.coloring
    let conf0 : Int := (conflict_count g sol0 : Int)
    let counts0 := buildCounts (valuesC sol0)
    let cost0 := ((g.length : Int) + 1) * conf0 + ((counts0.length : Int) - 1)
    ⟨sol0, conf0, counts0, (counts0.length : Int), cost0, sol0, cost0⟩)

/-- `simulated_annealing_coloring(graph, record_steps=False,
initial_assignment=None)`, over an arbitrary stream of random moves (covering
every iteration count `max_iter`). -/
def simulated_annealing_coloring (g : Graph) (moves : List SAMove) : Option AlgResult :=
  if hasSelfLoopB g then none
  else if g.isEmpty then some ⟨some 0, some 0, []⟩
  else
    (sa_init g).map (fun st0 =>
      let stF := moves.foldl (fun st mv => sa_step g [] st mv) st0
      ⟨some (countDistinct (valuesC stF.best)), some (countDistinct (valuesC stF.best)),
        stF.best⟩)

/-! ### Association-list bookkeeping lemmas -/

/-- The key list of a coloring dict (insertion order). -/
def keysC (c : Coloring) : List Nat := c.map Prod.fst

theorem memC_mem_keys (c : Coloring) (v : Nat) (h : memC c v = true) : v ∈ keysC c := by
  induction c with
  | nil => cases h
  | cons p ps ih =>
    unfold memC lookupC at h
    by_cases hp : p.fst = v
    · simp only [keysC, List.map_cons]
      exact List.mem_cons.mpr (Or.inl hp.symm)
    · rw [if_neg hp] at h
      exact List.mem_cons_of_mem _ (ih h)

theorem mem_keysC_memC (c : Coloring) (x : Nat) (hx : x ∈ keysC c) : memC c x = true := by
  induction c with
  | nil => cases hx
  | cons p ps ih =>
    unfold memC lookupC
    by_cases hp : p.fst = x
    · rw [if_pos hp]
      rfl
    · rw [if_neg hp]
      have hx2 : x ∈ keysC ps := by
        simp only [keysC, List.map_cons, List.mem_cons] at hx
        cases hx with
        | inl he => exact absurd he.symm hp
        | inr hm => exact hm
      exact ih hx2

theorem keysC_insertC_mem : ∀ (c : Coloring) (v col : Nat), memC c v = true →
    keysC (insertC c v col) = keysC c := by
  intro c
  induction c with
  | nil =>
    intro v col h
    cases h
  | cons p ps ih =>
    intro v col h
    simp only [insertC]
    by_cases hp : p.fst = v
    · rw [if_pos hp]
      simp only [keysC, List.map_cons]
      rw [hp]
    · rw [if_neg hp]
      have hm : memC ps v = true := by
        unfold memC lookupC at h
        rw [if_neg hp] at h
        exact h
      simp only [keysC, List.map_cons]
      have := ih v col hm
      simp only [keysC] at this
      rw [this]

theorem keysC_insertC_not : ∀ (c : Coloring) (v col : Nat), memC c v = false →
    keysC (insertC c v col) = keysC c ++ [v] := by
  intro c
  induction c with
  | nil =>
    intro v col _
    rfl
  | cons p ps ih =>
    intro v col h
    simp only [insertC]
    by_cases hp : p.fst = v
    · exfalso
      unfold memC lookupC at h
      rw [if_pos hp] at h
      cases h
    · rw [if_neg hp]
      have hm : memC ps v = false := by
        unfold memC lookupC at h
        rw [if_neg hp] at h
        exact h
      simp only [keysC, List.map_cons]
      have := ih v col hm
      simp only [keysC] at this
      rw [this]
      rfl

theorem memC_insertC_self (c : Coloring) (v col : Nat) : memC (insertC c v col) v = true := by
  unfold memC
  rw [lookupC_insertC_self]
  rfl

theorem memC_insertC_ne (c : Coloring) (v col w : Nat) (h : v ≠ w) :
    memC (insertC c v col) w = memC c w := by
  unfold memC
  rw [lookupC_insertC_ne c v col w h]

theorem lookupC_eraseC (c : Coloring) (v w : Nat) :
    lookupC (eraseC c v) w = if w = v then none else lookupC c w := by
  induction c with
  | nil =>
    by_cases h : w = v
    · rw [if_pos h]
      rfl
    · rw [if_neg h]
      rfl
  | cons p ps ih =>
    simp only [eraseC, List.filter_cons]
    by_cases hp : p.fst = v
    · rw [if_neg (by rw [beq_iff_eq.mpr hp]; exact fun hc => by cases hc)]
      rw [show (List.filter (fun p => !(p.fst == v)) ps) = eraseC ps v from rfl, ih]
      by_cases hw : w = v
      · rw [if_pos hw, if_pos hw]
      · rw [if_neg hw, if_neg hw]
        have hpw : ¬ p.fst = w := fun he => hw (he.symm.trans hp ▸ rfl)
        simp only [lookupC, if_neg hpw]
    · rw [if_pos (by rw [beq_eq_false_iff_ne.mpr hp]; rfl)]
      by_cases hw : w = v
      · rw [if_pos hw]
        have hpw : ¬ p.fst = w := fun he => hp (he.trans hw)
        simp only [lookupC, if_neg hpw]
        rw [show (List.filter (fun p => !(p.fst == v)) ps) = eraseC ps v from rfl, ih,
          if_pos hw]
      · rw [if_neg hw]
        by_cases hpw : p.fst = w
        · simp only [lookupC, if_pos hpw]
        · simp only [lookupC, if_neg hpw]
          rw [show (List.filter (fun p => !(p.fst == v)) ps) = eraseC ps v from rfl, ih,
            if_neg hw]

theorem keysC_eraseC (c : Coloring) (v : Nat) :
    keysC (eraseC c v) = (keysC c).filter (fun k => !(k == v)) := by
  induction c with
  | nil => rfl
  | cons p ps ih =>
    simp only [eraseC, keysC, List.filter_cons, List.map_cons]
    by_cases hp : (p.fst == v) = true
    · rw [hp]
      simp only [Bool.not_true, if_neg (show ¬ (false = true) from fun hc => by cases hc)]
      simpa [eraseC, keysC] using ih
    · rw [Bool.not_eq_true] at hp
      rw [hp]
      simp only [Bool.not_false, if_pos rfl]
      congr 1
      simpa [eraseC, keysC] using ih

theorem memC_eraseC_self (c : Coloring) (v : Nat) : memC (eraseC c v) v = false := by
  unfold memC
  rw [lookupC_eraseC, if_pos rfl]
  rfl

theorem memC_eraseC_ne (c : Coloring) (v w : Nat) (h : w ≠ v) :
    memC (eraseC c v) w = memC c w := by
  unfold memC
  rw [lookupC_eraseC, if_neg h]

theorem length_keysC (c : Coloring) : (keysC c).length = c.length := List.length_map c Prod.fst

theorem length_insertC_mem (c : Coloring) (v col : Nat) (h : memC c v = true) :
    (insertC c v col).length = c.length := by
  rw [← length_keysC, ← length_keysC c, keysC_insertC_mem c v col h]

theorem length_insertC_not (c : Coloring) (v col : Nat) (h : memC c v = false) :
    (insertC c v col).length = c.length + 1 := by
  rw [← length_keysC, ← length_keysC c, keysC_insertC_not c v col h]
  simp

theorem length_eraseC_mem (c : Coloring) (v : Nat) (hnd : (keysC c).Nodup)
    (h : memC c v = true) : (eraseC c v).length + 1 = c.length := by
  rw [← length_keysC, ← length_keysC c, keysC_eraseC]
  have hfe : (keysC c).filter (fun k => !(k == v)) = (keysC c).erase v := by
    rw [List.Nodup.erase_eq_filter hnd v]
    rfl
  rw [hfe, List.length_erase_of_mem (memC_mem_keys c v h)]
  have : 0 < (keysC c).length := List.length_pos.mpr (fun he => by
    have := memC_mem_keys c v h
    rw [he] at this
    cases this)
  omega

theorem nodup_keysC_insertC (c : Coloring) (v col : Nat) (hnd : (keysC c).Nodup) :
    (keysC (insertC c v col)).Nodup := by
  cases hm : memC c v with
  | true =>
    rw [keysC_insertC_mem c v col hm]
    exact hnd
  | false =>
    rw [keysC_insertC_not c v col hm]
    rw [List.nodup_append]
    refine ⟨hnd, List.nodup_singleton v, ?_⟩
    intro x hx hxv
    have hxveq : x = v := List.mem_singleton.mp hxv
    subst hxveq
    have := mem_keysC_memC c x hx
    rw [this] at hm
    cases hm

theorem nodup_keysC_eraseC (c : Coloring) (v : Nat) (hnd : (keysC c).Nodup) :
    (keysC (eraseC c v)).Nodup := by
  rw [keysC_eraseC]
  exact List.Nodup.filter _ hnd

theorem count_valuesC_insertC (sol : Coloring) (v old new c : Nat)
    (h : lookupC sol v = some old) :
    (valuesC (insertC sol v new)).count c + (if old = c then 1 else 0) =
      (valuesC sol).count c + (if new = c then 1 else 0) := by
  induction sol with
  | nil => cases h
  | cons p ps ih =>
    simp only [lookupC] at h
    simp only [insertC]
    by_cases hp : p.fst = v
    · rw [if_pos hp] at h
      rw [if_pos hp]
      have hold : p.snd = old := Option.some.inj h
      simp only [valuesC, List.map_cons, List.count_cons]
      rw [← hold]
      by_cases h1 : new = c
      · by_cases h2 : p.snd = c
        · simp [h1, h2]
        · simp [h1, h2]
      · by_cases h2 : p.snd = c
        · simp [h1, h2]
        · simp [h1, h2]
    · rw [if_neg hp] at h
      rw [if_neg hp]
      simp only [valuesC, List.map_cons, List.count_cons]
      have := ih h
      simp only [valuesC] at this
      omega

theorem buildCounts_inv :
    ∀ (vals : List Nat) (cc : Coloring) (l : List Nat),
      (∀ c, (lookupC cc c).getD 0 = l.count c) →
      (∀ c, memC cc c = true ↔ c ∈ l) →
      (keysC cc).Nodup →
      (∀ c, (lookupC (vals.foldl (fun cc color =>
          insertC cc color ((lookupC cc color).getD 0 + 1)) cc) c).getD 0 =
        (l ++ vals).count c) ∧
      (∀ c, memC (vals.foldl (fun cc color =>
          insertC cc color ((lookupC cc color).getD 0 + 1)) cc) c = true ↔ c ∈ l ++ vals) ∧
      (keysC (vals.foldl (fun cc color =>
          insertC cc color ((lookupC cc color).getD 0 + 1)) cc)).Nodup := by
  intro vals
  induction vals with
  | nil =>
    intro cc l h1 h2 h3
    refine ⟨fun c => by simpa using h1 c, fun c => by simpa using h2 c, h3⟩
  | cons x xs ih =>
    intro cc l h1 h2 h3
    simp only [List.foldl_cons]
    have hs1 : ∀ c, (lookupC (insertC cc x ((lookupC cc x).getD 0 + 1)) c).getD 0 =
        (l ++ [x]).count c := by
      intro c
      rw [lookupC_insertC]
      by_cases hxc : x = c
      · rw [if_pos hxc]
        simp only [Option.getD_some]
        rw [List.count_append, hxc, h1 c]
        simp
      · rw [if_neg hxc]
        rw [List.count_append, h1 c]
        have hcx : List.count c [x] = 0 := by
          rw [List.count_eq_zero]
          intro hm
          exact hxc (List.mem_singleton.mp hm).symm
        omega
    have hs2 : ∀ c, memC (insertC cc x ((lookupC cc x).getD 0 + 1)) c = true ↔
        c ∈ l ++ [x] := by
      intro c
      by_cases hxc : x = c
      · rw [hxc]
        rw [memC_insertC_self]
        simp
      · rw [memC_insertC_ne cc x _ c hxc]
        rw [h2 c]
        constructor
        · intro hm
          exact List.mem_append.mpr (Or.inl hm)
        · intro hm
          cases List.mem_append.mp hm with
          | inl hm2 => exact hm2
          | inr hm2 =>
            exfalso
            exact hxc (List.mem_singleton.mp hm2).symm
    have hs3 : (keysC (insertC cc x ((lookupC cc x).getD 0 + 1))).Nodup :=
      nodup_keysC_insertC cc x _ h3
    have := ih (insertC cc x ((lookupC cc x).getD 0 + 1)) (l ++ [x]) hs1 hs2 hs3
    refine ⟨fun c => ?_, fun c => ?_, this.2.2⟩
    · rw [this.1 c]
      rw [List.append_assoc]
      rfl
    · rw [this.2.1 c]
      rw [List.append_assoc]
      rfl

/-! ### The SA bookkeeping invariant -/

/-- The incrementally tracked quantities of the SA loop agree with full
recomputation, and the tracked best cost is the true cost of the tracked best
solution (with some nonnegative distinct-color count). -/
structure SAInv (g : Graph) (st : SAState) : Prop where
  solMem : ∀ w, memC st.sol w = true ↔ w ∈ keys g
  solNodup : (keysC st.sol).Nodup
  conf : st.conflicts = (conflict_count g st.sol : Int)
  countsVal : ∀ c, ((lookupC st.counts c).getD 0 : Nat) = (valuesC st.sol).count c
  countsMem : ∀ c, memC st.counts c = true ↔ 0 < (valuesC st.sol).count c
  countsNodup : (keysC st.counts).Nodup
  dist : st.distinct = (st.counts.length : Int)
  cost : st.cost = ((g.length : Int) + 1) * st.conflicts + (st.distinct - 1)
  bestCost : ∃ d : Int, 0 ≤ d ∧ st.bestCost =
    ((g.length : Int) + 1) * (conflict_count g st.best : Int) + (d - 1)
  bestLe : st.bestCost ≤ st.cost

theorem length_pos_of_isEmpty_false {l : List Nat} (h : l.isEmpty = false) : 0 < l.length := by
  cases l with
  | nil => cases h
  | cons a as => simp

theorem pickNe_ne (M old idx : Nat) (h : old < M) : pickNe M old idx ≠ old := by
  unfold pickNe
  have hne : ∃ x, x ∈ (List.range' 1 M).filter (fun c => !(c == old)) := by
    by_cases hold1 : old = 1
    · refine ⟨2, List.mem_filter.mpr ⟨?_, ?_⟩⟩
      · rw [List.mem_range'_1]
        omega
      · rw [Bool.not_eq_true']
        rw [beq_eq_false_iff_ne]
        omega
    · refine ⟨1, List.mem_filter.mpr ⟨?_, ?_⟩⟩
      · rw [List.mem_range'_1]
        omega
      · rw [Bool.not_eq_true']
        rw [beq_eq_false_iff_ne]
        exact fun he => hold1 he.symm
  obtain ⟨x, hx⟩ := hne
  have hlen : 0 < ((List.range' 1 M).filter (fun c => !(c == old))).length := by
    cases hl : (List.range' 1 M).filter (fun c => !(c == old)) with
    | nil =>
      rw [hl] at hx
      cases hx
    | cons a as => simp
  have hmem := getD_mem ((List.range' 1 M).filter (fun c => !(c == old)))
    (idx % ((List.range' 1 M).filter (fun c => !(c == old))).length) 0
    (Nat.mod_lt idx hlen)
  have := (List.mem_filter.mp hmem).2
  rw [Bool.not_eq_true'] at this
  exact fun he => absurd (beq_iff_eq.mpr he) (by rw [this]; exact Bool.false_ne_true)

theorem lookupC_eq_some_lookupD (c : Coloring) (v : Nat) (h : memC c v = true) :
    lookupC c v = some (lookupD c v) := by
  obtain ⟨a, ha⟩ := (memC_true_iff c v).mp h
  rw [ha]
  unfold lookupD
  rw [ha]
  rfl

/-- A step of the SA loop either leaves the state unchanged (empty free set or
rejected move) or performs the accepted-move update at some graph vertex. -/
theorem sa_step_cases (g : Graph) (fixed : List Nat) (st : SAState) (mv : SAMove) :
    sa_step g fixed st mv = st ∨
    ∃ node newColor,
      node ∈ keys g ∧
      newColor = pickNe (maxValues st.sol + 1) (lookupD st.sol node) mv.cIdx ∧
      sa_step g fixed st mv =
        (let candConflicts := st.conflicts +
            sa_delta_conflicts g st.sol node (lookupD st.sol node) newColor
        let candDistinct := st.distinct +
          ((if (lookupC st.counts (lookupD st.sol node)).getD 0 == 1 then (-1 : Int) else 0) +
           (if memC st.counts newColor then 0 else 1))
        let candCost := ((g.length : Int) + 1) * candConflicts + (candDistinct - 1)
        let counts1 := insertC st.counts (lookupD st.sol node)
            ((lookupC st.counts (lookupD st.sol node)).getD 0 - 1)
        let counts2 := if (lookupC counts1 (lookupD st.sol node)).getD 0 == 0
            then eraseC counts1 (lookupD st.sol node) else counts1
        let counts3 := insertC counts2 newColor ((lookupC counts2 newColor).getD 0 + 1)
        (⟨insertC st.sol node newColor, candConflicts, counts3, candDistinct, candCost,
          if candCost < st.bestCost then insertC st.sol node newColor else st.best,
          if candCost < st.bestCost then candCost else st.bestCost⟩ : SAState)) := by
  simp only [sa_step]
  by_cases hfe : ((keys g).filter (fun v => !(fixed.contains v))).isEmpty = true
  · rw [if_pos hfe]
    exact Or.inl rfl
  · rw [if_neg hfe]
    have hflen : 0 < ((keys g).filter (fun v => !(fixed.contains v))).length :=
      length_pos_of_isEmpty_false (Bool.not_eq_true _ ▸ hfe)
    set freeNodes := (keys g).filter (fun v => !(fixed.contains v)) with hfreeN
    set conflictNodes := freeNodes.filter (fun v =>
      (adjOf g v).any (fun nbr => lookupD st.sol v == lookupD st.sol nbr)) with hconfN
    set node := if conflictNodes.isEmpty then freeNodes.getD (mv.vIdx % freeNodes.length) 0
      else conflictNodes.getD (mv.vIdx % conflictNodes.length) 0 with hnode
    have hnodeK : node ∈ keys g := by
      rw [hnode]
      by_cases hce : conflictNodes.isEmpty = true
      · rw [if_pos hce]
        have := getD_mem freeNodes (mv.vIdx % freeNodes.length) 0
          (Nat.mod_lt mv.vIdx hflen)
        exact (List.mem_filter.mp (hfreeN ▸ this)).1
      · rw [if_neg hce]
        have hclen : 0 < conflictNodes.length :=
          length_pos_of_isEmpty_false (Bool.not_eq_true _ ▸ hce)
        have := getD_mem conflictNodes (mv.vIdx % conflictNodes.length) 0
          (Nat.mod_lt mv.vIdx hclen)
        have h2 := (List.mem_filter.mp (hconfN ▸ this)).1
        exact (List.mem_filter.mp (hfreeN ▸ h2)).1
    by_cases hacc : (((g.length : Int) + 1) * (st.conflicts +
        sa_delta_conflicts g st.sol node (lookupD st.sol node)
          (pickNe (maxValues st.sol + 1) (lookupD st.sol node) mv.cIdx)) +
        (st.distinct +
          ((if (lookupC st.counts (lookupD st.sol node)).getD 0 == 1 then (-1 : Int) else 0) +
           (if memC st.counts (pickNe (maxValues st.sol + 1) (lookupD st.sol node) mv.cIdx)
            then 0 else 1)) - 1) - st.cost ≤ 0) ∨ mv.accept = true
    · rw [if_pos hacc]
      exact Or.inr ⟨node, _, hnodeK, rfl, rfl⟩
    · rw [if_neg hacc]
      exact Or.inl rfl

theorem sa_step_bestCost_le (g : Graph) (fixed : List Nat) (st : SAState) (mv : SAMove) :
    (sa_step g fixed st mv).bestCost ≤ st.bestCost := by
  cases sa_step_cases g fixed st mv with
  | inl h =>
    rw [h]
  | inr h =>
    obtain ⟨node, newColor, _, _, hstep⟩ := h
    rw [hstep]
    simp only []
    by_cases hlt : (((g.length : Int) + 1) * (st.conflicts +
        sa_delta_conflicts g st.sol node (lookupD st.sol node) newColor) +
        (st.distinct +
          ((if (lookupC st.counts (lookupD st.sol node)).getD 0 == 1 then (-1 : Int) else 0) +
           (if memC st.counts newColor then 0 else 1)) - 1)) < st.bestCost
    · rw [if_pos hlt]
      omega
    · rw [if_neg hlt]

theorem sa_fold_bestCost_le (g : Graph) (fixed : List Nat) :
    ∀ (moves : List SAMove) (st : SAState),
      ((moves.foldl (fun st mv => sa_step g fixed st mv) st).bestCost ≤ st.bestCost) := by
  intro moves
  induction moves with
  | nil =>
    intro st
    exact Int.le_refl _
  | cons mv ms ih =>
    intro st
    simp only [List.foldl_cons]
    exact Int.le_trans (ih (sa_step g fixed st mv)) (sa_step_bestCost_le g fixed st mv)

theorem sa_step_inv (g : Graph) (hwf : WF g) (hsym : Symm g) (hnl : NoSelfLoop g)
    (fixed : List Nat) (st : SAState) (mv : SAMove) (hinv : SAInv g st) :
    SAInv g (sa_step g fixed st mv) := by
  cases sa_step_cases g fixed st mv with
  | inl h =>
    rw [h]
    exact hinv
  | inr h =>
    obtain ⟨node, newColor, hnodeK, hnewdef, hstep⟩ := h
    rw [hstep]
    simp only []
    set old := lookupD st.sol node with hold
    have hmemNode : memC st.sol node = true := (hinv.solMem node).mpr hnodeK
    have hlookNode : lookupC st.sol node = some old := lookupC_eq_some_lookupD _ _ hmemNode
    have holdval : old ∈ valuesC st.sol := lookupD_mem_values st.sol node hmemNode
    have holdmax : old ≤ maxValues st.sol := le_maxValues _ _ holdval
    have hnew_ne : newColor ≠ old := by
      rw [hnewdef, hold]
      exact pickNe_ne _ _ _ (by omega)
    have hcntold : ((lookupC st.counts old).getD 0 : Nat) = (valuesC st.sol).count old :=
      hinv.countsVal old
    have hcntold_pos : 0 < (valuesC st.sol).count old := List.count_pos_iff.mpr holdval
    have hmemCold : memC st.counts old = true := (hinv.countsMem old).mpr hcntold_pos
    set sol' := insertC st.sol node newColor with hsol'
    have hcount' : ∀ c, (valuesC sol').count c + (if old = c then 1 else 0) =
        (valuesC st.sol).count c + (if newColor = c then 1 else 0) :=
      fun c => count_valuesC_insertC st.sol node old newColor c hlookNode
    set cnt_old := (lookupC st.counts old).getD 0 with hcnt
    set counts1 := insertC st.counts old (cnt_old - 1) with hc1
    have hc1_look_old : lookupC counts1 old = some (cnt_old - 1) := by
      rw [hc1]
      exact lookupC_insertC_self _ _ _
    have hc1_look_ne : ∀ c, c ≠ old → lookupC counts1 c = lookupC st.counts c := by
      intro c hc
      rw [hc1]
      exact lookupC_insertC_ne _ _ _ _ (fun he => hc he.symm)
    have hc1_nodup : (keysC counts1).Nodup := by
      rw [hc1]
      exact nodup_keysC_insertC _ _ _ hinv.countsNodup
    have hc1_len : counts1.length = st.counts.length := by
      rw [hc1]
      exact length_insertC_mem _ _ _ hmemCold
    set counts2 := if (lookupC counts1 old).getD 0 == 0 then eraseC counts1 old else counts1
      with hc2
    have hc2_look_ne : ∀ c, c ≠ old → lookupC counts2 c = lookupC st.counts c := by
      intro c hc
      rw [hc2]
      by_cases hcond : ((lookupC counts1 old).getD 0 == 0) = true
      · rw [if_pos hcond, lookupC_eraseC, if_neg hc]
        exact hc1_look_ne c hc
      · rw [if_neg hcond]
        exact hc1_look_ne c hc
    have hc2_nodup : (keysC counts2).Nodup := by
      rw [hc2]
      by_cases hcond : ((lookupC counts1 old).getD 0 == 0) = true
      · rw [if_pos hcond]
        exact nodup_keysC_eraseC _ _ hc1_nodup
      · rw [if_neg hcond]
        exact hc1_nodup
    have hc2_memC_ne : ∀ c, c ≠ old → memC counts2 c = memC st.counts c := by
      intro c hc
      unfold memC
      rw [hc2_look_ne c hc]
    set counts3 := insertC counts2 newColor ((lookupC counts2 newColor).getD 0 + 1) with hc3
    have hc3_look_new : lookupC counts3 newColor =
        some ((lookupC counts2 newColor).getD 0 + 1) := by
      rw [hc3]
      exact lookupC_insertC_self _ _ _
    have hc3_look_ne : ∀ c, c ≠ newColor → lookupC counts3 c = lookupC counts2 c := by
      intro c hc
      rw [hc3]
      exact lookupC_insertC_ne _ _ _ _ (fun he => hc he.symm)
    have hc2_new : (lookupC counts2 newColor).getD 0 = (valuesC st.sol).count newColor := by
      rw [hc2_look_ne newColor hnew_ne]
      exact hinv.countsVal newColor
    have hc2_memC_new : memC counts2 newColor = memC st.counts newColor :=
      hc2_memC_ne newColor hnew_ne
    have hcount'_new : (valuesC sol').count newColor = (valuesC st.sol).count newColor + 1 := by
      have := hcount' newColor
      rw [if_neg (fun he => hnew_ne he.symm), if_pos rfl] at this
      omega
    have hcount'_old : (valuesC sol').count old + 1 = (valuesC st.sol).count old := by
      have := hcount' old
      rw [if_pos rfl, if_neg hnew_ne] at this
      omega
    have hcount'_other : ∀ c, c ≠ old → c ≠ newColor →
        (valuesC sol').count c = (valuesC st.sol).count c := by
      intro c hc1x hc2x
      have := hcount' c
      rw [if_neg (fun he => hc1x he.symm), if_neg (fun he => hc2x he.symm)] at this
      omega
    have hconf2 : st.conflicts + sa_delta_conflicts g st.sol node old newColor =
        (conflict_count g sol' : Int) := by
      rw [hinv.conf]
      rw [conflict_count_insert g hwf hsym hnl st.sol node newColor hnodeK]
    have hdist2 : st.distinct + ((if cnt_old == 1 then (-1 : Int) else 0) +
        (if memC st.counts newColor then 0 else 1)) = (counts3.length : Int) := by
      rw [hinv.dist]
      have hc3len : counts3.length =
          (if memC counts2 newColor then counts2.length else counts2.length + 1) := by
        rw [hc3]
        by_cases hm : memC counts2 newColor = true
        · rw [if_pos hm]
          exact length_insertC_mem _ _ _ hm
        · rw [if_neg hm]
          exact length_insertC_not _ _ _ (Bool.not_eq_true _ ▸ hm)
      have hc2len : (if cnt_old == 1 then counts2.length + 1 else counts2.length) =
          st.counts.length := by
        rw [hc2, hc1_look_old]
        simp only [Option.getD_some]
        by_cases hc1eq : cnt_old = 1
        · rw [if_pos (beq_iff_eq.mpr hc1eq),
            if_pos (beq_iff_eq.mpr (show cnt_old - 1 = 0 by omega))]
          rw [length_eraseC_mem counts1 old hc1_nodup (hc1 ▸ memC_insertC_self _ _ _)]
          exact hc1_len
        · have hpos : 0 < cnt_old := by
            rw [hcntold]
            exact hcntold_pos
          rw [if_neg (fun hb => hc1eq (eq_of_beq hb)),
            if_neg (fun hb => hc1eq (by
              have := eq_of_beq hb
              omega))]
          rw [hc1_len]
      rw [hc3len, hc2_memC_new]
      by_cases hm : memC st.counts newColor = true
      · rw [if_pos hm] at *
        rw [if_pos hm]
        by_cases hc1eq : cnt_old = 1
        · rw [if_pos (beq_iff_eq.mpr hc1eq)] at hc2len ⊢
          push_cast
          omega
        · rw [if_neg (fun hb => hc1eq (eq_of_beq hb))] at hc2len ⊢
          push_cast
          omega
      · rw [if_neg hm] at *
        rw [if_neg hm]
        by_cases hc1eq : cnt_old = 1
        · rw [if_pos (beq_iff_eq.mpr hc1eq)] at hc2len ⊢
          push_cast
          omega
        · rw [if_neg (fun hb => hc1eq (eq_of_beq hb))] at hc2len ⊢
          push_cast
          omega
    refine ⟨?_, ?_, hconf2, ?_, ?_, ?_, hdist2, rfl, ?_, ?_⟩
    · intro w
      by_cases hw : node = w
      · rw [← hw]
        rw [show memC sol' node = true from memC_insertC_self _ _ _]
        exact ⟨fun _ => hnodeK, fun _ => rfl⟩
      · rw [show memC sol' w = memC st.sol w from memC_insertC_ne _ _ _ _ hw]
        exact hinv.solMem w
    · rw [show keysC sol' = keysC st.sol from keysC_insertC_mem _ _ _ hmemNode]
      exact hinv.solNodup
    · intro c
      by_cases hcn : c = newColor
      · rw [hcn]
        unfold lookupD at *
        rw [hc3_look_new]
        simp only [Option.getD_some]
        rw [hc2_new, hcount'_new]
      · rw [show lookupC counts3 c = lookupC counts2 c from hc3_look_ne c hcn]
        by_cases hco : c = old
        · rw [hco]
          rw [hc2]
          by_cases hcond : ((lookupC counts1 old).getD 0 == 0) = true
          · rw [if_pos hcond, lookupC_eraseC, if_pos rfl]
            simp only [Option.getD_none]
            rw [hc1_look_old] at hcond
            simp only [Option.getD_some] at hcond
            have h0 : cnt_old - 1 = 0 := eq_of_beq hcond
            omega
          · rw [if_neg hcond, hc1_look_old]
            simp only [Option.getD_some]
            rw [hc1_look_old] at hcond
            simp only [Option.getD_some] at hcond
            have h0 : cnt_old - 1 ≠ 0 := fun he => hcond (beq_iff_eq.mpr he)
            omega
        · rw [hc2_look_ne c hco]
          rw [hinv.countsVal c]
          exact (hcount'_other c hco hcn).symm
    · show ∀ c, memC counts3 c = true ↔ 0 < (valuesC sol').count c
      intro c
      by_cases hcn : c = newColor
      · rw [hcn]
        rw [show memC counts3 newColor = true from memC_insertC_self _ _ _]
        constructor
        · intro _
          rw [hcount'_new]
          omega
        · intro _
          rfl
      · rw [show memC counts3 c = memC counts2 c from by
          unfold memC
          rw [hc3_look_ne c hcn]]
        by_cases hco : c = old
        · rw [hco]
          rw [hc2]
          by_cases hcond : ((lookupC counts1 old).getD 0 == 0) = true
          · rw [if_pos hcond]
            rw [show memC (eraseC counts1 old) old = false from memC_eraseC_self _ _]
            rw [hc1_look_old] at hcond
            simp only [Option.getD_some] at hcond
            have h0 : cnt_old - 1 = 0 := eq_of_beq hcond
            constructor
            · intro hf
              cases hf
            · intro hpos
              exfalso
              omega
          · rw [if_neg hcond]
            rw [show memC counts1 old = true from memC_insertC_self _ _ _]
            rw [hc1_look_old] at hcond
            simp only [Option.getD_some] at hcond
            have h0 : cnt_old - 1 ≠ 0 := fun he => hcond (beq_iff_eq.mpr he)
            constructor
            · intro _
              omega
            · intro _
              rfl
        · rw [hc2_memC_ne c hco]
          rw [hinv.countsMem c]
          rw [hcount'_other c hco hcn]
    · rw [hc3]
      exact nodup_keysC_insertC _ _ _ hc2_nodup
    · by_cases hbc : (((g.length : Int) + 1) * (st.conflicts +
          sa_delta_conflicts g st.sol node old newColor) +
          (st.distinct + ((if cnt_old == 1 then (-1 : Int) else 0) +
            (if memC st.counts newColor then 0 else 1)) - 1)) < st.bestCost
      · rw [if_pos hbc, if_pos hbc]
        refine ⟨(counts3.length : Int), Int.natCast_nonneg _, ?_⟩
        rw [← hconf2, ← hdist2]
      · rw [if_neg hbc, if_neg hbc]
        exact hinv.bestCost
    · show (if (((g.length : Int) + 1) * (st.conflicts +
            sa_delta_conflicts g st.sol node old newColor) +
            (st.distinct + ((if cnt_old == 1 then (-1 : Int) else 0) +
              (if memC st.counts newColor then 0 else 1)) - 1)) < st.bestCost
          then (((g.length : Int) + 1) * (st.conflicts +
            sa_delta_conflicts g st.sol node old newColor) +
            (st.distinct + ((if cnt_old == 1 then (-1 : Int) else 0) +
              (if memC st.counts newColor then 0 else 1)) - 1))
          else st.bestCost) ≤
        (((g.length : Int) + 1) * (st.conflicts +
          sa_delta_conflicts g st.sol node old newColor) +
          (st.distinct + ((if cnt_old == 1 then (-1 : Int) else 0) +
            (if memC st.counts newColor then 0 else 1)) - 1))
      by_cases hbc : (((g.length : Int) + 1) * (st.conflicts +
          sa_delta_conflicts g st.sol node old newColor) +
          (st.distinct + ((if cnt_old == 1 then (-1 : Int) else 0) +
            (if memC st.counts newColor then 0 else 1)) - 1)) < st.bestCost
      · rw [if_pos hbc]
      · rw [if_neg hbc]
        exact Int.not_lt.mp hbc

theorem sa_fold_inv (g : Graph) (hwf : WF g) (hsym : Symm g) (hnl : NoSelfLoop g)
    (fixed : List Nat) :
    ∀ (moves : List SAMove) (st : SAState), SAInv g st →
      SAInv g (moves.foldl (fun st mv => sa_step g fixed st mv) st) := by
  intro moves
  induction moves with
  | nil =>
    intro st h
    exact h
  | cons mv ms ih =>
    intro st h
    simp only [List.foldl_cons]
    exact ih _ (sa_step_inv g hwf hsym hnl fixed st mv h)

theorem keysC_map_keys (f : Nat → Nat) (l : List Nat) :
    keysC (l.map (fun v => (v, f v))) = l := by
  induction l with
  | nil => rfl
  | cons a as ih =>
    simp only [keysC, List.map_cons]
    simp only [keysC] at ih
    rw [ih]

theorem dsaturLoop_keysC (g : Graph) :
    ∀ (fuel : Nat) (uncolored : List Nat) (ncu : List (Nat × List Nat)) (color : Coloring),
      (∀ w ∈ uncolored, memC color w = true) →
      keysC (dsaturLoop g fuel uncolored ncu color) = keysC color := by
  intro fuel
  induction fuel with
  | zero =>
    intro uncolored ncu color _
    rfl
  | succ fuel ih =>
    intro uncolored ncu color hmem
    cases hmax : listMaxBy (fun v => ((adjOf ncu v).length, degree g v)) uncolored with
    | none => simp only [dsaturLoop, hmax]
    | some current =>
      simp only [dsaturLoop, hmax]
      have hcur : current ∈ uncolored := listMaxBy_mem _ _ _ hmax
      have hm2 : ∀ w ∈ uncolored.erase current,
          memC (insertC color current (smallestMissing (adjOf ncu current))) w = true := by
        intro w hw
        have hwu : w ∈ uncolored := List.mem_of_mem_erase hw
        by_cases hcw : current = w
        · rw [← hcw]
          exact memC_insertC_self _ _ _
        · rw [memC_insertC_ne color current _ w hcw]
          exact hmem w hwu
      rw [ih _ _ _ hm2]
      exact keysC_insertC_mem color current _ (hmem current hcur)

theorem dsatur_coloring_keysC (g : Graph) (hloop : hasSelfLoopB g = false)
    (hg : g.isEmpty = false) (r : AlgResult) (h : dsatur_coloring g none = some r) :
    keysC r.coloring = keys g := by
  rw [dsatur_coloring_none_eq g hloop hg] at h
  cases h
  show keysC (dsaturLoop g (keys g).length (keys g) []
    ((keys g).map (fun v => (v, 0)))) = keys g
  rw [dsaturLoop_keysC g _ _ _ _ (fun w hw => by
    unfold memC
    rw [lookupC_map_keys (fun _ => 0) (keys g) w, if_pos hw]
    rfl)]
  exact keysC_map_keys (fun _ => 0) (keys g)

theorem sa_init_inv (g : Graph) (hwf : WF g) (hsym : Symm g)
    (hloop : hasSelfLoopB g = false) (hg : g.isEmpty = false)
    (st0 : SAState) (h : sa_init g = some st0) : SAInv g st0 := by
  unfold sa_init at h
  rw [Option.map_eq_some'] at h
  obtain ⟨dr, hdr, hst0⟩ := h
  have hkeys : keysC dr.coloring = keys g := dsatur_coloring_keysC g hloop hg dr hdr
  subst hst0
  obtain ⟨hbc1, hbc2, hbc3⟩ := buildCounts_inv (valuesC dr.coloring) [] []
    (fun c => rfl)
    (fun c => by simp [memC, lookupC])
    List.nodup_nil
  refine ⟨?_, ?_, rfl, ?_, ?_, hbc3, rfl, rfl, ?_, Int.le_refl _⟩
  · intro w
    constructor
    · intro hm
      rw [← hkeys]
      exact memC_mem_keys _ _ hm
    · intro hm
      apply mem_keysC_memC
      rw [hkeys]
      exact hm
  · rw [show keysC ((⟨dr.coloring, (conflict_count g dr.coloring : Int),
      buildCounts (valuesC dr.coloring), (((buildCounts (valuesC dr.coloring)).length : Nat) : Int),
      ((g.length : Int) + 1) * (conflict_count g dr.coloring : Int) +
        (((buildCounts (valuesC dr.coloring)).length : Int) - 1), dr.coloring,
      ((g.length : Int) + 1) * (conflict_count g dr.coloring : Int) +
        (((buildCounts (valuesC dr.coloring)).length : Int) - 1)⟩ : SAState).sol) = keys g
      from hkeys]
    exact hwf.1
  · intro c
    have := hbc1 c
    simpa using this
  · intro c
    have hb := hbc2 c
    rw [List.nil_append] at hb
    show memC (buildCounts (valuesC dr.coloring)) c = true ↔
      0 < (valuesC dr.coloring).count c
    rw [show memC (buildCounts (valuesC dr.coloring)) c =
      memC ((valuesC dr.coloring).foldl (fun cc color =>
        insertC cc color ((lookupC cc color).getD 0 + 1)) []) c from rfl, hb]
    exact (List.count_pos_iff).symm
  · exact ⟨((buildCounts (valuesC dr.coloring)).length : Int), Int.natCast_nonneg _, rfl⟩

theorem sa_counts_le (g : Graph) (hwf : WF g) (st : SAState) (hinv : SAInv g st) :
    st.counts.length ≤ g.length := by
  have hsub : ∀ x ∈ keysC st.counts, x ∈ valuesC st.sol := by
    intro x hx
    exact List.count_pos_iff.mp ((hinv.countsMem x).mp (mem_keysC_memC _ _ hx))
  have h1 : (keysC st.counts).length ≤ (valuesC st.sol).length :=
    List.Subperm.length_le (List.Nodup.subperm hinv.countsNodup hsub)
  have h2 : (valuesC st.sol).length = st.sol.length := List.length_map _ _
  have h3 : (keysC st.sol).length = (keys g).length :=
    ((List.perm_ext_iff_of_nodup hinv.solNodup hwf.1).mpr (fun a =>
      ⟨fun ha => (hinv.solMem a).mp (mem_keysC_memC _ _ ha),
       fun ha => memC_mem_keys _ _ ((hinv.solMem a).mpr ha)⟩)).length_eq
  have h4 := length_keysC st.counts
  have h5 := length_keysC st.sol
  have h6 : (keys g).length = g.length := List.length_map _ _
  omega

/-- If the SA run reaches a zero-conflict state after some prefix of the move
stream, the finally returned best coloring is proper. -/
theorem sa_best_proper_of_zero (g : Graph) (hwf : WF g) (hsym : Symm g)
    (hloop : hasSelfLoopB g = false) (hg : g.isEmpty = false)
    (st0 : SAState) (h0 : sa_init g = some st0) (moves1 moves2 : List SAMove)
    (hzero : conflict_count g ((moves1.foldl (fun st mv => sa_step g [] st mv) st0).sol) = 0) :
    ∃ r, simulated_annealing_coloring g (moves1 ++ moves2) = some r ∧
      ProperOn g r.coloring := by
  have hnl : NoSelfLoop g := (noSelfLoop_iff g).mpr hloop
  set stMid := moves1.foldl (fun st mv => sa_step g [] st mv) st0 with hmid
  have hinvMid : SAInv g stMid := sa_fold_inv g hwf hsym hnl [] moves1 st0
    (sa_init_inv g hwf hsym hloop hg st0 h0)
  have hcostMid : stMid.cost ≤ (g.length : Int) - 1 := by
    rw [hinvMid.cost, hinvMid.conf, hzero]
    have hle := sa_counts_le g hwf stMid hinvMid
    have hd := hinvMid.dist
    have hcast : ((0 : Nat) : Int) = 0 := rfl
    rw [hcast, Int.mul_zero, Int.zero_add]
    have : (stMid.counts.length : Int) ≤ (g.length : Int) := by exact_mod_cast hle
    omega
  set stF := (moves1 ++ moves2).foldl (fun st mv => sa_step g [] st mv) st0 with hF
  have hsplit : stF = moves2.foldl (fun st mv => sa_step g [] st mv) stMid := by
    rw [hF, hmid, List.foldl_append]
  have hbestF : stF.bestCost ≤ (g.length : Int) - 1 := by
    rw [hsplit]
    have hm := sa_fold_bestCost_le g [] moves2 stMid
    have := hinvMid.bestLe
    omega
  have hinvF : SAInv g stF := by
    rw [hsplit]
    exact sa_fold_inv g hwf hsym hnl [] moves2 stMid hinvMid
  obtain ⟨d, hd0, hdeq⟩ := hinvF.bestCost
  have hccF : conflict_count g stF.best = 0 := by
    by_contra hcc
    have h1 : 1 ≤ (conflict_count g stF.best : Int) := by
      have : 0 < conflict_count g stF.best := Nat.pos_of_ne_zero hcc
      exact_mod_cast this
    have hmul : ((g.length : Int) + 1) * 1 ≤
        ((g.length : Int) + 1) * (conflict_count g stF.best : Int) :=
      mul_le_mul_of_nonneg_left h1 (by
        have := Int.natCast_nonneg g.length
        omega)
    rw [mul_one] at hmul
    omega
  have hproper : ProperOn g stF.best := properOn_of_conflicts_zero g hwf hsym stF.best hccF
  have he : simulated_annealing_coloring g (moves1 ++ moves2) =
      some ⟨some (countDistinct (valuesC stF.best)), some (countDistinct (valuesC stF.best)),
        stF.best⟩ := by
    unfold simulated_annealing_coloring
    rw [hloop]
    simp only [Bool.false_eq_true, if_false, hg, h0, Option.map_some']
  exact ⟨_, he, hproper⟩

/-! ### Genetic algorithm (`genetic.py`)

Randomness is an explicit stream of naturals: `draw rs m` models one random
draw reduced mod `m` (index choices, `randint(1, q) = 1 + draw q`, and the
float-threshold coin flips `random.random() < rate` as a draw mod 2).
CPython set iteration (mutation candidate colors) is abstracted to
first-occurrence order via `dedupFirst`, as elsewhere in this development.
The heuristic seeding of the initial population is dead code in the source:
`greedy_coloring(graph, record_steps=False, initial_assignment=None)` passes
an unexpected keyword argument, raises `TypeError`, and the surrounding
`except Exception` leaves `heuristic_solution = None`, so the population is
filled entirely with random individuals. -/

def draw (rs : List Nat) (m : Nat) : Nat × List Nat :=
  match rs with
  | [] => (0, [])
  | x :: xs => (x % m, xs)

/-- GA-local `choose_q(graph) = max(len(neighbors) for ...) + 1`
(crashes on the empty graph: `max` of an empty sequence). -/
def ga_choose_q (g : Graph) : Option Nat :=
  (maxDegree g).map (· + 1)

/-- `cost(coloring) = (n+1)*compute_conflicts(coloring) + (distinct_colors(coloring) - 1)`;
`compute_conflicts` counts each conflicting edge once (`nbr > v`), exactly
`conflict_count`. -/
def gaCost (g : Graph) (c : Coloring) : Int :=
  ((g.length : Int) + 1) * (conflict_count g c : Int) +
    ((countDistinct (valuesC c) : Int) - 1)

/-- `compute_node_conflicts(node, coloring)`: neighbors whose `.get` color
equals `coloring[node]` (a missing neighbor compares as `None`, never equal
to an assigned color — modelled by comparing `lookupC` options). -/
def compute_node_conflicts (g : Graph) (node : Nat) (coloring : Coloring) : Nat :=
  ((adjOf g node).filter
    (fun nbr => lookupC coloring nbr == lookupC coloring node)).length

/-- `{node: random.randint(1, q) for node in graph}`. -/
def randIndividual (g : Graph) (qv : Nat) (rs : List Nat) : Coloring × List Nat :=
  g.foldl (fun (acc : Coloring × List Nat) p =>
    let d := draw acc.2 qv
    (insertC acc.1 p.fst (1 + d.1), d.2)) ([], rs)

/-- The random-fill loop `while len(population) < population_size` (each pass
appends one individual, so fuel `ps` suffices). -/
def gaFill (g : Graph) (qv ps : Nat) :
    Nat → List Coloring → List Nat → List Coloring × List Nat
  | 0, pop, rs => (pop, rs)
  | fuel + 1, pop, rs =>
    if pop.length < ps then
      let r := randIndividual g qv rs
      gaFill g qv ps fuel (pop ++ [r.1]) r.2
    else (pop, rs)

/-- First element of minimal cost (`max(selected, key=fitness)` with
`fitness = 1/(1+cost)` strictly decreasing in cost, first max kept). -/
def selectBestByCost (g : Graph) (l : List Coloring) : Coloring :=
  match l with
  | [] => []
  | x :: xs => xs.foldl (fun best ind => if gaCost g ind < gaCost g best then ind else best) x

/-- First element of maximal cost (`max(new_population, key=cost)`). -/
def selectWorstByCost (g : Graph) (l : List Coloring) : Option Coloring :=
  match l with
  | [] => none
  | x :: xs =>
    some (xs.foldl (fun worst ind => if gaCost g worst < gaCost g ind then ind else worst) x)

/-- `tournament_selection(pop, k=3)`: three random elements, best fitness.
`random.sample(pop, 3)` raises `ValueError` when the population has fewer
than 3 elements — modelled as `none`. -/
def tournament_selection (g : Graph) (pop : List Coloring) (rs : List Nat) :
    Option (Coloring × List Nat) :=
  if pop.length < 3 then none
  else
    let d1 := draw rs pop.length
    let d2 := draw d1.2 pop.length
    let d3 := draw d2.2 pop.length
    some (selectBestByCost g [pop.getD d1.1 [], pop.getD d2.1 [], pop.getD d3.1 []], d3.2)

/-- `local_conflicts(parent, node)` inside `informed_crossover`. -/
def local_conflicts_p (g : Graph) (parent : Coloring) (node : Nat) : Nat :=
  ((adjOf g node).filter (fun nbr => lookupD parent nbr == lookupD parent node)).length

/-- `informed_crossover(parent1, parent2)`: per graph node keep an agreed
color, otherwise the color from the parent with fewer local conflicts
(random choice on a tie). -/
def informed_crossover (g : Graph) (p1 p2 : Coloring) (rs : List Nat) :
    Coloring × List Nat :=
  g.foldl (fun (acc : Coloring × List Nat) entry =>
    let node := entry.fst
    if lookupD p1 node == lookupD p2 node then
      (insertC acc.1 node (lookupD p1 node), acc.2)
    else
      let lc1 := local_conflicts_p g p1 node
      let lc2 := local_conflicts_p g p2 node
      if lc1 < lc2 then (insertC acc.1 node (lookupD p1 node), acc.2)
      else if lc2 < lc1 then (insertC acc.1 node (lookupD p2 node), acc.2)
      else
        let d := draw acc.2 2
        (insertC acc.1 node (if d.1 == 0 then lookupD p1 node else lookupD p2 node), d.2))
    ([], rs)

/-- `crossover(parent1, parent2)`: with probability `1 - crossover_rate`
return the parents unchanged, else two informed crossovers. -/
def crossover (g : Graph) (p1 p2 : Coloring) (rs : List Nat) :
    Coloring × Coloring × List Nat :=
  let d := draw rs 2
  if d.1 == 1 then (p1, p2, d.2)
  else
    let r1 := informed_crossover g p1 p2 d.2
    let r2 := informed_crossover g p2 p1 r1.2
    (r1.1, r2.1, r2.2)

/-- One node of `mutate`: if the node is in conflict, with probability
`mutation_rate` scan the candidate colors (neighbor colors, the current
color, one random color) and keep the strictly best local improvement. -/
def mutate_node (g : Graph) (qv : Nat) (ind : Coloring) (node : Nat) (rs : List Nat) :
    Coloring × List Nat :=
  if (adjOf g node).any (fun nbr => lookupC ind nbr == lookupC ind node) then
    let coin := draw rs 2
    if coin.1 == 0 then
      let currentColor := lookupD ind node
      let currentLocal := compute_node_conflicts g node ind
      let dc := draw coin.2 qv
      let candidates := dedupFirst
        ((adjOf g node).map (fun nbr => lookupD ind nbr) ++ [currentColor, 1 + dc.1])
      let r := candidates.foldl (fun (acc : Nat × Nat) color =>
          if color == currentColor then acc
          else
            let newLocal := compute_node_conflicts g node (insertC ind node color)
            if newLocal < acc.2 then (color, newLocal) else acc)
        (currentColor, currentLocal)
      (insertC ind node r.1, dc.2)
    else (ind, coin.2)
  else (ind, rs)

/-- `mutate(individual)`: sweep `list(individual.keys())`. -/
def mutate (g : Graph) (qv : Nat) (ind : Coloring) (rs : List Nat) :
    Coloring × List Nat :=
  (keysC ind).foldl (fun (acc : Coloring × List Nat) node =>
    mutate_node g qv acc.1 node acc.2) (ind, rs)

/-- One node of a `local_search` pass: try every color `1..q`, keep the
strictly best local improvement, report whether anything improved. -/
def ls_node (g : Graph) (qv : Nat) (ind : Coloring) (node : Nat) : Coloring × Bool :=
  let currentColor := lookupD ind node
  let currentLocal := compute_node_conflicts g node ind
  let r := (List.range' 1 qv).foldl (fun (acc : Nat × Nat × Bool) color =>
      if color == currentColor then acc
      else
        let newLocal := compute_node_conflicts g node (insertC ind node color)
        if newLocal < acc.2.1 then (color, newLocal, true) else acc)
    (currentColor, currentLocal, false)
  (insertC ind node r.1, r.2.2)

/-- One full pass of `local_search` over the keys of the individual. -/
def ls_pass (g : Graph) (qv : Nat) (ind : Coloring) : Coloring × Bool :=
  (keysC ind).foldl (fun (acc : Coloring × Bool) node =>
    let r := ls_node g qv acc.1 node
    (r.1, acc.2 || r.2)) (ind, false)

/-- `local_search(individual, max_iter=5)` hill climbing:
repeat passes while improved, at most `max_iter` times. -/
def local_search (g : Graph) (qv : Nat) : Nat → Coloring → Coloring
  | 0, ind => ind
  | fuel + 1, ind =>
    let r := ls_pass g qv ind
    if r.2 then local_search g qv fuel r.1 else r.1

/-- The offspring loop `while len(new_population) < population_size`
(each pass appends one or two children, so fuel `ps` suffices); `none`
propagates the `tournament_selection` `ValueError` on populations with
fewer than 3 individuals. -/
def gaOffspring (g : Graph) (qv ps : Nat) (pop : List Coloring) :
    Nat → List Coloring → List Nat → Option (List Coloring × List Nat)
  | 0, newPop, rs => some (newPop, rs)
  | fuel + 1, newPop, rs =>
    if newPop.length < ps then
      match tournament_selection g pop rs with
      | none => none
      | some t1 =>
        match tournament_selection g pop t1.2 with
        | none => none
        | some t2 =>
          let cx := crossover g t1.1 t2.1 t2.2
          let m1 := mutate g qv cx.1 cx.2.2
          let m2 := mutate g qv cx.2.1 m1.2
          let l1 := local_search g qv 5 m1.1
          let l2 := local_search g qv 5 m2.1
          let newPop1 := newPop ++ [l1]
          let newPop2 := if newPop1.length < ps then newPop1 ++ [l2] else newPop1
          gaOffspring g qv ps pop fuel newPop2 m2.2
    else some (newPop, rs)

/-- One evaluation update: `if cost(ind) < best_cost_val: update`
(the initial best cost is `math.inf`, so a `none` best always updates). -/
def gaEvalStep (g : Graph) (best : Option (Coloring × Int)) (ind : Coloring) :
    Option (Coloring × Int) :=
  match best with
  | none => some (ind, gaCost g ind)
  | some b => if gaCost g ind < b.2 then some (ind, gaCost g ind) else some b

/-- The per-generation evaluation loop `for ind in population`. -/
def gaEvaluate (g : Graph) (pop : List Coloring) (best : Option (Coloring × Int)) :
    Option (Coloring × Int) :=
  pop.foldl (gaEvalStep g) best

/-- One generation of the GA main loop: evaluate the population (updating
the tracked best), build the offspring population, and apply elitism
(replace the first `==`-equal copy of the worst offspring by the elite when
strictly cheaper). `none` models the crashes `None.copy()` (no best yet),
the `random.sample` `ValueError` (population smaller than 3), and `max([])`
(empty offspring population, `population_size = 0`). -/
def gaGen (g : Graph) (qv ps : Nat) (pop : List Coloring)
    (best : Option (Coloring × Int)) (rs : List Nat) :
    Option (List Coloring × Option (Coloring × Int) × List Nat) :=
  match gaEvaluate g pop best with
  | none => none
  | some b1 =>
    let elite := b1.1
    match gaOffspring g qv ps pop ps [] rs with
    | none => none
    | some off =>
      match selectWorstByCost g off.1 with
      | none => none
      | some worst =>
        let newPop :=
          if gaCost g elite < gaCost g worst then
            off.1.set (off.1.findIdx (fun i => i == worst)) elite
          else off.1
        some (newPop, some b1, off.2)

/-- `for generation in range(max_generations)`. -/
def gaGenLoop (g : Graph) (qv ps : Nat) :
    Nat → List Coloring → Option (Coloring × Int) → List Nat →
    Option (List Coloring × Option (Coloring × Int) × List Nat)
  | 0, pop, best, rs => some (pop, best, rs)
  | gens + 1, pop, best, rs =>
    match gaGen g qv ps pop best rs with
    | none => none
    | some st => gaGenLoop g qv ps gens st.1 st.2.1 st.2.2

/-- `genetic_coloring(graph, q=None, population_size, max_generations)`:
`if not q` (None or 0) resolves `q = choose_q(graph)` before anything else
(so the empty graph with unset `q` crashes there); the empty graph with a
set `q` returns `k = 0`; otherwise random population, main loop, and the
final `k = len(set(best_individual.values()))` (`none` when
`best_individual` is still `None` — `None.values()` crashes). -/
def genetic_coloring (g : Graph) (q : Option Nat) (ps gens : Nat) (rs : List Nat) :
    Option AlgResult :=
  match (match q with
         | none => ga_choose_q g
         | some 0 => ga_choose_q g
         | some qq => some qq) with
  | none => none
  | some qv =>
    if g.isEmpty then some ⟨none, some 0, []⟩
    else
      let fill := gaFill g qv ps ps [] rs
      match gaGenLoop g qv ps gens fill.1 none fill.2 with
      | none => none
      | some (_, none, _) => none
      | some (_, some b, _) => some ⟨none, some (countDistinct (valuesC b.1)), b.1⟩

theorem gaEvalStep_facts (g : Graph) (ind : Coloring) :
    ∀ best, ∃ p, gaEvalStep g best ind = some p ∧
      p.2 ≤ gaCost g ind ∧
      (∀ p0, best = some p0 → p.2 ≤ p0.2) ∧
      ((∀ p0, best = some p0 → p0.2 = gaCost g p0.1) → p.2 = gaCost g p.1) := by
  intro best
  match best with
  | none =>
    refine ⟨(ind, gaCost g ind), rfl, le_refl _, ?_, fun _ => rfl⟩
    intro p0 h
    exact Option.noConfusion h
  | some pcur =>
    by_cases h : gaCost g ind < pcur.2
    · refine ⟨(ind, gaCost g ind), ?_, le_refl _, ?_, fun _ => rfl⟩
      · show (if gaCost g ind < pcur.2 then some (ind, gaCost g ind) else some pcur) =
          some (ind, gaCost g ind)
        rw [if_pos h]
      · intro p0 hsome
        have hp := Option.some.inj hsome
        exact le_of_lt (hp ▸ h)
    · refine ⟨pcur, ?_, Int.not_lt.mp h, ?_, ?_⟩
      · show (if gaCost g ind < pcur.2 then some (ind, gaCost g ind) else some pcur) =
          some pcur
        rw [if_neg h]
      · intro p0 hsome
        exact le_of_eq (congrArg Prod.snd (Option.some.inj hsome))
      · intro hex
        exact hex pcur rfl

theorem gaEvaluate_some_of_some (g : Graph) :
    ∀ (pop : List Coloring) (best : Option (Coloring × Int)) (p0 : Coloring × Int),
      best = some p0 →
      ∃ p, gaEvaluate g pop best = some p ∧ p.2 ≤ p0.2 := by
  intro pop
  induction pop with
  | nil =>
    intro best p0 h
    exact ⟨p0, h, le_refl _⟩
  | cons a pop ih =>
    intro best p0 h
    obtain ⟨p1, hp1, _, hmono, _⟩ := gaEvalStep_facts g a best
    obtain ⟨p, hp, hle⟩ := ih (gaEvalStep g best a) p1 hp1
    exact ⟨p, hp, le_trans hle (hmono p0 h)⟩

theorem gaEvaluate_exact (g : Graph) :
    ∀ (pop : List Coloring) (best : Option (Coloring × Int)),
      (∀ p0, best = some p0 → p0.2 = gaCost g p0.1) →
      ∀ p, gaEvaluate g pop best = some p → p.2 = gaCost g p.1 := by
  intro pop
  induction pop with
  | nil =>
    intro best hex p h
    exact hex p h
  | cons a pop ih =>
    intro best hex p h
    obtain ⟨p1, hp1, _, _, hex1⟩ := gaEvalStep_facts g a best
    refine ih (gaEvalStep g best a) (fun p0 h0 => ?_) p h
    rw [hp1] at h0
    rw [← Option.some.inj h0]
    exact hex1 hex

theorem gaEvaluate_le_mem (g : Graph) :
    ∀ (pop : List Coloring) (best : Option (Coloring × Int)) (ind : Coloring),
      ind ∈ pop →
      ∃ p, gaEvaluate g pop best = some p ∧ p.2 ≤ gaCost g ind := by
  intro pop
  induction pop with
  | nil =>
    intro best ind h
    cases h
  | cons a pop ih =>
    intro best ind h
    obtain ⟨p1, hp1, hlea, _, _⟩ := gaEvalStep_facts g a best
    cases List.mem_cons.mp h with
    | inl heq =>
      obtain ⟨p, hp, hle⟩ := gaEvaluate_some_of_some g pop (gaEvalStep g best a) p1 hp1
      exact ⟨p, hp, le_trans hle (heq ▸ hlea)⟩
    | inr hmem =>
      exact ih (gaEvalStep g best a) ind hmem

theorem gaGen_best (g : Graph) (qv ps : Nat) (pop : List Coloring)
    (best : Option (Coloring × Int)) (rs : List Nat)
    (st : List Coloring × Option (Coloring × Int) × List Nat)
    (h : gaGen g qv ps pop best rs = some st) :
    st.2.1 = gaEvaluate g pop best := by
  unfold gaGen at h
  cases heval : gaEvaluate g pop best with
  | none =>
    rw [heval] at h
    cases h
  | some b1 =>
    rw [heval] at h
    cases hoff : gaOffspring g qv ps pop ps [] rs with
    | none =>
      simp only [hoff] at h
      exact Option.noConfusion h
    | some off =>
      simp only [hoff] at h
      cases hw : selectWorstByCost g off.1 with
      | none =>
        simp only [hw] at h
        exact Option.noConfusion h
      | some worst =>
        simp only [hw] at h
        have hst := Option.some.inj h
        rw [← hst]

theorem gaGenLoop_add (g : Graph) (qv ps : Nat) (a b : Nat) :
    ∀ (pop : List Coloring) (best : Option (Coloring × Int)) (rs : List Nat),
      gaGenLoop g qv ps (a + b) pop best rs =
        match gaGenLoop g qv ps a pop best rs with
        | none => none
        | some st => gaGenLoop g qv ps b st.1 st.2.1 st.2.2 := by
  induction a with
  | zero =>
    intro pop best rs
    rw [Nat.zero_add]
    rfl
  | succ a ih =>
    intro pop best rs
    rw [Nat.succ_add]
    show (match gaGen g qv ps pop best rs with
      | none => none
      | some st => gaGenLoop g qv ps (a + b) st.1 st.2.1 st.2.2) = _
    cases hgen : gaGen g qv ps pop best rs with
    | none => simp only [gaGenLoop, hgen]
    | some st1 =>
      simp only [gaGenLoop, hgen]
      exact ih st1.1 st1.2.1 st1.2.2

theorem gaGenLoop_facts (g : Graph) (qv ps : Nat) :
    ∀ (gens : Nat) (pop : List Coloring) (best : Option (Coloring × Int)) (rs : List Nat)
      (st : List Coloring × Option (Coloring × Int) × List Nat),
      gaGenLoop g qv ps gens pop best rs = some st →
      (∀ p0, best = some p0 → p0.2 = gaCost g p0.1) →
      (∀ p, st.2.1 = some p → p.2 = gaCost g p.1) ∧
      (∀ p0, best = some p0 → ∃ p, st.2.1 = some p ∧ p.2 ≤ p0.2) := by
  intro gens
  induction gens with
  | zero =>
    intro pop best rs st h hex
    cases h
    exact ⟨hex, fun p0 h0 => ⟨p0, h0, le_refl _⟩⟩
  | succ gens ih =>
    intro pop best rs st h hex
    cases hgen : gaGen g qv ps pop best rs with
    | none =>
      simp only [gaGenLoop, hgen] at h
      exact Option.noConfusion h
    | some st1 =>
      simp only [gaGenLoop, hgen] at h
      have hb1 : st1.2.1 = gaEvaluate g pop best := gaGen_best g qv ps pop best rs st1 hgen
      have hex1 : ∀ p0, st1.2.1 = some p0 → p0.2 = gaCost g p0.1 := by
        intro p0 h0
        rw [hb1] at h0
        exact gaEvaluate_exact g pop best hex p0 h0
      obtain ⟨hexF, hmonoF⟩ := ih st1.1 st1.2.1 st1.2.2 st h hex1
      refine ⟨hexF, ?_⟩
      intro p0 h0
      obtain ⟨p1, hp1, hle1⟩ := gaEvaluate_some_of_some g pop best p0 h0
      obtain ⟨p, hp, hle⟩ := hmonoF p1 (by rw [hb1]; exact hp1)
      exact ⟨p, hp, le_trans hle hle1⟩

theorem ga_loop_proper_of_zero (g : Graph) (hwf : WF g) (hsym : Symm g)
    (qv ps gens1 gens2 : Nat) (pop0 : List Coloring) (rs0 : List Nat)
    (popMid : List Coloring) (bestMid : Option (Coloring × Int)) (rsMid : List Nat)
    (h1 : gaGenLoop g qv ps gens1 pop0 none rs0 = some (popMid, bestMid, rsMid))
    (ind : Coloring) (hind : ind ∈ popMid) (hzero : conflict_count g ind = 0)
    (hd : countDistinct (valuesC ind) ≤ g.length)
    (stF : List Coloring × Option (Coloring × Int) × List Nat)
    (h2 : gaGenLoop g qv ps (gens1 + (1 + gens2)) pop0 none rs0 = some stF) :
    ∃ p, stF.2.1 = some p ∧ conflict_count g p.1 = 0 ∧ ProperOn g p.1 := by
  rw [gaGenLoop_add g qv ps gens1 (1 + gens2) pop0 none rs0, h1] at h2
  have h2' : gaGenLoop g qv ps (gens2 + 1) popMid bestMid rsMid = some stF := by
    rw [Nat.add_comm gens2 1]
    exact h2
  cases hgen : gaGen g qv ps popMid bestMid rsMid with
  | none =>
    simp only [gaGenLoop, hgen] at h2'
    exact Option.noConfusion h2'
  | some st1 =>
    simp only [gaGenLoop, hgen] at h2'
    have hb1 : st1.2.1 = gaEvaluate g popMid bestMid :=
      gaGen_best g qv ps popMid bestMid rsMid st1 hgen
    obtain ⟨hexMid, _⟩ := gaGenLoop_facts g qv ps gens1 pop0 none rs0 _ h1
      (fun p0 h0 => nomatch h0)
    obtain ⟨p1, hp1, hle1⟩ := gaEvaluate_le_mem g popMid bestMid ind hind
    have hex1 : ∀ p0, st1.2.1 = some p0 → p0.2 = gaCost g p0.1 := by
      intro p0 h0
      rw [hb1] at h0
      exact gaEvaluate_exact g popMid bestMid hexMid p0 h0
    obtain ⟨hexF, hmonoF⟩ := gaGenLoop_facts g qv ps gens2 st1.1 st1.2.1 st1.2.2 stF h2' hex1
    obtain ⟨pF, hpF, hleF⟩ := hmonoF p1 (by rw [hb1]; exact hp1)
    have hcostF : pF.2 = gaCost g pF.1 := hexF pF hpF
    have hci : gaCost g ind ≤ (g.length : Int) - 1 := by
      unfold gaCost
      rw [hzero]
      simp only [Nat.cast_zero, mul_zero, zero_add]
      have hdc : ((countDistinct (valuesC ind) : Nat) : Int) ≤ (g.length : Int) := by
        exact_mod_cast hd
      omega
    have hpFle : pF.2 ≤ (g.length : Int) - 1 := le_trans hleF (le_trans hle1 hci)
    have hcc : conflict_count g pF.1 = 0 := by
      by_contra hcc
      have hone : 1 ≤ (conflict_count g pF.1 : Int) := by
        exact_mod_cast Nat.pos_of_ne_zero hcc
      have hmul : ((g.length : Int) + 1) * 1 ≤
          ((g.length : Int) + 1) * (conflict_count g pF.1 : Int) :=
        mul_le_mul_of_nonneg_left hone (by
          have := Int.natCast_nonneg g.length
          omega)
      rw [mul_one] at hmul
      have hd0 : (0 : Int) ≤ (countDistinct (valuesC pF.1) : Int) := Int.natCast_nonneg _
      rw [hcostF] at hpFle
      unfold gaCost at hpFle
      omega
    exact ⟨pF, hpF, hcc, properOn_of_conflicts_zero g hwf hsym pF.1 hcc⟩

theorem genetic_coloring_run (g : Graph) (n ps gens : Nat)
    (rs : List Nat) (hg : g.isEmpty = false) (r : AlgResult)
    (h : genetic_coloring g (some (n + 1)) ps gens rs = some r) :
    ∃ stF p, gaGenLoop g (n + 1) ps gens (gaFill g (n + 1) ps ps [] rs).1 none
        (gaFill g (n + 1) ps ps [] rs).2 = some stF ∧
      stF.2.1 = some p ∧ r.coloring = p.1 := by
  unfold genetic_coloring at h
  simp only [hg, Bool.false_eq_true, if_false] at h
  cases hloop : gaGenLoop g (n + 1) ps gens (gaFill g (n + 1) ps ps [] rs).1 none
      (gaFill g (n + 1) ps ps [] rs).2 with
  | none =>
    simp only [hloop] at h
    exact Option.noConfusion h
  | some st =>
    obtain ⟨pop1, bo, rs1⟩ := st
    cases bo with
    | none =>
      simp only [hloop] at h
      exact Option.noConfusion h
    | some b =>
      simp only [hloop] at h
      cases h
      exact ⟨(pop1, some b, rs1), b, rfl, rfl, rfl⟩

/-- C8: In simulated annealing and the genetic algorithm, the tracked
best-cost value (under cost = (|V|+1)·conflicts + (distinctColors − 1)) is
monotonically non-increasing across iterations/generations: any further SA
iterations never increase `bestCost`, and the tracked best of each GA generation
cost never exceeds the previous one. Whenever a zero-conflict state is
reached at least once during the run — an SA prefix whose current solution
has zero conflicts, or a GA population containing a zero-conflict individual
at evaluation time — the coloring returned (the best observed) is proper.
Proved over every explicit random stream, hence every iteration count. -/
theorem C8_best_cost_monotone_and_zero_conflict_proper :
    (∀ (g : Graph) (fixed : List Nat) (moves : List SAMove) (st : SAState),
      (moves.foldl (fun st mv => sa_step g fixed st mv) st).bestCost ≤ st.bestCost) ∧
    (∀ (g : Graph), WF g → Symm g → hasSelfLoopB g = false → g.isEmpty = false →
      ∀ (st0 : SAState), sa_init g = some st0 → ∀ (moves1 moves2 : List SAMove),
        conflict_count g ((moves1.foldl (fun st mv => sa_step g [] st mv) st0).sol) = 0 →
        ∃ r, simulated_annealing_coloring g (moves1 ++ moves2) = some r ∧
          ProperOn g r.coloring) ∧
    (∀ (g : Graph) (qv ps : Nat) (pop : List Coloring) (best : Option (Coloring × Int))
      (rs : List Nat) (st : List Coloring × Option (Coloring × Int) × List Nat)
      (p0 p1 : Coloring × Int),
      gaGen g qv ps pop best rs = some st → best = some p0 → st.2.1 = some p1 →
        p1.2 ≤ p0.2) ∧
    (∀ (g : Graph), WF g → Symm g → g.isEmpty = false →
      ∀ (n ps gens1 gens2 : Nat) (rs : List Nat) (popMid : List Coloring)
        (bestMid : Option (Coloring × Int)) (rsMid : List Nat),
        gaGenLoop g (n + 1) ps gens1 (gaFill g (n + 1) ps ps [] rs).1 none
            (gaFill g (n + 1) ps ps [] rs).2 = some (popMid, bestMid, rsMid) →
        ∀ ind ∈ popMid, conflict_count g ind = 0 →
          countDistinct (valuesC ind) ≤ g.length →
          ∀ r, genetic_coloring g (some (n + 1)) ps (gens1 + (1 + gens2)) rs = some r →
            ProperOn g r.coloring) := by
  refine ⟨?_, ?_, ?_, ?_⟩
  · intro g fixed moves st
    exact sa_fold_bestCost_le g fixed moves st
  · intro g hwf hsym hloop hg st0 h0 moves1 moves2 hzero
    exact sa_best_proper_of_zero g hwf hsym hloop hg st0 h0 moves1 moves2 hzero
  · intro g qv ps pop best rs st p0 p1 hgen hb hp1
    have hb1 : st.2.1 = gaEvaluate g pop best := gaGen_best g qv ps pop best rs st hgen
    obtain ⟨p, hp, hle⟩ := gaEvaluate_some_of_some g pop best p0 hb
    rw [hb1, hp] at hp1
    rw [← Option.some.inj hp1]
    exact hle
  · intro g hwf hsym hg n ps gens1 gens2 rs popMid bestMid rsMid h1 ind hind hzero hd r hres
    obtain ⟨stF, p, hloopF, hpF, hcol⟩ :=
      genetic_coloring_run g n ps (gens1 + (1 + gens2)) rs hg r hres
    obtain ⟨p2, hp2, hcc, hproper⟩ := ga_loop_proper_of_zero g hwf hsym (n + 1) ps gens1 gens2
      (gaFill g (n + 1) ps ps [] rs).1 (gaFill g (n + 1) ps ps [] rs).2
      popMid bestMid rsMid h1 ind hind hzero hd stF hloopF
    rw [hpF] at hp2
    rw [hcol, Option.some.inj hp2]
    exact hproper

theorem C8_best_cost_monotone_and_zero_conflict_proper_witness :
    (∃ r, simulated_annealing_coloring Gedge ([] ++ []) = some r ∧
      ProperOn Gedge r.coloring) ∧
    ProperOn Gedge (AlgResult.mk none (some 2) [(0, 1), (1, 2)]).coloring := by
  constructor
  · exact C8_best_cost_monotone_and_zero_conflict_proper.2.1 Gedge (by decide) (by decide)
      (by decide) (by decide)
      ⟨[(0, 1), (1, 2)], 0, [(1, 1), (2, 1)], 2, 1, [(0, 1), (1, 2)], 1⟩ (by rfl)
      [] [] (by decide)
  · exact C8_best_cost_monotone_and_zero_conflict_proper.2.2.2 Gedge (by decide) (by decide)
      (by decide) 1 3 0 0 [0, 1]
      [[(0, 1), (1, 2)], [(0, 1), (1, 1)], [(0, 1), (1, 1)]] none [] (by rfl)
      [(0, 1), (1, 2)] (by decide) (by decide) (by decide)
      (AlgResult.mk none (some 2) [(0, 1), (1, 2)]) (by rfl)

/-! ### Self-loop handling (claim C2) -/

/-- The one-vertex graph with a self-loop, `{0: [0]}`. -/
def Gloop : Graph := [(0, [0])]

theorem choose_q_cons (p : Nat × List Nat) (gs : Graph) :
    ∃ q, choose_q (p :: gs) = some q := by
  unfold choose_q maxDegree
  simp only [List.map_cons]
  exact ⟨_, rfl⟩

/-- C2 counterexample: on the self-loop graph `{0: [0]}`, backtracking,
DSATUR-guided backtracking, branch-and-bound and the genetic algorithm return
ordinary results with the (improper) coloring `{0: 1}`, and the chromatic
polynomial returns the zero polynomial — none of them rejects with
`InvalidGraph`. -/
theorem C2_counterexample :
    hasSelfLoopB Gloop = true ∧
    find_min_k_backtracking Gloop = some ⟨some 1, some 1, [(0, 1)]⟩ ∧
    find_min_k_backtracking_dsatur Gloop = some ⟨some 1, some 1, [(0, 1)]⟩ ∧
    find_min_k_branch_and_bound Gloop 50 = some (some ⟨some 1, some 1, [(0, 1)]⟩) ∧
    genetic_coloring Gloop (some 1) 3 1 [] = some ⟨none, some 1, [(0, 1)]⟩ ∧
    compute_chromatic_polynomial 10 Gloop = some [0] := by
  decide

/-- C2: On a graph with a self-loop, the greedy family, DSATUR, RLF and
simulated annealing reject (return `None`) and Metropolis raises the
self-loop `ValueError`; but the backtracking family, branch-and-bound, the
genetic algorithm and the chromatic polynomial do not reject, as witnessed
on `{0: [0]}`. -/
theorem C2_amended :
    (∀ (g : Graph) (order : List Nat), hasSelfLoopB g = true →
      greedy_coloring g order = none) ∧
    (∀ (g : Graph), hasSelfLoopB g = true → welsh_powell_coloring g = none) ∧
    (∀ (g : Graph) (start : Nat), hasSelfLoopB g = true →
      greedy_bfs_coloring g start = none) ∧
    (∀ (g : Graph) (ia : Option Coloring), hasSelfLoopB g = true →
      dsatur_coloring g ia = none) ∧
    (∀ (g : Graph), hasSelfLoopB g = true → rlf_coloring g = none) ∧
    (∀ (g : Graph) (moves : List SAMove), hasSelfLoopB g = true →
      simulated_annealing_coloring g moves = none) ∧
    (∀ (g : Graph) (picks : List (Nat × Nat)), hasSelfLoopB g = true →
      metropolis_coloring g picks = Except.error MetroErr.selfLoop) ∧
    (find_min_k_backtracking Gloop = some ⟨some 1, some 1, [(0, 1)]⟩ ∧
     find_min_k_backtracking_dsatur Gloop = some ⟨some 1, some 1, [(0, 1)]⟩ ∧
     find_min_k_branch_and_bound Gloop 50 = some (some ⟨some 1, some 1, [(0, 1)]⟩) ∧
     genetic_coloring Gloop (some 1) 3 1 [] = some ⟨none, some 1, [(0, 1)]⟩ ∧
     compute_chromatic_polynomial 10 Gloop = some [0]) := by
  refine ⟨?_, ?_, ?_, ?_, ?_, ?_, ?_, by decide⟩
  · intro g order hg
    unfold greedy_coloring
    rw [hg, if_pos rfl]
  · intro g hg
    unfold welsh_powell_coloring
    rw [hg, if_pos rfl]
  · intro g start hg
    unfold greedy_bfs_coloring
    rw [hg, if_pos rfl]
  · intro g ia hg
    unfold dsatur_coloring
    rw [hg, if_pos rfl]
  · intro g hg
    unfold rlf_coloring
    rw [hg, if_pos rfl]
  · intro g moves hg
    unfold simulated_annealing_coloring
    rw [hg, if_pos rfl]
  · intro g picks hg
    cases g with
    | nil => exact Bool.noConfusion hg
    | cons p gs =>
      obtain ⟨q, hq⟩ := choose_q_cons p gs
      unfold metropolis_coloring
      simp only [hq, hg, if_true]

theorem C2_amended_witness :
    greedy_coloring Gloop [] = none ∧
    metropolis_coloring Gloop [] = Except.error MetroErr.selfLoop :=
  ⟨C2_amended.1 Gloop [] (by decide),
   C2_amended.2.2.2.2.2.2.1 Gloop [] (by decide)⟩

/-! ### Empty-graph behavior (claim C9) -/

/-- C9 counterexample: on the empty graph, backtracking and DSATUR-guided
backtracking report `k = 1` (their driver starts at `k = 1`), BFS-greedy
returns the raw template with `k` unset, Metropolis raises (max of an empty
sequence in `choose_q`), the genetic algorithm with unset `q` crashes the
same way, and the chromatic-polynomial pipeline computes the polynomial `1`
whose scan reports chromatic number 1 — none of these yields `k = 0`. -/
theorem C9_counterexample :
    find_min_k_backtracking [] = some ⟨some 1, some 1, []⟩ ∧
    find_min_k_backtracking_dsatur [] = some ⟨some 1, some 1, []⟩ ∧
    greedy_bfs_coloring [] 0 = some ⟨none, none, []⟩ ∧
    metropolis_coloring [] [] = Except.error MetroErr.emptyMax ∧
    genetic_coloring [] none 1 1 [] = none ∧
    compute_chromatic_polynomial 10 [] = some [1] ∧
    compute_chromatic_number [1] none = some (1, [1]) := by
  exact ⟨by decide, by decide, by decide, rfl, by decide, by decide, by decide⟩

/-- C9: On the empty graph, random-order greedy, Welsh-Powell, DSATUR, RLF,
simulated annealing, branch-and-bound, and the genetic algorithm with a set
palette all return `k = 0` with the empty coloring; but backtracking and
DSATUR-guided backtracking return `k = 1`, BFS-greedy leaves `k` unset,
Metropolis and the genetic algorithm with unset `q` fail on `max` of an
empty sequence, and the chromatic-polynomial scan reports 1. -/
theorem C9_amended :
    greedy_coloring [] [] = some ⟨none, some 0, []⟩ ∧
    welsh_powell_coloring [] = some ⟨none, some 0, []⟩ ∧
    (∀ (start : Nat), greedy_bfs_coloring [] start = some ⟨none, none, []⟩) ∧
    (∀ (ia : Option Coloring), dsatur_coloring [] ia = some ⟨some 0, some 0, []⟩) ∧
    rlf_coloring [] = some ⟨some 0, some 0, []⟩ ∧
    (∀ (moves : List SAMove), simulated_annealing_coloring [] moves =
      some ⟨some 0, some 0, []⟩) ∧
    find_min_k_branch_and_bound [] 50 = some (some ⟨some 0, some 0, []⟩) ∧
    (∀ (ps gens : Nat) (rs : List Nat) (q : Nat), q ≠ 0 →
      genetic_coloring [] (some q) ps gens rs = some ⟨none, some 0, []⟩) ∧
    find_min_k_backtracking [] = some ⟨some 1, some 1, []⟩ ∧
    find_min_k_backtracking_dsatur [] = some ⟨some 1, some 1, []⟩ ∧
    (∀ (picks : List (Nat × Nat)), metropolis_coloring [] picks =
      Except.error MetroErr.emptyMax) ∧
    genetic_coloring [] none 1 1 [] = none ∧
    compute_chromatic_polynomial 10 [] = some [1] := by
  refine ⟨by decide, by decide, fun start => rfl, fun ia => rfl, by decide,
    fun moves => rfl, by decide, ?_, by decide, by decide, fun picks => rfl,
    by decide, by decide⟩
  intro ps gens rs q hq
  cases q with
  | zero => exact absurd rfl hq
  | succ n => rfl

theorem C9_amended_witness :
    genetic_coloring [] (some 3) 1 1 [] = some ⟨none, some 0, []⟩ :=
  C9_amended.2.2.2.2.2.2.2.1 1 1 [] 3 (by decide)

/-! ### Deletion–contraction (claim C4) -/

/-- The triangle `K_3`. -/
def K3c : Graph := [(0, [1, 2]), (1, [0, 2]), (2, [0, 1])]

/-- The star with three leaves (a 4-vertex tree). -/
def Star4 : Graph := [(0, [1, 2, 3]), (1, [0]), (2, [0]), (3, [0])]

/-- The path on five vertices (a tree). -/
def P5c : Graph := [(0, [1]), (1, [0, 2]), (2, [1, 3]), (3, [2, 4]), (4, [3])]

/-- A six-vertex tree. -/
def T6c : Graph := [(0, [1]), (1, [0, 2, 3]), (2, [1]), (3, [1, 4, 5]), (4, [3]), (5, [3])]

set_option maxHeartbeats 1600000 in
/-- C4: `compute_chromatic_polynomial` implements the deletion–contraction
recurrence with its two base cases — a self-loop yields the zero polynomial
`[0]`, an edgeless graph yields `x^n`, and otherwise the result for the
picked edge `(u, v)` is `P(G−e) − P(G∕e)` — and on the cited instances:
`K_3 ↦ [1, -3, 2, 0]` evaluating to 6 at `x = 3`, `K_4` yields the falling
factorial, and the trees `P_4`, the 3-leaf star, `P_5` and a six-vertex
tree yield the coefficients of `x(x−1)^(n−1)`. -/
theorem C4_deletion_contraction :
    (∀ (fuel : Nat) (adj : Graph), hasSelfLoopB adj = true →
      compute_chromatic_polynomial fuel adj = some [0]) ∧
    (∀ (fuel : Nat) (adj : Graph), hasSelfLoopB adj = false →
      adj.all (fun p => p.snd.isEmpty) = true →
      compute_chromatic_polynomial fuel adj =
        some ((1 : Int) :: List.replicate adj.length 0)) ∧
    (∀ (fuel : Nat) (adj : Graph) (u v : Nat) (cd cc : List Int),
      hasSelfLoopB adj = false →
      adj.all (fun p => p.snd.isEmpty) = false →
      pickEdge adj = some (u, v) →
      compute_chromatic_polynomial fuel (deleteEdge adj u v) = some cd →
      compute_chromatic_polynomial fuel (contract_edge adj u v) = some cc →
      compute_chromatic_polynomial (fuel + 1) adj = some (subtractPadded cd cc)) ∧
    (compute_chromatic_polynomial 20 K3c = some [1, -3, 2, 0] ∧
     evaluate_chromatic_polynomial [1, -3, 2, 0] 3 = 6 ∧
     compute_chromatic_polynomial 40 K4g = some [1, -6, 11, -6, 0] ∧
     compute_chromatic_polynomial 20 P4g = some [1, -3, 3, -1, 0] ∧
     compute_chromatic_polynomial 20 Star4 = some [1, -3, 3, -1, 0] ∧
     compute_chromatic_polynomial 30 P5c = some [1, -4, 6, -4, 1, 0] ∧
     compute_chromatic_polynomial 40 T6c = some [1, -5, 10, -10, 5, -1, 0]) := by
  refine ⟨?_, ?_, ?_, by decide⟩
  · intro fuel adj hsl
    unfold compute_chromatic_polynomial
    rw [hsl, if_pos rfl]
  · intro fuel adj hsl hall
    unfold compute_chromatic_polynomial
    simp only [hsl, Bool.false_eq_true, if_false, hall, if_true]
  · intro fuel adj u v cd cc hsl hall hpick hcd hcc
    unfold compute_chromatic_polynomial
    simp only [hsl, Bool.false_eq_true, if_false, hall, hpick, hcd, hcc]

theorem C4_deletion_contraction_witness :
    compute_chromatic_polynomial 20 K3c = some (subtractPadded [1, -2, 1, 0] [1, -1, 0]) :=
  C4_deletion_contraction.2.2.1 19 K3c 0 1 [1, -2, 1, 0] [1, -1, 0]
    (by decide) (by decide) (by decide) (by decide) (by decide)

end KColorAPI
